import Mathlib

/-!
Verification development for the `pathfinding` graph-search library
(`src/directed/astar.rs`, `src/directed/bfs.rs`, `src/directed/mod.rs`).

The Rust code is shallowly embedded as executable Lean functions:

* nodes are an arbitrary type `N` with decidable equality (Rust `Eq + Hash`;
  the hasher only affects performance, not behaviour, so it is not modelled);
* costs are `Nat` (the claims under consideration all assume non-negative
  edge costs; `Nat` makes that hypothesis structural);
* `indexmap::IndexMap` is modelled as an insertion-ordered association list
  `List (N × V)`: `get_index i` is `l[i]?`, the entry API looks the key up
  by `=` and appends fresh keys at the end;
* `std::collections::BinaryHeap` is modelled as a list together with a
  `popGreatest` operation that removes one greatest element with respect to
  the source ordering (Rust's order of equal elements is unspecified; the
  model deterministically takes the first greatest occurrence);
* loops are given explicit fuel; running out of fuel is a distinguished
  result, so every theorem about a run that *returned* is faithful to the
  Rust control flow.
-/

set_option maxHeartbeats 1000000

namespace PF

/-- Mirror of `SmallestCostHolder` from `src/directed/astar.rs` (cost type
instantiated at `Nat`). -/
structure SmallestCostHolder where
  estimated_cost : Nat
  cost : Nat
  index : Nat
deriving Repr, DecidableEq

/-- Mirror of `impl Ord for SmallestCostHolder` (`astar.rs` lines 380-387):
`match other.estimated_cost.cmp(&self.estimated_cost) { Equal =>
self.cost.cmp(&other.cost), s => s }`. -/
def holderCmp (a b : SmallestCostHolder) : Ordering :=
  match compare b.estimated_cost a.estimated_cost with
  | .eq => compare a.cost b.cost
  | s => s

/-- Model of `BinaryHeap::pop`: remove one greatest element with respect to
`holderCmp` (the first greatest occurrence; Rust leaves ties unspecified). -/
def popGreatest : List SmallestCostHolder → Option (SmallestCostHolder × List SmallestCostHolder)
  | [] => none
  | a :: rest =>
    match popGreatest rest with
    | none => some (a, [])
    | some (b, rest2) => if holderCmp a b = .lt then some (b, a :: rest2) else some (a, rest)

theorem holderCmp_lt_iff (a b : SmallestCostHolder) :
    holderCmp a b = .lt ↔
      (b.estimated_cost < a.estimated_cost ∨
        (b.estimated_cost = a.estimated_cost ∧ a.cost < b.cost)) := by
  unfold holderCmp
  rcases hcmp : compare b.estimated_cost a.estimated_cost with _ | _ | _
  · simp only [hcmp]
    rw [Nat.compare_eq_lt] at hcmp
    simp [hcmp]
  · simp only [hcmp]
    rw [Nat.compare_eq_eq] at hcmp
    rw [Nat.compare_eq_lt]
    constructor
    · intro hc; exact Or.inr ⟨hcmp, hc⟩
    · intro hc; omega
  · simp only [hcmp]
    rw [Nat.compare_eq_gt] at hcmp
    constructor
    · intro hc; exact Ordering.noConfusion hc
    · intro hc; omega

theorem not_holderCmp_lt (a b : SmallestCostHolder) (h : holderCmp a b ≠ .lt) :
    a.estimated_cost ≤ b.estimated_cost := by
  by_contra hlt
  exact h ((holderCmp_lt_iff a b).2 (Or.inl (Nat.lt_of_not_le hlt)))

theorem popGreatest_eq_none {l : List SmallestCostHolder} (h : popGreatest l = none) :
    l = [] := by
  cases l with
  | nil => rfl
  | cons a t =>
    exfalso
    simp only [popGreatest] at h
    cases htail : popGreatest t with
    | none => rw [htail] at h; exact Option.noConfusion h
    | some p =>
      obtain ⟨b, r⟩ := p
      rw [htail] at h
      simp only at h
      by_cases hc : holderCmp a b = .lt
      · rw [if_pos hc] at h; exact Option.noConfusion h
      · rw [if_neg hc] at h; exact Option.noConfusion h

theorem popGreatest_perm :
    ∀ l m rest, popGreatest l = some (m, rest) → l.Perm (m :: rest) := by
  intro l
  induction l with
  | nil => intro m rest h; cases h
  | cons a t ih =>
    intro m rest h
    simp only [popGreatest] at h
    cases htail : popGreatest t with
    | none =>
      rw [htail] at h
      simp only [Option.some.injEq, Prod.mk.injEq] at h
      obtain ⟨h1, h2⟩ := h
      subst h1; subst h2
      rw [popGreatest_eq_none htail]
    | some p =>
      obtain ⟨b, rest2⟩ := p
      rw [htail] at h
      simp only at h
      by_cases hc : holderCmp a b = .lt
      · rw [if_pos hc] at h
        simp only [Option.some.injEq, Prod.mk.injEq] at h
        obtain ⟨h1, h2⟩ := h
        subst h1; subst h2
        have ht := ih b rest2 htail
        exact (ht.cons a).trans (List.Perm.swap b a rest2)
      · rw [if_neg hc] at h
        simp only [Option.some.injEq, Prod.mk.injEq] at h
        obtain ⟨h1, h2⟩ := h
        subst h1; subst h2
        exact List.Perm.refl _

theorem popGreatest_max :
    ∀ l m rest, popGreatest l = some (m, rest) → ∀ x ∈ l, holderCmp m x ≠ .lt := by
  intro l
  induction l with
  | nil => intro m rest h; cases h
  | cons a t ih =>
    intro m rest h x hx
    simp only [popGreatest] at h
    cases htail : popGreatest t with
    | none =>
      rw [htail] at h
      simp only [Option.some.injEq, Prod.mk.injEq] at h
      obtain ⟨h1, h2⟩ := h
      subst h1; subst h2
      have ht := popGreatest_eq_none htail
      subst ht
      rcases List.mem_cons.1 hx with rfl | hxt
      · intro hc
        rw [holderCmp_lt_iff] at hc
        omega
      · cases hxt
    | some p =>
      obtain ⟨b, rest2⟩ := p
      rw [htail] at h
      simp only at h
      by_cases hc : holderCmp a b = .lt
      · rw [if_pos hc] at h
        simp only [Option.some.injEq, Prod.mk.injEq] at h
        obtain ⟨h1, h2⟩ := h
        subst h1; subst h2
        rcases List.mem_cons.1 hx with rfl | hxt
        · intro hma
          rw [holderCmp_lt_iff] at hc hma
          omega
        · exact ih b rest2 htail x hxt
      · rw [if_neg hc] at h
        simp only [Option.some.injEq, Prod.mk.injEq] at h
        obtain ⟨h1, h2⟩ := h
        subst h1; subst h2
        rcases List.mem_cons.1 hx with rfl | hxt
        · intro hxx
          rw [holderCmp_lt_iff] at hxx
          omega
        · intro hmx
          have hmb := ih b rest2 htail x hxt
          rw [ne_eq, holderCmp_lt_iff] at hmb
          rw [holderCmp_lt_iff] at hmx hc
          omega

theorem popGreatest_mem {l : List SmallestCostHolder} {m rest}
    (h : popGreatest l = some (m, rest)) : m ∈ l :=
  (popGreatest_perm l m rest h).symm.subset (List.mem_cons_self m rest)

theorem popGreatest_rest_subset {l : List SmallestCostHolder} {m rest}
    (h : popGreatest l = some (m, rest)) : ∀ x ∈ rest, x ∈ l :=
  fun x hx => (popGreatest_perm l m rest h).symm.subset (List.mem_cons_of_mem m hx)

/-! ### Insertion-ordered map model (`indexmap::IndexMap`)

A registry is a `List (N × V)`; `get_index i` is `l[i]?`.  `findEntry` is the
entry lookup: it returns the position and current value of a key, or `none`
when the key is vacant (fresh keys are appended at the end, so a vacant
key's future index is the current length). -/

variable {N V : Type}

/-- Position and value of a key in an insertion-ordered map. -/
def findEntry [DecidableEq N] : List (N × V) → N → Option (Nat × V)
  | [], _ => none
  | (k, v) :: rest, key =>
    if key = k then some (0, v)
    else (findEntry rest key).map (fun p => (p.1 + 1, p.2))

/-- Replace the value stored at position `j`, keeping the key (the
`IndexMap` occupied-entry `insert`). -/
def setVal : List (N × V) → Nat → V → List (N × V)
  | [], _, _ => []
  | (k, _) :: rest, 0, w => (k, w) :: rest
  | (k, v) :: rest, j+1, w => (k, v) :: setVal rest j w

/-! ### Path reconstruction (`reverse_path` in `src/directed/mod.rs`)

The source walks `parents.get_index(i)`, moving `i` to the extracted parent
reference, until `get_index` fails; the root sentinel is `usize::MAX`, whose
lookup always fails, and is modelled by `none`.  The walk is given fuel
`parents.length + 1`, which suffices whenever the parent chains are acyclic
(they are, in every reachable state; proved below for the states that
matter). -/

/-- Collect the chain of nodes from index `i` following `f`-extracted parent
references (most recent node first, i.e. before the final reversal). -/
def reversePathAux [DecidableEq N] (parents : List (N × V)) (f : V → Option Nat) :
    Nat → Nat → List N
  | 0, _ => []
  | fuel+1, i =>
    match parents[i]? with
    | none => []
    | some (n, v) =>
      match f v with
      | none => [n]
      | some p => n :: reversePathAux parents f fuel p

/-- Mirror of `reverse_path` (`mod.rs` lines 21-38). -/
def reverse_path [DecidableEq N] (parents : List (N × V)) (f : V → Option Nat) (i : Nat) :
    List N :=
  (reversePathAux parents f (parents.length + 1) i).reverse

/-! ### `astar` (single optimal path), `src/directed/astar.rs` lines 125-193

The registry value of `astar` is the pair `(parent index, best cost)`.  Two
extra *ghost* fields are carried for the proofs only: `done` records that the
node was expanded at its current cost, and `stamp` records the logical time
of the last write.  They are never read by the algorithm (no control flow
depends on them), so erasing them yields exactly the source registry. -/

/-- Registry entry of `astar`: source value `(usize, C)` plus ghost fields. -/
structure AEntry where
  parent : Option Nat
  cost : Nat
  done : Bool
  stamp : Nat
deriving Repr, DecidableEq

/-- Loop state of `astar`: the frontier heap and the registry (plus the
ghost write clock). -/
structure AState (N : Type) where
  to_see : List SmallestCostHolder
  parents : List (N × AEntry)
  clock : Nat
deriving Repr, DecidableEq

/-- Result of a full `astar` run; `outOfFuel` marks a run that did not
finish within the given fuel (the Rust loop has no fuel; all claims are
about runs that returned). -/
inductive ARes (N : Type) where
  | found : List N → Nat → ARes N
  | noPath : ARes N
  | outOfFuel : ARes N
deriving Repr, DecidableEq

/-- One successor relaxation of `astar` (`astar.rs` lines 164-190): `index`
and `cost` are the popped entry's registry index and accumulated cost, `sw`
the `(successor, move_cost)` pair. -/
def relaxOne [DecidableEq N] (h : N → Nat) (index cost : Nat) (st : AState N)
    (sw : N × Nat) : AState N :=
  let new_cost := cost + sw.2
  match findEntry st.parents sw.1 with
  | none =>
    -- Vacant: insert at the end and push a frontier entry.
    { to_see := ⟨new_cost + h sw.1, new_cost, st.parents.length⟩ :: st.to_see,
      parents := st.parents ++ [(sw.1, ⟨some index, new_cost, false, st.clock⟩)],
      clock := st.clock + 1 }
  | some (j, e) =>
    if new_cost < e.cost then
      -- Occupied with `e.get().1 > new_cost`: update and push.
      { to_see := ⟨new_cost + h sw.1, new_cost, j⟩ :: st.to_see,
        parents := setVal st.parents j ⟨some index, new_cost, false, st.clock⟩,
        clock := st.clock + 1 }
    else st

/-- Set the ghost `done` flag of entry `i` (bookkeeping done when a popped
live entry is expanded; not present in the source). -/
def setDone : List (N × AEntry) → Nat → List (N × AEntry)
  | [], _ => []
  | (k, e) :: rest, 0 => (k, ⟨e.parent, e.cost, true, e.stamp⟩) :: rest
  | (k, e) :: rest, j+1 => (k, e) :: setDone rest j

/-- Set the ghost `done` flag of entry `i` in a state. -/
def markDone (st : AState N) (i : Nat) : AState N :=
  { st with parents := setDone st.parents i }

/-- Result of one iteration of the `while let` loop of `astar`. -/
inductive AStepRes (N : Type) where
  | ret : Option (List N × Nat) → AStepRes N
  | next : AState N → AStepRes N
deriving DecidableEq

/-- One iteration of the main loop of `astar` (`astar.rs` lines 149-191):
pop, goal check, staleness check, expansion.  The impossible
`get_index(index).unwrap()` failure (the source would panic) is modelled as
`ret none`; it is never taken from a reachable state. -/
def astarStep [DecidableEq N] (succs : N → List (N × Nat)) (h : N → Nat)
    (goal : N → Bool) (st : AState N) : AStepRes N :=
  match popGreatest st.to_see with
  | none => .ret none
  | some (hd, rest) =>
    match st.parents[hd.index]? with
    | none => .ret none
    | some (node, e) =>
      if goal node then
        .ret (some (reverse_path st.parents (fun v => v.parent) hd.index, hd.cost))
      else if e.cost < hd.cost then
        -- `cost > c`: stale entry, discard.
        .next { st with to_see := rest }
      else
        -- Expansion; the ghost `done` mark is recorded once all successors
        -- of the popped entry have been relaxed.
        .next (markDone (List.foldl (relaxOne h hd.index hd.cost)
          { st with to_see := rest } (succs node)) hd.index)

/-- The fuelled main loop of `astar`. -/
def astarLoop [DecidableEq N] (succs : N → List (N × Nat)) (h : N → Nat)
    (goal : N → Bool) : Nat → AState N → ARes N
  | 0, _ => .outOfFuel
  | fuel+1, st =>
    match astarStep succs h goal st with
    | .ret (some (p, c)) => .found p c
    | .ret none => .noPath
    | .next st2 => astarLoop succs h goal fuel st2

/-- The initial state of `astar`: frontier seeded with the zero entry,
registry seeded with `(start, (usize::MAX, 0))`. -/
def astarInit [DecidableEq N] (start : N) : AState N :=
  { to_see := [⟨0, 0, 0⟩], parents := [(start, ⟨none, 0, false, 0⟩)], clock := 1 }

/-- Mirror of `astar` / `astar_with_hasher` (`astar.rs` lines 125-193),
with explicit fuel. -/
def astar [DecidableEq N] (fuel : Nat) (start : N) (succs : N → List (N × Nat))
    (h : N → Nat) (goal : N → Bool) : ARes N :=
  astarLoop succs h goal fuel (astarInit start)

/-! #### Observable call trace of `astar`

For the claims about *when* the goal predicate and the successors function
are invoked, each loop iteration's calls are recorded.  `goalCheck n c r`
records that the goal predicate was evaluated on `n` popped with
accumulated cost `c` while the registry's recorded best cost was `r`. -/

/-- Call-trace event. -/
inductive Ev (N : Type) where
  | goalCheck : N → Nat → Nat → Ev N
  | succCall : N → Ev N
deriving Repr, DecidableEq

/-- The calls performed by one iteration of the `astar` loop, derived from
the same pop/lookup as `astarStep`. -/
def astarStepEvs [DecidableEq N] (goal : N → Bool) (st : AState N) : List (Ev N) :=
  match popGreatest st.to_see with
  | none => []
  | some (hd, _) =>
    match st.parents[hd.index]? with
    | none => []
    | some (node, e) =>
      if goal node then [.goalCheck node hd.cost e.cost]
      else if e.cost < hd.cost then [.goalCheck node hd.cost e.cost]
      else [.goalCheck node hd.cost e.cost, .succCall node]

/-- The fuelled `astar` loop, also accumulating the call trace. -/
def astarLoopTrace [DecidableEq N] (succs : N → List (N × Nat)) (h : N → Nat)
    (goal : N → Bool) : Nat → AState N → List (Ev N) → ARes N × List (Ev N)
  | 0, _, acc => (.outOfFuel, acc)
  | fuel+1, st, acc =>
    let acc2 := acc ++ astarStepEvs goal st
    match astarStep succs h goal st with
    | .ret (some (p, c)) => (.found p c, acc2)
    | .ret none => (.noPath, acc2)
    | .next st2 => astarLoopTrace succs h goal fuel st2 acc2

/-- `astar` together with its call trace. -/
def astarTrace [DecidableEq N] (fuel : Nat) (start : N) (succs : N → List (N × Nat))
    (h : N → Nat) (goal : N → Bool) : ARes N × List (Ev N) :=
  astarLoopTrace succs h goal fuel (astarInit start) []

/-! ### `astar_bag` (all optimal paths), `src/directed/astar.rs` lines 219-321

`HashSet<usize>` values (`sinks` and the per-entry parent sets) are modelled
as duplicate-free lists with `insertNat`; Rust's set iteration order is
unspecified, the model keeps insertion order. -/

/-- `HashSet::insert` model on `List Nat`. -/
def insertNat (l : List Nat) (x : Nat) : List Nat := if x ∈ l then l else l ++ [x]

/-- Registry entry of `astar_bag`: `(HashSet<usize>, C)`. -/
structure BEntry where
  parents : List Nat
  cost : Nat
deriving Repr, DecidableEq

/-- Loop state of `astar_bag`. -/
structure BagState (N : Type) where
  to_see : List SmallestCostHolder
  min_cost : Option Nat
  sinks : List Nat
  parents : List (N × BEntry)
deriving Repr, DecidableEq

/-- One successor relaxation of `astar_bag` (`astar.rs` lines 267-303). -/
def bagRelaxOne [DecidableEq N] (h : N → Nat) (index cost : Nat) (st : BagState N)
    (sw : N × Nat) : BagState N :=
  let new_cost := cost + sw.2
  match findEntry st.parents sw.1 with
  | none =>
    { st with
      to_see := ⟨new_cost + h sw.1, new_cost, st.parents.length⟩ :: st.to_see,
      parents := st.parents ++ [(sw.1, ⟨[index], new_cost⟩)] }
  | some (j, e) =>
    if new_cost < e.cost then
      -- strictly better: replace the parent set by the singleton and push
      { st with
        to_see := ⟨new_cost + h sw.1, new_cost, j⟩ :: st.to_see,
        parents := setVal st.parents j ⟨[index], new_cost⟩ }
    else if e.cost = new_cost then
      -- equal cost: add the parent, do not push
      { st with parents := setVal st.parents j ⟨insertNat e.parents index, e.cost⟩ }
    else st

/-- Result of one iteration of the `astar_bag` loop; `finish` covers both
the `break` on `estimated_cost > min_cost` and heap exhaustion. -/
inductive BagStepRes (N : Type) where
  | finish : BagState N → BagStepRes N
  | next : BagState N → BagStepRes N

/-- One iteration of the main loop of `astar_bag` (`astar.rs` lines
243-304).  Note the source records the goal *before* the staleness check
and still expands goal nodes. -/
def bagStep [DecidableEq N] (succs : N → List (N × Nat)) (h : N → Nat)
    (goal : N → Bool) (st : BagState N) : BagStepRes N :=
  match popGreatest st.to_see with
  | none => .finish st
  | some (hd, rest) =>
    if (match st.min_cost with
        | some m => decide (m < hd.estimated_cost)
        | none => false) then
      .finish st
    else
      match st.parents[hd.index]? with
      | none => .finish st
      | some (node, e) =>
        let st1 :=
          if goal node then
            { st with
              to_see := rest
              min_cost := some hd.cost
              sinks := insertNat st.sinks hd.index }
          else { st with to_see := rest }
        if e.cost < hd.cost then .next st1
        else .next (List.foldl (bagRelaxOne h hd.index hd.cost) st1 (succs node))

/-- The fuelled main loop of `astar_bag`. -/
def bagLoop [DecidableEq N] (succs : N → List (N × Nat)) (h : N → Nat)
    (goal : N → Bool) : Nat → BagState N → Option (BagState N)
  | 0, _ => none
  | fuel+1, st =>
    match bagStep succs h goal st with
    | .finish st2 => some st2
    | .next st2 => bagLoop succs h goal fuel st2

/-- Mirror of `AstarSolution` (`astar.rs` lines 391-396).  The choice-list
stack `current` keeps its top at the *head* of the list (the source keeps
the top at the tail of the `Vec`); each choice list keeps the source's
`Vec` order, with the selected element at the tail. -/
structure AstarSolution (N : Type) where
  sinks : List Nat
  parents : List (N × List Nat)
  current : List (List Nat)
  terminated : Bool
deriving Repr, DecidableEq

/-- `self.parents(i)` of `AstarSolution`; out-of-range (a source panic) is
`none`. -/
def solParents (s : AstarSolution N) (i : Nat) : Option (List Nat) :=
  (s.parents[i]?).map Prod.snd

/-- `self.node(i)` of `AstarSolution`; out-of-range (a source panic) is
`none`. -/
def solNode (s : AstarSolution N) (i : Nat) : Option N :=
  (s.parents[i]?).map Prod.fst

/-- Mirror of `AstarSolution::complete` (`astar.rs` lines 399-410), with
fuel; `none` means the loop did not finish in `fuel` rounds (the Rust loop
would still be running) or hit a source panic. -/
def complete : Nat → AstarSolution N → Option (AstarSolution N)
  | 0, _ => none
  | fuel+1, s =>
    match (match s.current.head? with
           | none => some s.sinks
           | some last => last.getLast?.bind (solParents s)) with
    | none => none
    | some ps =>
      if ps.isEmpty then some s
      else complete fuel { s with current := ps :: s.current }

/-- Drop stack levels whose choice list has exactly one element
(`pop_if(|v| v.len() == 1)` loop of `next_vec`). -/
def dropSingles : List (List Nat) → List (List Nat)
  | [] => []
  | v :: rest => if v.length = 1 then dropSingles rest else v :: rest

/-- Mirror of `AstarSolution::next_vec` (`astar.rs` lines 412-415). -/
def next_vec (s : AstarSolution N) : AstarSolution N :=
  match dropSingles s.current with
  | [] => { s with current := [] }
  | top :: rest => { s with current := top.dropLast :: rest }

/-- Mirror of `<AstarSolution as Iterator>::next` (`astar.rs` lines
429-444), with fuel for `complete`:  `none` = the call does not return
within the fuel (or hits a source panic); `some (r, s2)` = the call
returns `r` leaving the iterator in state `s2`. -/
def solNext [DecidableEq N] (fuel : Nat) (s : AstarSolution N) :
    Option (Option (List N) × AstarSolution N) :=
  if s.terminated then some (none, s)
  else
    match complete fuel s with
    | none => none
    | some s2 =>
      -- `current.iter().rev()`: with the top at the head, our list is
      -- already in start-to-sink order.
      match s2.current.mapM (fun v => v.getLast?.bind (solNode s2)) with
      | none => none
      | some path =>
        let s3 := next_vec s2
        some (some path, { s3 with terminated := s3.current.isEmpty })

/-- The initial state of `astar_bag`. -/
def bagInit [DecidableEq N] (start : N) : BagState N :=
  { to_see := [⟨0, 0, 0⟩], min_cost := none, sinks := [],
    parents := [(start, ⟨[], 0⟩)] }

/-- Mirror of `astar_bag` (`astar.rs` lines 219-321), with explicit fuel:
`none` = out of fuel, `some none` = no path (`min_cost` never set),
`some (some (sol, c))` = the returned enumerator and cost. -/
def astar_bag [DecidableEq N] (fuel : Nat) (start : N) (succs : N → List (N × Nat))
    (h : N → Nat) (goal : N → Bool) : Option (Option (AstarSolution N × Nat)) :=
  (bagLoop succs h goal fuel (bagInit start)).map (fun st =>
    st.min_cost.map (fun cost =>
      ({ sinks := st.sinks,
         parents := st.parents.map (fun kv => (kv.1, kv.2.parents)),
         current := [], terminated := false }, cost)))

/-! ### BFS family, `src/directed/bfs.rs`

The registry value is the parent index, `usize::MAX` (sentinel of the
seeds) modelled as `none`.  `bfs_bidirectional` stores `Option<usize>`
directly in the source, so there the model is literal. -/

/-- Seed a registry from a start list, parent sentinel on every seed
(`parents.extend(start.iter().map(|n| (n, usize::MAX)))`; re-inserting an
existing key keeps its position). -/
def seedReg [DecidableEq N] (s : List N) : List (N × Option Nat) :=
  s.foldl (fun m n => if (findEntry m n).isSome then m else m ++ [(n, none)]) []

/-- The inner `for successor in successors(node)` loop of `bfs_core`
(`bfs.rs` lines 132-141): either an early return with the found path, or
the updated registry. -/
def bfsScan [DecidableEq N] (goal : N → Bool) (parents : List (N × Option Nat))
    (i : Nat) : List N → Sum (List N) (List (N × Option Nat))
  | [] => .inr parents
  | s :: rest =>
    if goal s then
      .inl (reverse_path parents (fun v => v) i ++ [s])
    else
      match findEntry parents s with
      | some _ => bfsScan goal parents i rest
      | none => bfsScan goal (parents ++ [(s, some i)]) i rest

/-- The fuelled `while let Some((node, _)) = parents.get_index(i)` loop of
`bfs_core` (`bfs.rs` lines 130-143): `none` = out of fuel, `some none` =
loop fell through (no path), `some (some p)` = found. -/
def bfsCore [DecidableEq N] (succs : N → List N) (goal : N → Bool) :
    Nat → List (N × Option Nat) → Nat → Option (Option (List N))
  | 0, _, _ => none
  | fuel+1, parents, i =>
    match parents[i]? with
    | none => some none
    | some (node, _) =>
      match bfsScan goal parents i (succs node) with
      | .inl path => some (some path)
      | .inr ps2 => bfsCore succs goal fuel ps2 (i+1)

/-- Mirror of `bfs` / `bfs_with_hasher` → `bfs_core` with `check_first =
true` (`bfs.rs` lines 67-145), with explicit fuel. -/
def bfs [DecidableEq N] (fuel : Nat) (start : List N) (succs : N → List N)
    (goal : N → Bool) : Option (Option (List N)) :=
  match start.find? goal with
  | some s => some (some [s])
  | none => bfsCore succs goal fuel (seedReg start) 0

/-- Mirror of `bfs_loop` (`bfs.rs` lines 155-184): `bfs_core` with goal
`|n| start.contains(n)` and `check_first = false`. -/
def bfs_loop [DecidableEq N] (fuel : Nat) (start : List N) (succs : N → List N) :
    Option (Option (List N)) :=
  bfsCore succs (fun n => decide (n ∈ start)) fuel (seedReg start) 0

/-! #### `bfs_bidirectional` (`bfs.rs` lines 266-344) -/

/-- The inner `for … in fn(node)` loop of one bidirectional scan step:
inserts unseen nodes into `own` with parent `i`, and breaks out with the
meeting node as soon as a produced node is a key of `other`. -/
def bidiInner [DecidableEq N] (own other : List (N × Option Nat)) (i : Nat) :
    List N → List (N × Option Nat) × Option N
  | [] => (own, none)
  | s :: rest =>
    let own2 := if (findEntry own s).isSome then own else own ++ [(s, some i)]
    if (findEntry other s).isSome then (own2, some s)
    else bidiInner own2 other i rest

/-- One `for _ in 0..(own.len() - i)` phase of `bfs_bidirectional`: scan
`k` registry entries starting at cursor `i` (the source computes `k` once,
before the phase).  Returns the updated registry, the new cursor, and the
meeting node if the phase broke out. -/
def bidiPhase [DecidableEq N] (gen : N → List N) :
    Nat → List (N × Option Nat) → List (N × Option Nat) → Nat →
    List (N × Option Nat) × Nat × Option N
  | 0, own, _, i => (own, i, none)
  | k+1, own, other, i =>
    match own[i]? with
    | none => (own, i, none)
    | some (node, _) =>
      match bidiInner own other i (gen node) with
      | (own2, some m) => (own2, i, some m)
      | (own2, none) => bidiPhase gen k own2 other (i+1)

/-- The fuelled `'l: loop` of `bfs_bidirectional`: forward phase over
`predecessors` via `successors_fn`, backward phase over `successors` via
`predecessors_fn`, exit when both cursors reach the registry lengths. -/
def bidiLoop [DecidableEq N] (succs_fn preds_fn : N → List N) :
    Nat → List (N × Option Nat) → List (N × Option Nat) → Nat → Nat →
    Option (Option N × List (N × Option Nat) × List (N × Option Nat))
  | 0, _, _, _, _ => none
  | fuel+1, preds, succsR, i_f, i_b =>
    match bidiPhase succs_fn (preds.length - i_f) preds succsR i_f with
    | (preds2, _, some m) => some (some m, preds2, succsR)
    | (preds2, i_f2, none) =>
      match bidiPhase preds_fn (succsR.length - i_b) succsR preds2 i_b with
      | (succs2, _, some m) => some (some m, preds2, succs2)
      | (succs2, i_b2, none) =>
        if i_f2 = preds2.length ∧ i_b2 = succs2.length then
          some (none, preds2, succs2)
        else bidiLoop succs_fn preds_fn fuel preds2 succs2 i_f2 i_b2

/-- The parent-chain walk of the path assembly (`while let Some(n) = node`
loops of `bfs_bidirectional`): collects `n` and follows `reg[&n]`'s parent
index to the parent's node. -/
def walkChain [DecidableEq N] (reg : List (N × Option Nat)) :
    Nat → N → List N
  | 0, _ => []
  | fuel+1, n =>
    n :: (match findEntry reg n with
      | none => []
      | some (_, none) => []
      | some (_, some i) =>
        match reg[i]? with
        | none => []
        | some (k, _) => walkChain reg fuel k)

/-- Path assembly of `bfs_bidirectional` (`bfs.rs` lines 324-343): walk
from the middle to a start seed in `preds`, reverse, then append the walk
from the middle's parent in `succsR` to an end seed. -/
def bidiAssemble [DecidableEq N] (preds succsR : List (N × Option Nat)) (middle : N) :
    List N :=
  let before := (walkChain preds (preds.length + 1) middle).reverse
  let after :=
    match findEntry succsR middle with
    | some (_, some i) =>
      match succsR[i]? with
      | some (k, _) => walkChain succsR (succsR.length + 1) k
      | none => []
    | _ => []
  before ++ after

/-- Mirror of `bfs_bidirectional` / `bfs_bidirectional_with_hasher`
(`bfs.rs` lines 266-344), with explicit fuel. -/
def bfs_bidirectional [DecidableEq N] (fuel : Nat) (start finish : List N)
    (succs_fn preds_fn : N → List N) : Option (Option (List N)) :=
  (bidiLoop succs_fn preds_fn fuel (seedReg start) (seedReg finish) 0 0).map
    (fun r =>
      match r with
      | (some m, preds2, succs2) => some (bidiAssemble preds2 succs2 m)
      | (none, _, _) => none)

/-! ### Graph paths

`PathFrom succs a l e c`: `l` is a path in the weighted implicit graph
from `a` to `e` whose consecutive steps are edges produced by `succs`, and
`c` is the sum of the chosen edge costs.  `UPathFrom` is the unit-cost
analogue for the BFS family. -/

/-- Weighted path predicate: node list, endpoint and edge-cost sum. -/
inductive PathFrom (succs : N → List (N × Nat)) : N → List N → N → Nat → Prop where
  | single (a : N) : PathFrom succs a [a] a 0
  | cons {a b e : N} {l : List N} {w c : Nat} :
      (b, w) ∈ succs a → PathFrom succs b l e c → PathFrom succs a (a :: l) e (w + c)

/-- Unit-cost path predicate for the BFS family. -/
inductive UPathFrom (succs : N → List N) : N → List N → N → Prop where
  | single (a : N) : UPathFrom succs a [a] a
  | cons {a b e : N} {l : List N} :
      b ∈ succs a → UPathFrom succs b l e → UPathFrom succs a (a :: l) e

/-- Admissibility of a heuristic: it never exceeds the cost of any path
to a goal-satisfying node (spec §4.1: "must never overestimate true
remaining cost"). -/
def Admissible (succs : N → List (N × Nat)) (goal : N → Bool) (h : N → Nat) : Prop :=
  ∀ v l e c, PathFrom succs v l e c → goal e = true → h v ≤ c

/-! ## Claim C8: frontier ordering -/

theorem holderCmp_gt_iff (a b : SmallestCostHolder) :
    holderCmp a b = .gt ↔
      (a.estimated_cost < b.estimated_cost ∨
        (a.estimated_cost = b.estimated_cost ∧ b.cost < a.cost)) := by
  unfold holderCmp
  rcases hcmp : compare b.estimated_cost a.estimated_cost with _ | _ | _
  · simp only [hcmp]
    rw [Nat.compare_eq_lt] at hcmp
    constructor
    · intro hc; exact Ordering.noConfusion hc
    · intro hc; omega
  · simp only [hcmp]
    rw [Nat.compare_eq_eq] at hcmp
    rw [Nat.compare_eq_gt]
    constructor
    · intro hc; exact Or.inr ⟨hcmp.symm, hc⟩
    · intro hc; omega
  · simp only [hcmp]
    rw [Nat.compare_eq_gt] at hcmp
    simp [hcmp]

/-- Claim C8.  `BinaryHeap::pop` removes a greatest element in the
`SmallestCostHolder` order, so "popped first" is "greater": an entry is
ranked strictly greater exactly when its estimated cost is smaller, or the
estimated costs tie and its accumulated cost is larger.  Consequently the
element extracted by a pop minimises the estimated cost over the heap and,
among entries of equal estimated cost, maximises the accumulated cost. -/
theorem claim_C8_frontier_order :
    (∀ a b : SmallestCostHolder,
        holderCmp a b = .gt ↔
          (a.estimated_cost < b.estimated_cost ∨
            (a.estimated_cost = b.estimated_cost ∧ b.cost < a.cost))) ∧
    (∀ l m rest, popGreatest l = some (m, rest) → ∀ x ∈ l,
        m.estimated_cost ≤ x.estimated_cost ∧
          (m.estimated_cost = x.estimated_cost → x.cost ≤ m.cost)) := by
  refine ⟨holderCmp_gt_iff, fun l m rest hpop x hx => ?_⟩
  have hmax := popGreatest_max l m rest hpop x hx
  rw [ne_eq, holderCmp_lt_iff] at hmax
  constructor
  · omega
  · intro he; omega

/-- Witness for C8 at concrete entries: `⟨3, 7, 0⟩` is ranked greater than
(popped before) both `⟨4, 9, 1⟩` (smaller estimate) and `⟨3, 5, 2⟩` (equal
estimate, larger accumulated cost). -/
theorem claim_C8_witness :
    holderCmp ⟨3, 7, 0⟩ ⟨4, 9, 1⟩ = .gt ∧ holderCmp ⟨3, 7, 0⟩ ⟨3, 5, 2⟩ = .gt :=
  ⟨(claim_C8_frontier_order.1 _ _).2 (Or.inl (by decide)),
   (claim_C8_frontier_order.1 _ _).2 (Or.inr (by decide))⟩

/-! ## Claim C5: the three cases of the `astar_bag` expansion step -/

/-- Claim C5.  One successor relaxation of `astar_bag`, with the successor
occupied in the registry at position `j` with parent set `ps0` and recorded
best cost `c0`, and candidate cost `cost + w`:
strictly smaller ⟹ the parent set is replaced by exactly `[index]`, the
cost is updated, and one frontier entry is pushed; equal ⟹ `index` is
added to the existing parent set and nothing is pushed; larger ⟹ the
state is unchanged. -/
theorem claim_C5_bag_relax_cases {N : Type} [DecidableEq N] (h : N → Nat)
    (index cost : Nat) (st : BagState N) (s : N) (w j : Nat) (ps0 : List Nat)
    (c0 : Nat) (hfind : findEntry st.parents s = some (j, ⟨ps0, c0⟩)) :
    (cost + w < c0 →
      bagRelaxOne h index cost st (s, w) =
        { st with
          to_see := ⟨cost + w + h s, cost + w, j⟩ :: st.to_see
          parents := setVal st.parents j ⟨[index], cost + w⟩ }) ∧
    (cost + w = c0 →
      bagRelaxOne h index cost st (s, w) =
        { st with parents := setVal st.parents j ⟨insertNat ps0 index, c0⟩ }) ∧
    (c0 < cost + w → bagRelaxOne h index cost st (s, w) = st) := by
  refine ⟨fun hlt => ?_, fun heq => ?_, fun hgt => ?_⟩
  · unfold bagRelaxOne
    rw [hfind]
    simp only
    rw [if_pos hlt]
  · unfold bagRelaxOne
    rw [hfind]
    simp only
    rw [if_neg (by omega), if_pos (by omega)]
  · unfold bagRelaxOne
    rw [hfind]
    simp only
    rw [if_neg (by omega), if_neg (by omega)]

/-- Witness for C5 on a concrete state: registry `[(7, ⟨[0], 5⟩)]` and the
three candidate costs 3, 5 and 9 realise the three cases. -/
theorem claim_C5_witness :
    (bagRelaxOne (fun _ => 0) 0 2 ⟨[], none, [], [((7 : Fin 8), ⟨[0], 5⟩)]⟩ (7, 1) =
      { to_see := [⟨3, 3, 0⟩], min_cost := none, sinks := [],
        parents := [((7 : Fin 8), ⟨[0], 3⟩)] }) ∧
    (bagRelaxOne (fun _ => 0) 0 2 ⟨[], none, [], [((7 : Fin 8), ⟨[0], 5⟩)]⟩ (7, 3) =
      { to_see := [], min_cost := none, sinks := [],
        parents := [((7 : Fin 8), ⟨[0], 5⟩)] }) ∧
    (bagRelaxOne (fun _ => 0) 0 2 ⟨[], none, [], [((7 : Fin 8), ⟨[0], 5⟩)]⟩ (7, 9) =
      ⟨[], none, [], [((7 : Fin 8), ⟨[0], 5⟩)]⟩) := by
  refine ⟨?_, ?_, ?_⟩
  · exact (claim_C5_bag_relax_cases (fun _ => 0) 0 2 _ 7 1 0 [0] 5 (by decide)).1
      (by decide)
  · exact ((claim_C5_bag_relax_cases (fun _ => 0) 0 2 _ 7 3 0 [0] 5 (by decide)).2.1
      (by decide)).trans (by decide)
  · exact (claim_C5_bag_relax_cases (fun _ => 0) 0 2 _ 7 9 0 [0] 5 (by decide)).2.2
      (by decide)

/-! ## Claim C4: order of the staleness check and the goal check

In the source (`astar.rs` lines 149-163) the goal predicate is evaluated on
the popped entry *before* the `cost > c` staleness test, contrary to the
claim.  The counterexample exhibits (a) a loop state whose popped entry is
stale (accumulated cost 5, recorded best 2) and goal-satisfying, on which
the loop body returns instead of discarding, and (b) a complete concrete
run in which the goal predicate is invoked on a stale popped entry. -/

/-- Successor function of the C4 counterexample run: `0 → 1` cost 5,
`0 → 2` cost 1, `2 → 1` cost 1 (node 1 is reached expensively first and
cheaply later, so the cost-5 frontier entry for node 1 goes stale). -/
def c4succs : Fin 3 → List (Fin 3 × Nat) := fun n =>
  if n = 0 then [(1, 5), (2, 1)] else if n = 2 then [(1, 1)] else []

/-- Counterexample to claim C4, refuting "every popped frontier entry whose
accumulated cost exceeds the registry's currently recorded best cost for
its index is discarded and the loop continues … because the staleness check
is performed before the goal check": (a) on a state whose popped entry has
accumulated cost 5 while the registry records best cost 2 for index 1, with
the goal satisfied at that node, the loop body *returns* `([0, 1], 5)`
rather than discarding the entry; (b) in the run of `astar` on `c4succs`
with an always-false goal, the goal predicate is evaluated on node 1 popped
with accumulated cost 5 while the registry already records 2. -/
theorem claim_C4_counterexample :
    (astarStep c4succs (fun _ => 0) (fun n => n == 1)
        { to_see := [⟨5, 5, 1⟩],
          parents := [(0, ⟨none, 0, true, 0⟩), (1, ⟨some 0, 2, false, 3⟩)],
          clock := 4 } =
      .ret (some ([0, 1], 5))) ∧
    ((astarTrace 10 0 c4succs (fun _ => 0) (fun _ => false)).2.contains
        (Ev.goalCheck 1 5 2) = true ∧ 2 < 5) := by
  refine ⟨by decide, by decide, by decide⟩

/-- Claim C4 as amended: in `astar`'s loop body the goal check is performed
*before* the staleness check; a popped entry whose accumulated cost exceeds
the recorded best cost for its index is discarded (no expansion, no
registry change) only when its node fails the goal predicate, and causes an
immediate return (with its — stale — accumulated cost) when its node
satisfies the goal predicate. -/
theorem claim_C4_amended {N : Type} [DecidableEq N] (succs : N → List (N × Nat))
    (h : N → Nat) (goal : N → Bool) (st : AState N) (hd : SmallestCostHolder)
    (rest : List SmallestCostHolder) (node : N) (e : AEntry)
    (hpop : popGreatest st.to_see = some (hd, rest))
    (hget : st.parents[hd.index]? = some (node, e))
    (hstale : e.cost < hd.cost) :
    (goal node = false →
      astarStep succs h goal st = .next { st with to_see := rest }) ∧
    (goal node = true →
      astarStep succs h goal st =
        .ret (some (reverse_path st.parents (fun v => v.parent) hd.index, hd.cost))) := by
  constructor
  · intro hg
    simp only [astarStep, hpop, hget, hg, Bool.false_eq_true, if_false]
    rw [if_pos hstale]
  · intro hg
    simp only [astarStep, hpop, hget, hg, if_true]

/-- Witness for the amended C4 at a concrete stale state (both branches). -/
theorem claim_C4_witness :
    (astarStep c4succs (fun _ => 0) (fun _ => false)
        { to_see := [⟨5, 5, 1⟩],
          parents := [(0, ⟨none, 0, true, 0⟩), (1, ⟨some 0, 2, false, 3⟩)],
          clock := 4 } =
      .next { to_see := [],
              parents := [(0, ⟨none, 0, true, 0⟩), (1, ⟨some 0, 2, false, 3⟩)],
              clock := 4 }) ∧
    (astarStep c4succs (fun _ => 0) (fun n => n == 1)
        { to_see := [⟨5, 5, 1⟩],
          parents := [(0, ⟨none, 0, true, 0⟩), (1, ⟨some 0, 2, false, 3⟩)],
          clock := 4 } =
      .ret (some ([0, 1], 5))) := by
  constructor
  · exact (claim_C4_amended c4succs (fun _ => 0) (fun _ => false)
      { to_see := [⟨5, 5, 1⟩],
        parents := [(0, ⟨none, 0, true, 0⟩), (1, ⟨some 0, 2, false, 3⟩)],
        clock := 4 } ⟨5, 5, 1⟩ []
      (1 : Fin 3) ⟨some 0, 2, false, 3⟩ (by decide) (by decide) (by decide)).1 rfl
  · have := (claim_C4_amended c4succs (fun _ => 0) (fun n => n == 1)
      { to_see := [⟨5, 5, 1⟩],
        parents := [(0, ⟨none, 0, true, 0⟩), (1, ⟨some 0, 2, false, 3⟩)],
        clock := 4 } ⟨5, 5, 1⟩ []
      (1 : Fin 3) ⟨some 0, 2, false, 3⟩ (by decide) (by decide) (by decide)).2 (by decide)
    exact this.trans (by decide)

/-! ## Claim C9: a start node that already satisfies the goal -/

/-- Claim C9.  If the goal predicate holds on the start node, `astar`
returns `Some(([start], 0))` on its first iteration, and the whole run
performs exactly one goal check and never calls the successors function
(the trace is `[goalCheck start 0 0]`, with no `succCall` event). -/
theorem claim_C9_trivial_start {N : Type} [DecidableEq N] (start : N)
    (succs : N → List (N × Nat)) (h : N → Nat) (goal : N → Bool) (fuel : Nat)
    (hfuel : 1 ≤ fuel) (hgoal : goal start = true) :
    astar fuel start succs h goal = .found [start] 0 ∧
    astarTrace fuel start succs h goal =
      (.found [start] 0, [.goalCheck start 0 0]) := by
  cases fuel with
  | zero => omega
  | succ f =>
    constructor
    · simp [astar, astarLoop, astarStep, astarInit, popGreatest, hgoal,
        reverse_path, reversePathAux]
    · simp [astarTrace, astarLoopTrace, astarStep, astarStepEvs, astarInit,
        popGreatest, hgoal, reverse_path, reversePathAux]

/-- Witness for C9: a concrete one-node graph whose start satisfies the
goal. -/
theorem claim_C9_witness :
    astar 1 (0 : Fin 1) (fun _ => [(0, 1)]) (fun _ => 0) (fun _ => true) =
      .found [0] 0 ∧
    astarTrace 1 (0 : Fin 1) (fun _ => [(0, 1)]) (fun _ => 0) (fun _ => true) =
      (.found [0] 0, [.goalCheck 0 0 0]) :=
  claim_C9_trivial_start (0 : Fin 1) (fun _ => [(0, 1)]) (fun _ => 0)
    (fun _ => true) 1 (by decide) rfl

/-! ## Claim C10: meeting detection never fires on seeded nodes -/

theorem bidiPhase_empty {N : Type} [DecidableEq N] :
    ∀ (k : Nat) (own other : List (N × Option Nat)) (i : Nat),
      i + k = own.length →
      bidiPhase (fun _ => []) k own other i = (own, own.length, none) := by
  intro k
  induction k with
  | zero =>
    intro own other i hi
    simp only [bidiPhase]
    have hlen : i = own.length := by omega
    rw [hlen]
  | succ k ih =>
    intro own other i hi
    have hlt : i < own.length := by omega
    simp only [bidiPhase, List.getElem?_eq_getElem hlt]
    exact ih own other (i+1) (by omega)

/-- Claim C10.  The meeting check of `bfs_bidirectional` is evaluated only
on nodes produced by `successors_fn` / `predecessors_fn`, never on the
seeded start/end nodes: with functions that produce nothing, the search
always reports "no path" — in particular, when the start set and end set
are the same single isolated node, `bfs_bidirectional` returns `None` even
though `bfs` returns the zero-length path `[n]` for the same query. -/
theorem claim_C10_seed_meeting {N : Type} [DecidableEq N] :
    (∀ (sset eset : List N) (fuel : Nat), 1 ≤ fuel →
      bfs_bidirectional fuel sset eset (fun _ => []) (fun _ => []) = some none) ∧
    (∀ (n : N) (fuel : Nat), 1 ≤ fuel →
      bfs_bidirectional fuel [n] [n] (fun _ => []) (fun _ => []) = some none ∧
      bfs fuel [n] (fun _ => []) (fun m => decide (m = n)) = some (some [n])) := by
    constructor
    · intro sset eset fuel hfuel
      cases fuel with
      | zero => omega
      | succ f =>
        unfold bfs_bidirectional bidiLoop
        simp only [Nat.sub_zero]
        rw [bidiPhase_empty (seedReg sset).length (seedReg sset) (seedReg eset) 0
          (by omega)]
        simp only
        rw [bidiPhase_empty (seedReg eset).length (seedReg eset) (seedReg sset) 0
          (by omega)]
        simp
    · intro n fuel hfuel
      constructor
      · cases fuel with
        | zero => omega
        | succ f =>
          unfold bfs_bidirectional bidiLoop
          simp only [Nat.sub_zero]
          rw [bidiPhase_empty (seedReg [n]).length (seedReg [n]) (seedReg [n]) 0
            (by omega)]
          simp only
          rw [bidiPhase_empty (seedReg [n]).length (seedReg [n]) (seedReg [n]) 0
            (by omega)]
          simp
      · simp [bfs, List.find?]

/-- Witness for C10 at the concrete isolated node `0 : Fin 1`. -/
theorem claim_C10_witness :
    bfs_bidirectional 1 [(0 : Fin 1)] [0] (fun _ => []) (fun _ => []) = some none ∧
    bfs 1 [(0 : Fin 1)] (fun _ => []) (fun m => decide (m = 0)) = some (some [0]) :=
  claim_C10_seed_meeting.2 0 1 (by decide)

/-! ## Claims C2 and C7: the lazy enumerator hangs on zero-cost cycles

On the graph `0 ⇄ 1` (both edges cost 0), `0 → 2` (cost 1), with goal node
2, the equal-cost branch of `astar_bag` records node 1 as a *parent of the
start node* (candidate cost `0 + 0` equals the start's recorded cost 0), so
the final parent table contains the cycle `0 → 1 → 0`.  `AstarSolution::
complete` walks parent sets until it reaches an empty one; on this table it
pushes `[1]`, `[0]`, `[1]`, … for ever, so the first `next()` call never
returns.  This contradicts the spec's own description (§4.3: the start node
has an "empty parent set, by construction"; the enumerator "must be
finite"), while the input satisfies the spec's data model (§3: edge costs
non-negative, heuristic `0` admissible). -/

/-- Successor function of the C2 failing input: a zero-cost cycle `0 ⇄ 1`
plus the goal edge `0 → 2` of cost 1. -/
def c2succs : Fin 3 → List (Fin 3 × Nat) := fun n =>
  if n = 0 then [(1, 0), (2, 1)] else if n = 1 then [(0, 0)] else []

/-- The enumerator state returned by `astar_bag` on `c2succs`: note
`parents` of the start entry 0 is `[1]`, not `[]`. -/
def c2sol : AstarSolution (Fin 3) :=
  { sinks := [2], parents := [(0, [1]), (1, [0]), (2, [0])],
    current := [], terminated := false }

theorem c2complete_cycle :
    ∀ (f : Nat) (cur : List (List Nat)) (l : List Nat),
      (l.getLast? = some 0 ∨ l.getLast? = some 1) →
      complete f
        { sinks := [2], parents := [((0 : Fin 3), [1]), (1, [0]), (2, [0])],
          current := l :: cur, terminated := false } = none := by
  intro f
  induction f with
  | zero => intro cur l _; rfl
  | succ f ih =>
    intro cur l hl
    rcases hl with h0 | h1
    · simp only [complete, List.head?_cons, h0, Option.some_bind]
      have hps : solParents
          { sinks := [2], parents := [((0 : Fin 3), [1]), (1, [0]), (2, [0])],
            current := l :: cur, terminated := false } 0 = some [1] := rfl
      rw [hps]
      simp only [List.isEmpty_cons, if_false]
      exact ih (l :: cur) [1] (Or.inr rfl)
    · simp only [complete, List.head?_cons, h1, Option.some_bind]
      have hps : solParents
          { sinks := [2], parents := [((0 : Fin 3), [1]), (1, [0]), (2, [0])],
            current := l :: cur, terminated := false } 1 = some [0] := rfl
      rw [hps]
      simp only [List.isEmpty_cons, if_false]
      exact ih (l :: cur) [0] (Or.inl rfl)

theorem c2complete_none : ∀ f, complete f c2sol = none := by
  intro f
  cases f with
  | zero => rfl
  | succ f =>
    cases f with
    | zero => rfl
    | succ f =>
      have h2 : complete (f + 2) c2sol =
          complete f
            { sinks := [2], parents := [((0 : Fin 3), [1]), (1, [0]), (2, [0])],
              current := [[0], [2]], terminated := false } := rfl
      rw [h2]
      exact c2complete_cycle f [[2]] [0] (Or.inl rfl)

/-- Claim C2, failing run (code bug).  On the failing input `c2succs`
(non-negative costs, heuristic `0` — admissible), `astar` succeeds with
`([0, 2], 1)` and `astar_bag` returns an enumerator with the same cost 1,
but the first request for a path from that enumerator never returns, for
any amount of fuel: the enumerator yields *no* path although
`search_single_optimal` succeeds on the same inputs. -/
theorem claim_C2_bug_run :
    astar 10 (0 : Fin 3) c2succs (fun _ => 0) (fun n => n == 2) =
      .found [0, 2] 1 ∧
    astar_bag 10 (0 : Fin 3) c2succs (fun _ => 0) (fun n => n == 2) =
      some (some (c2sol, 1)) ∧
    (∀ f : Nat, solNext f c2sol = none) := by
  refine ⟨by decide, by decide, fun f => ?_⟩
  have ht : c2sol.terminated = false := rfl
  simp only [solNext, ht, Bool.false_eq_true, if_false]
  rw [c2complete_none f]

/-- Successor function of the C7 failing input: a zero-cost cycle `0 ⇄ 1`
plus the goal edge `0 → 3` of cost 2. -/
def c7succs : Fin 4 → List (Fin 4 × Nat) := fun n =>
  if n = 0 then [(1, 0), (3, 2)] else if n = 1 then [(0, 0)] else []

/-- The enumerator state returned by `astar_bag` on `c7succs`. -/
def c7sol : AstarSolution (Fin 4) :=
  { sinks := [2], parents := [(0, [1]), (1, [0]), (3, [0])],
    current := [], terminated := false }

theorem c7complete_cycle :
    ∀ (f : Nat) (cur : List (List Nat)) (l : List Nat),
      (l.getLast? = some 0 ∨ l.getLast? = some 1) →
      complete f
        { sinks := [2], parents := [((0 : Fin 4), [1]), (1, [0]), (3, [0])],
          current := l :: cur, terminated := false } = none := by
  intro f
  induction f with
  | zero => intro cur l _; rfl
  | succ f ih =>
    intro cur l hl
    rcases hl with h0 | h1
    · simp only [complete, List.head?_cons, h0, Option.some_bind]
      have hps : solParents
          { sinks := [2], parents := [((0 : Fin 4), [1]), (1, [0]), (3, [0])],
            current := l :: cur, terminated := false } 0 = some [1] := rfl
      rw [hps]
      simp only [List.isEmpty_cons, if_false]
      exact ih (l :: cur) [1] (Or.inr rfl)
    · simp only [complete, List.head?_cons, h1, Option.some_bind]
      have hps : solParents
          { sinks := [2], parents := [((0 : Fin 4), [1]), (1, [0]), (3, [0])],
            current := l :: cur, terminated := false } 1 = some [0] := rfl
      rw [hps]
      simp only [List.isEmpty_cons, if_false]
      exact ih (l :: cur) [0] (Or.inl rfl)

theorem c7complete_none : ∀ f, complete f c7sol = none := by
  intro f
  cases f with
  | zero => rfl
  | succ f =>
    cases f with
    | zero => rfl
    | succ f =>
      have h2 : complete (f + 2) c7sol =
          complete f
            { sinks := [2], parents := [((0 : Fin 4), [1]), (1, [0]), (3, [0])],
              current := [[0], [2]], terminated := false } := rfl
      rw [h2]
      exact c7complete_cycle f [[2]] [0] (Or.inl rfl)

/-- Claim C7, failing run (code bug).  On the failing input `c7succs`
(non-negative costs, admissible heuristic `0`, finite graph), `astar_bag`
returns an enumerator whose first `next()` call never returns, for any
amount of fuel: the enumerator is not finite.  (The second half of the
claim — after exhaustion every further call returns "no more" — holds: on
a `terminated` state `solNext` returns `some (none, s)` unchanged; but the
conjunction fails on this input.) -/
theorem claim_C7_bug_run :
    astar_bag 10 (0 : Fin 4) c7succs (fun _ => 0) (fun n => n == 3) =
      some (some (c7sol, 2)) ∧
    (∀ f : Nat, solNext f c7sol = none) ∧
    (∀ (sol : AstarSolution (Fin 4)) (f : Nat), sol.terminated = true →
      solNext f sol = some (none, sol)) := by
  refine ⟨by decide, fun f => ?_, fun sol f hterm => ?_⟩
  · have ht : c7sol.terminated = false := rfl
    simp only [solNext, ht, Bool.false_eq_true, if_false]
    rw [c7complete_none f]
  · simp [solNext, hterm]

/-! ## BFS registry soundness (used by claim C6)

`BfsInv S succs parents` is the structural invariant of a `bfs_core`
registry: seeds carry the sentinel parent and are in the start set; any
other entry records a parent strictly below its own index whose node
produced it. -/

/-- Structural invariant of a `bfs_core` registry. -/
@[reducible] def BfsInv [DecidableEq N] (S : List N) (succs : N → List N)
    (parents : List (N × Option Nat)) : Prop :=
  ∀ (j : Nat) (k : N) (e : Option Nat), parents[j]? = some (k, e) →
    (e = none → k ∈ S) ∧
    (∀ p : Nat, e = some p →
      p < j ∧ ∃ q : N × Option Nat, parents[p]? = some q ∧ k ∈ succs q.1)

theorem seedReg_mem [DecidableEq N] (S : List N) :
    ∀ x ∈ seedReg S, x.2 = none ∧ x.1 ∈ S := by
  have general : ∀ (s : List N) (acc : List (N × Option Nat)),
      (∀ x ∈ acc, x.2 = none ∧ x.1 ∈ S) → (∀ n ∈ s, n ∈ S) →
      ∀ x ∈ s.foldl
          (fun m n => if (findEntry m n).isSome then m else m ++ [(n, none)]) acc,
        x.2 = none ∧ x.1 ∈ S := by
    intro s
    induction s with
    | nil => intro acc hacc _ x hx; exact hacc x hx
    | cons a t ih =>
      intro acc hacc hs x hx
      simp only [List.foldl_cons] at hx
      by_cases hfind : (findEntry acc a).isSome
      · rw [if_pos hfind] at hx
        exact ih acc hacc (fun n hn => hs n (List.mem_cons_of_mem a hn)) x hx
      · rw [if_neg hfind] at hx
        refine ih (acc ++ [(a, none)]) ?_ (fun n hn => hs n (List.mem_cons_of_mem a hn)) x hx
        intro y hy
        rcases List.mem_append.1 hy with hy1 | hy2
        · exact hacc y hy1
        · rcases List.mem_singleton.1 hy2 with rfl
          exact ⟨rfl, hs a (List.mem_cons_self a t)⟩
  intro x hx
  exact general S [] (by intro y hy; cases hy) (fun n hn => hn) x hx

theorem bfsInv_seed [DecidableEq N] (S : List N) (succs : N → List N) :
    BfsInv S succs (seedReg S) := by
  intro j k e hj
  have hmem : (k, e) ∈ seedReg S := by
    obtain ⟨hlt, hget⟩ := List.getElem?_eq_some_iff.1 hj
    exact hget ▸ List.getElem_mem hlt
  obtain ⟨h1, h2⟩ := seedReg_mem S (k, e) hmem
  constructor
  · intro _; exact h2
  · intro p hp
    rw [hp] at h1
    exact Option.noConfusion h1

theorem bfsInv_extend [DecidableEq N] {S : List N} {succs : N → List N}
    {parents : List (N × Option Nat)} (hinv : BfsInv S succs parents)
    {i : Nat} {node : N} {e0 : Option Nat} (hi : parents[i]? = some (node, e0))
    {s : N} (hs : s ∈ succs node) :
    BfsInv S succs (parents ++ [(s, some i)]) := by
  have hilen : i < parents.length := (List.getElem?_eq_some_iff.1 hi).1
  intro j k e hj
  rcases Nat.lt_trichotomy j parents.length with hlt | heq | hgt
  · rw [List.getElem?_append_left hlt] at hj
    obtain ⟨h1, h2⟩ := hinv j k e hj
    refine ⟨h1, fun p hp => ?_⟩
    obtain ⟨hpj, q, hq, hkq⟩ := h2 p hp
    have hplen : p < parents.length := (List.getElem?_eq_some_iff.1 hq).1
    refine ⟨hpj, q, ?_, hkq⟩
    rw [List.getElem?_append_left hplen]
    exact hq
  · subst heq
    rw [List.getElem?_concat_length] at hj
    have hke := Option.some.inj hj
    injection hke with hk he
    subst hk
    subst he
    refine ⟨fun h => Option.noConfusion h, fun p hp => ?_⟩
    have hip := Option.some.inj hp
    subst hip
    refine ⟨hilen, (node, e0), ?_, hs⟩
    rw [List.getElem?_append_left hilen]
    exact hi
  · have hlen2 : (parents ++ [(s, some i)]).length ≤ j := by
      simp only [List.length_append, List.length_singleton]
      omega
    rw [List.getElem?_eq_none hlen2] at hj
    exact Option.noConfusion hj

/-- Appending a path step: walking one extra edge at the end. -/
theorem UPathFrom_append {succs : N → List N} {a b c : N} {l : List N}
    (hp : UPathFrom succs a l b) (hc : c ∈ succs b) :
    UPathFrom succs a (l ++ [c]) c := by
  induction hp with
  | single a => exact UPathFrom.cons hc (UPathFrom.single c)
  | cons hab htail ih => exact UPathFrom.cons hab (ih hc)

/-- Soundness of `reverse_path` on a BFS registry: the reconstructed list
is a unit-cost path from a seed to the entry's node, and it is nonempty. -/
theorem bfs_reverse_path_sound [DecidableEq N] {S : List N} {succs : N → List N}
    {parents : List (N × Option Nat)} (hinv : BfsInv S succs parents) :
    ∀ fuel i k e, i < fuel → parents[i]? = some (k, e) →
      ∃ seed, seed ∈ S ∧
        UPathFrom succs seed ((reversePathAux parents (fun v => v) fuel i).reverse) k ∧
        (reversePathAux parents (fun v => v) fuel i) ≠ [] := by
  intro fuel
  induction fuel using Nat.strong_induction_on with
  | _ fuel ihf =>
    intro i k e hif hi
    match fuel, hif with
    | f+1, hif =>
      simp only [reversePathAux, hi]
      obtain ⟨h1, h2⟩ := hinv i k e hi
      cases e with
      | none =>
        refine ⟨k, h1 rfl, ?_, by simp⟩
        simp only [List.reverse_cons, List.reverse_nil, List.nil_append]
        exact UPathFrom.single k
      | some p =>
        obtain ⟨hpi, ⟨pk, pe⟩, hq, hkq⟩ := h2 p rfl
        have hpf : p < f := by omega
        obtain ⟨seed, hseed, hpath, hne⟩ := ihf f (by omega) p pk pe hpf hq
        refine ⟨seed, hseed, ?_, by simp⟩
        simp only [List.reverse_cons]
        exact UPathFrom_append hpath hkq

/-- Soundness of the inner successor scan of `bfs_core`: when it returns a
path, that path is a nonempty seed-to-`node` walk extended by one final
goal-satisfying successor of `node`. -/
theorem bfsScan_inl_sound [DecidableEq N] {S : List N} {succs : N → List N}
    {goal : N → Bool} :
    ∀ (ss : List N) (parents : List (N × Option Nat)) (i : Nat) (node : N)
      (e0 : Option Nat) (path : List N),
      BfsInv S succs parents → parents[i]? = some (node, e0) →
      (∀ x ∈ ss, x ∈ succs node) →
      bfsScan goal parents i ss = .inl path →
      ∃ seed t, seed ∈ S ∧ UPathFrom succs seed path t ∧ goal t = true ∧
        2 ≤ path.length := by
  intro ss
  induction ss with
  | nil =>
    intro parents i node e0 path hinv hi hss h
    simp only [bfsScan] at h
    exact Sum.noConfusion h
  | cons s rest ih =>
    intro parents i node e0 path hinv hi hss hscan
    simp only [bfsScan] at hscan
    by_cases hg : goal s = true
    · rw [if_pos hg] at hscan
      have hpath_eq := Sum.inl.inj hscan
      subst hpath_eq
      obtain ⟨seed, hseed, hpath, hne⟩ :=
        bfs_reverse_path_sound hinv (parents.length + 1) i node e0
          (by have := (List.getElem?_eq_some_iff.1 hi).1; omega) hi
      refine ⟨seed, s, hseed, ?_, hg, ?_⟩
      · exact UPathFrom_append hpath (hss s (List.mem_cons_self s rest))
      · have hpos := List.length_pos.2 hne
        simp only [reverse_path, List.length_append, List.length_reverse,
          List.length_singleton]
        omega
    · rw [if_neg hg] at hscan
      cases hfind : findEntry parents s with
      | some q =>
        rw [hfind] at hscan
        exact ih parents i node e0 path hinv hi
          (fun x hx => hss x (List.mem_cons_of_mem s hx)) hscan
      | none =>
        rw [hfind] at hscan
        have hinv2 := bfsInv_extend hinv hi (hss s (List.mem_cons_self s rest))
        have hi2 : (parents ++ [(s, some i)])[i]? = some (node, e0) := by
          rw [List.getElem?_append_left (List.getElem?_eq_some_iff.1 hi).1]
          exact hi
        exact ih (parents ++ [(s, some i)]) i node e0 path hinv2 hi2
          (fun x hx => hss x (List.mem_cons_of_mem s hx)) hscan

/-- The inner scan preserves the registry invariant and yields an extension
of the registry (in the continue case). -/
theorem bfsScan_inr_inv [DecidableEq N] {S : List N} {succs : N → List N}
    {goal : N → Bool} :
    ∀ (ss : List N) (parents : List (N × Option Nat)) (i : Nat) (node : N)
      (e0 : Option Nat) (ps2 : List (N × Option Nat)),
      BfsInv S succs parents → parents[i]? = some (node, e0) →
      (∀ x ∈ ss, x ∈ succs node) →
      bfsScan goal parents i ss = .inr ps2 →
      BfsInv S succs ps2 ∧ ∃ tail, ps2 = parents ++ tail := by
  intro ss
  induction ss with
  | nil =>
    intro parents i node e0 ps2 hinv hi hss hscan
    simp only [bfsScan] at hscan
    have := Sum.inr.inj hscan
    subst this
    exact ⟨hinv, [], by simp⟩
  | cons s rest ih =>
    intro parents i node e0 ps2 hinv hi hss hscan
    simp only [bfsScan] at hscan
    by_cases hg : goal s = true
    · rw [if_pos hg] at hscan
      exact Sum.noConfusion hscan
    · rw [if_neg hg] at hscan
      cases hfind : findEntry parents s with
      | some q =>
        rw [hfind] at hscan
        exact ih parents i node e0 ps2 hinv hi
          (fun x hx => hss x (List.mem_cons_of_mem s hx)) hscan
      | none =>
        rw [hfind] at hscan
        have hinv2 := bfsInv_extend hinv hi (hss s (List.mem_cons_self s rest))
        have hi2 : (parents ++ [(s, some i)])[i]? = some (node, e0) := by
          rw [List.getElem?_append_left (List.getElem?_eq_some_iff.1 hi).1]
          exact hi
        obtain ⟨hinv3, tail, htail⟩ := ih (parents ++ [(s, some i)]) i node e0 ps2
          hinv2 hi2 (fun x hx => hss x (List.mem_cons_of_mem s hx)) hscan
        exact ⟨hinv3, (s, some i) :: tail, by rw [htail]; simp⟩

/-- Soundness of the `bfs_core` loop: a found path is a goal-terminated
walk of at least one edge from a seed. -/
theorem bfsCore_sound [DecidableEq N] {S : List N} {succs : N → List N}
    {goal : N → Bool} :
    ∀ (fuel : Nat) (parents : List (N × Option Nat)) (i : Nat) (path : List N),
      BfsInv S succs parents →
      bfsCore succs goal fuel parents i = some (some path) →
      ∃ seed t, seed ∈ S ∧ UPathFrom succs seed path t ∧ goal t = true ∧
        2 ≤ path.length := by
  intro fuel
  induction fuel with
  | zero =>
    intro _ _ _ _ h
    simp only [bfsCore] at h
    exact Option.noConfusion h
  | succ f ih =>
    intro parents i path hinv hrun
    simp only [bfsCore] at hrun
    cases hi : parents[i]? with
    | none =>
      rw [hi] at hrun
      simp only at hrun
      exact Option.noConfusion (Option.some.inj hrun)
    | some ke =>
      obtain ⟨node, e0⟩ := ke
      rw [hi] at hrun
      simp only at hrun
      cases hscan : bfsScan goal parents i (succs node) with
      | inl p2 =>
        rw [hscan] at hrun
        simp only at hrun
        have hp2 : p2 = path := Option.some.inj (Option.some.inj hrun)
        subst hp2
        exact bfsScan_inl_sound (succs node) parents i node e0 p2 hinv hi
          (fun x hx => hx) hscan
      | inr ps2 =>
        rw [hscan] at hrun
        simp only at hrun
        obtain ⟨hinv2, tail, htail⟩ := bfsScan_inr_inv (succs node) parents i node e0
          ps2 hinv hi (fun x hx => hx) hscan
        subst htail
        exact ih _ (i+1) path hinv2 hrun

/-! ## Claim C6: `bfs_loop` on acyclic graphs and on self-loops

With a start set of several nodes, `bfs_core`'s goal predicate
`|n| start.contains(n)` accepts *any* start node, so `bfs_loop` can return
a one-edge path between two distinct start nodes: on an acyclic graph
(claimed `None`), and not of the form `[n, n]` even when a start node has a
self-loop.  Both parts of the claim hold once the start set is a single
node. -/

/-- No cycle of at least one edge through any node reachable from `s`. -/
def AcyclicFrom (succs : N → List N) (s : N) : Prop :=
  ∀ (x : N) (lr l : List N),
    UPathFrom succs s lr x → UPathFrom succs x l x → l.length ≤ 1

theorem reverse_path_zero [DecidableEq N] {parents : List (N × Option Nat)} {k : N}
    (h0 : parents[0]? = some (k, none)) :
    reverse_path parents (fun v => v) 0 = [k] := by
  have hlen : parents.length + 1 = (parents.length) + 1 := rfl
  simp only [reverse_path, reversePathAux, h0, List.reverse_cons, List.reverse_nil,
    List.nil_append]

theorem bfsScan_selfLoop [DecidableEq N] {s : N} :
    ∀ (ss : List N) (parents : List (N × Option Nat)),
      parents[0]? = some (s, none) → s ∈ ss →
      bfsScan (fun n => decide (n ∈ [s])) parents 0 ss = .inl [s, s] := by
  intro ss
  induction ss with
  | nil => intro _ _ hmem; cases hmem
  | cons a rest ih =>
    intro parents h0 hmem
    simp only [bfsScan]
    by_cases ha : a = s
    · subst ha
      rw [if_pos (by simp)]
      rw [reverse_path_zero h0]
      rfl
    · rw [if_neg (by simp [ha])]
      have hmem2 : s ∈ rest := by
        rcases List.mem_cons.1 hmem with h | h
        · exact absurd h.symm ha
        · exact h
      cases hfind : findEntry parents a with
      | some q => exact ih parents h0 hmem2
      | none =>
        refine ih (parents ++ [(a, some 0)]) ?_ hmem2
        rw [List.getElem?_append_left (List.getElem?_eq_some_iff.1 h0).1]
        exact h0

/-- Claim C6 as amended: restricted to a *singleton* start set `[s]` (the
counterexample shows the multi-start claim false): on a graph that is
acyclic on the part reachable from `s`, `bfs_loop` never returns a path;
and when `s` has itself among its successors, `bfs_loop` returns exactly
the one-edge loop `[s, s]`. -/
theorem claim_C6_loop_singleton {N : Type} [DecidableEq N] (succs : N → List N)
    (s : N) :
    (AcyclicFrom succs s →
      ∀ (fuel : Nat) (p : List N), bfs_loop fuel [s] succs ≠ some (some p)) ∧
    (s ∈ succs s →
      ∀ fuel : Nat, 1 ≤ fuel → bfs_loop fuel [s] succs = some (some [s, s])) := by
  constructor
  · intro hacyc fuel p hrun
    have hinv : BfsInv [s] succs (seedReg [s]) := bfsInv_seed [s] succs
    obtain ⟨seed, t, hseed, hpath, hgoal, hlen⟩ :=
      bfsCore_sound fuel (seedReg [s]) 0 p hinv hrun
    have hseed_eq : seed = s := List.mem_singleton.1 hseed
    have ht_eq : t = s := List.mem_singleton.1 (of_decide_eq_true hgoal)
    rw [hseed_eq, ht_eq] at hpath
    have := hacyc s [s] p (UPathFrom.single s) hpath
    omega
  · intro hself fuel hfuel
    cases fuel with
    | zero => omega
    | succ f =>
      have hseed : seedReg [s] = [(s, none)] := rfl
      simp only [bfs_loop, hseed, bfsCore]
      have h0 : ([(s, none)] : List (N × Option Nat))[0]? = some (s, none) := rfl
      rw [h0]
      simp only
      rw [bfsScan_selfLoop (succs s) [(s, none)] h0 hself]

/-- Successor function of the acyclic C6 counterexample (`0 → 1` only). -/
def c6asuccs : Fin 2 → List (Fin 2) := fun n => if n = 0 then [1] else []

/-- Successor function of the self-loop C6 counterexample (`0 → 1`,
`1 → 1`). -/
def c6bsuccs : Fin 2 → List (Fin 2) := fun n => if n = 0 then [1] else [1]

theorem c6a_mono : ∀ (a : Fin 2) (l : List (Fin 2)) (b : Fin 2),
    UPathFrom c6asuccs a l b → 2 ≤ l.length → a.val < b.val := by
  have hedge : ∀ a b : Fin 2, b ∈ c6asuccs a → a = 0 ∧ b = 1 := by decide
  intro a l b hp
  induction hp with
  | single a => intro h; simp at h
  | cons hab htail ih =>
    intro _
    obtain ⟨rfl, rfl⟩ := hedge _ _ hab
    cases htail with
    | single a => decide
    | cons hbc htail2 =>
      obtain ⟨h1, -⟩ := hedge _ _ hbc
      exact absurd h1 (by decide)

theorem c6a_acyclic : ∀ x : Fin 2, AcyclicFrom c6asuccs x := by
  intro x y lr l _ hcyc
  by_contra hlen
  exact absurd (c6a_mono y l y hcyc (by omega)) (by omega)

/-- Counterexample to claim C6 as stated (start sets with several nodes):
on the acyclic graph `0 → 1` with start set `{0, 1}`, `bfs_loop` returns
`Some [0, 1]` instead of the claimed `None`; and on `0 → 1`, `1 → 1`, where
start node 1 has itself among its successors, `bfs_loop` returns
`Some [0, 1]`, a one-edge path that does not begin and end at the same
node. -/
theorem claim_C6_counterexample :
    (bfs_loop 10 [(0 : Fin 2), 1] c6asuccs = some (some [0, 1]) ∧
      (∀ x : Fin 2, AcyclicFrom c6asuccs x)) ∧
    (bfs_loop 10 [(0 : Fin 2), 1] c6bsuccs = some (some [0, 1]) ∧
      (1 : Fin 2) ∈ c6bsuccs 1 ∧
      ([(0 : Fin 2), 1].head? ≠ [(0 : Fin 2), 1].getLast?)) :=
  ⟨⟨by decide, c6a_acyclic⟩, by decide, by decide, by decide⟩

/-- Witness for the amended C6 on concrete singleton-start inputs. -/
theorem claim_C6_witness :
    bfs_loop 5 [(0 : Fin 2)] c6asuccs ≠ some (some [0, 1]) ∧
    bfs_loop 1 [(1 : Fin 2)] c6bsuccs = some (some [1, 1]) :=
  ⟨(claim_C6_loop_singleton c6asuccs 0).1 (c6a_acyclic 0) 5 [0, 1],
   (claim_C6_loop_singleton c6bsuccs 1).2 (by decide) 1 (by decide)⟩

/-! ## Registry lemmas for the `astar` proofs -/

theorem findEntry_some [DecidableEq N] :
    ∀ (m : List (N × V)) (key : N) (j : Nat) (v : V),
      findEntry m key = some (j, v) → m[j]? = some (key, v) := by
  intro m
  induction m with
  | nil => intro key j v h; cases h
  | cons kv rest ih =>
    intro key j v h
    obtain ⟨k0, v0⟩ := kv
    simp only [findEntry] at h
    by_cases hk : key = k0
    · rw [if_pos hk] at h
      have h12 := Option.some.inj h
      injection h12 with h1 h2
      subst hk
      rw [← h1, ← h2]
      exact List.getElem?_cons_zero
    · rw [if_neg hk] at h
      cases hfind : findEntry rest key with
      | none => rw [hfind] at h; cases h
      | some p =>
        obtain ⟨j0, w0⟩ := p
        rw [hfind] at h
        simp only [Option.map_some', Option.some.injEq, Prod.mk.injEq] at h
        obtain ⟨h1, h2⟩ := h
        subst h2
        rw [← h1, List.getElem?_cons_succ]
        exact ih key j0 w0 hfind

theorem findEntry_none [DecidableEq N] :
    ∀ (m : List (N × V)) (key : N),
      findEntry m key = none → ∀ (j : Nat) (k : N) (v : V),
        m[j]? = some (k, v) → k ≠ key := by
  intro m
  induction m with
  | nil =>
    intro key _ j k v h
    rw [List.getElem?_eq_none (by simp)] at h
    exact Option.noConfusion h
  | cons kv rest ih =>
    intro key hfe j k v h
    obtain ⟨k0, v0⟩ := kv
    simp only [findEntry] at hfe
    by_cases hk : key = k0
    · rw [if_pos hk] at hfe; cases hfe
    · rw [if_neg hk] at hfe
      cases hfind : findEntry rest key with
      | some p => rw [hfind] at hfe; cases hfe
      | none =>
        cases j with
        | zero =>
          rw [List.getElem?_cons_zero] at h
          have := Option.some.inj h
          injection this with h1 h2
          intro hkey
          exact hk (by rw [← hkey, h1])
        | succ j0 =>
          rw [List.getElem?_cons_succ] at h
          exact ih key hfind j0 k v h

theorem findEntry_of_nodup [DecidableEq N] :
    ∀ (m : List (N × V)), (m.map Prod.fst).Nodup →
      ∀ (j : Nat) (k : N) (v : V), m[j]? = some (k, v) →
        findEntry m k = some (j, v) := by
  intro m
  induction m with
  | nil =>
    intro _ j k v h
    rw [List.getElem?_eq_none (by simp)] at h
    exact Option.noConfusion h
  | cons kv rest ih =>
    intro hnd j k v h
    obtain ⟨k0, v0⟩ := kv
    simp only [List.map_cons, List.nodup_cons] at hnd
    obtain ⟨hk0, hnd2⟩ := hnd
    cases j with
    | zero =>
      rw [List.getElem?_cons_zero] at h
      have := Option.some.inj h
      injection this with h1 h2
      subst h1; subst h2
      simp [findEntry]
    | succ j0 =>
      have hj0 : rest[j0]? = some (k, v) := by
        rw [List.getElem?_cons_succ] at h
        exact h
      have hne : ¬ k = k0 := by
        intro hkk
        subst hkk
        have hmem : (k, v) ∈ rest := by
          obtain ⟨hlt, hget⟩ := List.getElem?_eq_some_iff.1 hj0
          exact hget ▸ List.getElem_mem hlt
        exact hk0 (List.mem_map.2 ⟨(k, v), hmem, rfl⟩)
      simp only [findEntry, if_neg hne, ih hnd2 j0 k v hj0, Option.map_some']

theorem setVal_length : ∀ (m : List (N × V)) (j : Nat) (w : V),
    (setVal m j w).length = m.length := by
  intro m
  induction m with
  | nil => intro j w; rfl
  | cons kv rest ih =>
    intro j w
    obtain ⟨k0, v0⟩ := kv
    cases j with
    | zero => rfl
    | succ j0 => simp only [setVal, List.length_cons, ih]

theorem setVal_get_self : ∀ (m : List (N × V)) (j : Nat) (k : N) (v w : V),
    m[j]? = some (k, v) → (setVal m j w)[j]? = some (k, w) := by
  intro m
  induction m with
  | nil =>
    intro j k v w h
    rw [List.getElem?_eq_none (by simp)] at h
    exact Option.noConfusion h
  | cons kv rest ih =>
    intro j k v w h
    obtain ⟨k0, v0⟩ := kv
    cases j with
    | zero =>
      rw [List.getElem?_cons_zero] at h
      have := Option.some.inj h
      injection this with h1 h2
      subst h1
      simp [setVal]
    | succ j0 =>
      have hj0 : rest[j0]? = some (k, v) := by
        rw [List.getElem?_cons_succ] at h
        exact h
      simp only [setVal, List.getElem?_cons_succ]
      exact ih j0 k v w hj0

theorem setVal_get_ne : ∀ (m : List (N × V)) (j j' : Nat) (w : V),
    j' ≠ j → (setVal m j w)[j']? = m[j']? := by
  intro m
  induction m with
  | nil => intro j j' w _; rfl
  | cons kv rest ih =>
    intro j j' w hne
    obtain ⟨k0, v0⟩ := kv
    cases j with
    | zero =>
      cases j' with
      | zero => exact absurd rfl hne
      | succ j0 => simp [setVal]
    | succ j0 =>
      cases j' with
      | zero => simp [setVal]
      | succ j1 =>
        simp only [setVal, List.getElem?_cons_succ]
        exact ih j0 j1 w (by omega)

theorem setVal_keys : ∀ (m : List (N × V)) (j : Nat) (w : V),
    (setVal m j w).map Prod.fst = m.map Prod.fst := by
  intro m
  induction m with
  | nil => intro j w; rfl
  | cons kv rest ih =>
    intro j w
    obtain ⟨k0, v0⟩ := kv
    cases j with
    | zero => rfl
    | succ j0 => simp only [setVal, List.map_cons, ih]

theorem setDone_length : ∀ (m : List (N × AEntry)) (j : Nat),
    (setDone m j).length = m.length := by
  intro m
  induction m with
  | nil => intro j; rfl
  | cons kv rest ih =>
    intro j
    obtain ⟨k0, v0⟩ := kv
    cases j with
    | zero => rfl
    | succ j0 => simp only [setDone, List.length_cons, ih]

theorem setDone_get_self : ∀ (m : List (N × AEntry)) (j : Nat) (k : N) (e : AEntry),
    m[j]? = some (k, e) →
    (setDone m j)[j]? = some (k, ⟨e.parent, e.cost, true, e.stamp⟩) := by
  intro m
  induction m with
  | nil =>
    intro j k e h
    rw [List.getElem?_eq_none (by simp)] at h
    exact Option.noConfusion h
  | cons kv rest ih =>
    intro j k e h
    obtain ⟨k0, v0⟩ := kv
    cases j with
    | zero =>
      rw [List.getElem?_cons_zero] at h
      have := Option.some.inj h
      injection this with h1 h2
      subst h1; subst h2
      simp [setDone]
    | succ j0 =>
      have hj0 : rest[j0]? = some (k, e) := by
        rw [List.getElem?_cons_succ] at h
        exact h
      simp only [setDone, List.getElem?_cons_succ]
      exact ih j0 k e hj0

theorem setDone_get_ne : ∀ (m : List (N × AEntry)) (j j' : Nat),
    j' ≠ j → (setDone m j)[j']? = m[j']? := by
  intro m
  induction m with
  | nil => intro j j' _; rfl
  | cons kv rest ih =>
    intro j j' hne
    obtain ⟨k0, v0⟩ := kv
    cases j with
    | zero =>
      cases j' with
      | zero => exact absurd rfl hne
      | succ j0 => simp [setDone]
    | succ j0 =>
      cases j' with
      | zero => simp [setDone]
      | succ j1 =>
        simp only [setDone, List.getElem?_cons_succ]
        exact ih j0 j1 (by omega)

theorem setDone_keys : ∀ (m : List (N × AEntry)) (j : Nat),
    (setDone m j).map Prod.fst = m.map Prod.fst := by
  intro m
  induction m with
  | nil => intro j; rfl
  | cons kv rest ih =>
    intro j
    obtain ⟨k0, v0⟩ := kv
    cases j with
    | zero => rfl
    | succ j0 => simp only [setDone, List.map_cons, ih]

/-- Weighted analogue of `UPathFrom_append`. -/
theorem PathFrom_append {succs : N → List (N × Nat)} {a b c : N} {l : List N}
    {cc w : Nat} (hp : PathFrom succs a l b cc) (hc : (c, w) ∈ succs b) :
    PathFrom succs a (l ++ [c]) c (cc + w) := by
  induction hp with
  | single a =>
    have := PathFrom.cons hc (PathFrom.single c : PathFrom succs c [c] c 0)
    simpa using this
  | cons hab htail ih =>
    have := PathFrom.cons hab (ih hc)
    simpa [Nat.add_assoc] using this

theorem PathFrom_head {succs : N → List (N × Nat)} {a b : N} {l : List N} {c : Nat}
    (hp : PathFrom succs a l b c) : l.head? = some a := by
  cases hp with
  | single a => rfl
  | cons hab htail => rfl

/-! ## Claim C1: optimality of `astar`

The loop invariant `AInv` below is maintained by every iteration of the
`astar` loop.  The parameter `excl` exempts one registry index from the
live-entry/fully-relaxed obligations: during the expansion of a popped
entry its index is exempt, and the exemption is discharged when the ghost
`done` mark is placed after the expansion.  The two ghost fields drive the
`link` field's lexicographic decrease, which makes parent chains acyclic
and path reconstruction well defined. -/

/-- Pointwise evolution of a registry: keys and positions are stable and
recorded costs never increase. -/
def CostsMono (m m' : List (N × AEntry)) : Prop :=
  ∀ (j : Nat) (k : N) (e : AEntry), m[j]? = some (k, e) →
    ∃ e' : AEntry, m'[j]? = some (k, e') ∧ e'.cost ≤ e.cost

/-- The registry records, somewhere, a cost of at most `c + sw.2` for the
successor node `sw.1`. -/
def RelaxedAt (m : List (N × AEntry)) (c : Nat) (sw : N × Nat) : Prop :=
  ∃ (j : Nat) (e : AEntry), m[j]? = some (sw.1, e) ∧ e.cost ≤ c + sw.2

theorem CostsMono.rfl {m : List (N × AEntry)} : CostsMono m m :=
  fun _ k e hj => ⟨e, hj, Nat.le_refl _⟩

theorem CostsMono.trans {m1 m2 m3 : List (N × AEntry)}
    (h12 : CostsMono m1 m2) (h23 : CostsMono m2 m3) : CostsMono m1 m3 := by
  intro j k e hj
  obtain ⟨e2, hj2, hc2⟩ := h12 j k e hj
  obtain ⟨e3, hj3, hc3⟩ := h23 j k e2 hj2
  exact ⟨e3, hj3, Nat.le_trans hc3 hc2⟩

theorem RelaxedAt.mono {m m' : List (N × AEntry)} {c : Nat} {sw : N × Nat}
    (hm : CostsMono m m') (hr : RelaxedAt m c sw) : RelaxedAt m' c sw := by
  obtain ⟨j, e, hj, hc⟩ := hr
  obtain ⟨e', hj', hc'⟩ := hm j _ e hj
  exact ⟨j, e', hj', Nat.le_trans hc' hc⟩

/-- The `astar` loop invariant (see the section comment). -/
structure AInv [DecidableEq N] (start : N) (succs : N → List (N × Nat))
    (h : N → Nat) (goal : N → Bool) (excl : Option Nat) (st : AState N) : Prop where
  root : ∃ e0 : AEntry,
    st.parents[0]? = some (start, e0) ∧ e0.parent = none ∧ e0.cost = 0
  heapWf : ∀ hld ∈ st.to_see, ∃ (k : N) (e : AEntry),
    st.parents[hld.index]? = some (k, e) ∧ e.cost ≤ hld.cost ∧
    hld.cost ≤ hld.estimated_cost ∧ hld.estimated_cost ≤ hld.cost + h k
  liveOrDone : ∀ (j : Nat) (k : N) (e : AEntry),
    st.parents[j]? = some (k, e) → some j ≠ excl →
    (∃ hld ∈ st.to_see, hld.index = j ∧ hld.cost = e.cost) ∨ e.done = true
  doneRelaxed : ∀ (j : Nat) (k : N) (e : AEntry),
    st.parents[j]? = some (k, e) → some j ≠ excl → e.done = true →
    ∀ sw ∈ succs k, ∃ (j2 : Nat) (e2 : AEntry),
      st.parents[j2]? = some (sw.1, e2) ∧ e2.cost ≤ e.cost + sw.2
  doneNotGoal : ∀ (j : Nat) (k : N) (e : AEntry),
    st.parents[j]? = some (k, e) → e.done = true → goal k = false
  link : ∀ (j : Nat) (k : N) (e : AEntry),
    st.parents[j]? = some (k, e) → j ≠ 0 →
    ∃ (p : Nat) (pk : N) (pe : AEntry), e.parent = some p ∧
      st.parents[p]? = some (pk, pe) ∧
      (∃ w : Nat, (k, w) ∈ succs pk ∧ pe.cost + w ≤ e.cost) ∧
      (pe.cost < e.cost ∨ (pe.cost = e.cost ∧ pe.stamp < e.stamp))
  stampLt : ∀ (j : Nat) (k : N) (e : AEntry),
    st.parents[j]? = some (k, e) → e.stamp < st.clock

theorem astarInit_inv [DecidableEq N] (start : N) (succs : N → List (N × Nat))
    (h : N → Nat) (goal : N → Bool) :
    AInv start succs h goal none (astarInit start) := by
  refine ⟨⟨⟨none, 0, false, 0⟩, rfl, rfl, rfl⟩, ?_, ?_, ?_, ?_, ?_, ?_⟩
  · intro hld hmem
    rcases List.mem_singleton.1 hmem with rfl
    exact ⟨start, ⟨none, 0, false, 0⟩, rfl, Nat.le_refl _, Nat.le_refl _, Nat.zero_le _⟩
  · intro j k e hj _
    have hj0 : j = 0 := by
      have := (List.getElem?_eq_some_iff.1 hj).1
      simp only [astarInit, List.length_singleton] at this
      omega
    subst hj0
    have := Option.some.inj hj
    injection this with h1 h2
    subst h2
    exact Or.inl ⟨⟨0, 0, 0⟩, List.mem_singleton.2 rfl, rfl, rfl⟩
  · intro j k e hj _ hdone
    have hj0 : j = 0 := by
      have := (List.getElem?_eq_some_iff.1 hj).1
      simp only [astarInit, List.length_singleton] at this
      omega
    subst hj0
    have := Option.some.inj hj
    injection this with h1 h2
    subst h2
    exact absurd hdone (by decide)
  · intro j k e hj hdone
    have hj0 : j = 0 := by
      have := (List.getElem?_eq_some_iff.1 hj).1
      simp only [astarInit, List.length_singleton] at this
      omega
    subst hj0
    have := Option.some.inj hj
    injection this with h1 h2
    subst h2
    exact absurd hdone (by decide)
  · intro j k e hj hj0
    have : j = 0 := by
      have := (List.getElem?_eq_some_iff.1 hj).1
      simp only [astarInit, List.length_singleton] at this
      omega
    exact absurd this hj0
  · intro j k e hj
    have hj0 : j = 0 := by
      have := (List.getElem?_eq_some_iff.1 hj).1
      simp only [astarInit, List.length_singleton] at this
      omega
    subst hj0
    have := Option.some.inj hj
    injection this with h1 h2
    subst h2
    exact Nat.zero_lt_one

theorem lookup_lt {m : List (N × V)} {j : Nat} {x : N × V}
    (h : m[j]? = some x) : j < m.length :=
  (List.getElem?_eq_some_iff.1 h).1

/-- Preservation of the `astar` invariant by one successor relaxation of
the expansion of entry `i` (which holds node `node` with live cost `c`). -/
theorem relaxOne_inv {N : Type} [DecidableEq N] {start : N}
    {succs : N → List (N × Nat)} {h : N → Nat} {goal : N → Bool}
    {i : Nat} {node : N} {ei : AEntry} {c : Nat} {st : AState N}
    (hinv : AInv start succs h goal (some i) st)
    (hi : st.parents[i]? = some (node, ei)) (hc : ei.cost = c)
    (sw : N × Nat) (hsw : sw ∈ succs node) :
    AInv start succs h goal (some i) (relaxOne h i c st sw) ∧
    (relaxOne h i c st sw).parents[i]? = some (node, ei) ∧
    CostsMono st.parents (relaxOne h i c st sw).parents ∧
    RelaxedAt (relaxOne h i c st sw).parents c sw ∧
    (∀ hld ∈ st.to_see, hld ∈ (relaxOne h i c st sw).to_see) := by
  have hilen : i < st.parents.length := lookup_lt hi
  unfold relaxOne
  cases hfe : findEntry st.parents sw.1 with
  | none =>
    -- Vacant: append a fresh entry and push a frontier entry.
    simp only
    set len := st.parents.length with hlendef
    set newE : AEntry := ⟨some i, c + sw.2, false, st.clock⟩ with hnewE
    set m' := st.parents ++ [(sw.1, newE)] with hm'
    have hlook_old : ∀ j : Nat, j < len → m'[j]? = st.parents[j]? := by
      intro j hj
      exact List.getElem?_append_left hj
    have hlook_new : m'[len]? = some (sw.1, newE) :=
      List.getElem?_concat_length _ _
    have hchar : ∀ (j : Nat) (k : N) (e : AEntry), m'[j]? = some (k, e) →
        (j < len ∧ st.parents[j]? = some (k, e)) ∨
        (j = len ∧ k = sw.1 ∧ e = newE) := by
      intro j k e hj
      rcases Nat.lt_trichotomy j len with hlt | heq | hgt
      · exact Or.inl ⟨hlt, by rw [← hlook_old j hlt]; exact hj⟩
      · subst heq
        rw [hlook_new] at hj
        have := Option.some.inj hj
        injection this with h1 h2
        exact Or.inr ⟨rfl, h1.symm, h2.symm⟩
      · exfalso
        rw [List.getElem?_eq_none (by simp [hm']; omega)] at hj
        exact Option.noConfusion hj
    have hmono : CostsMono st.parents m' := by
      intro j k e hj
      exact ⟨e, by rw [hlook_old j (lookup_lt hj)]; exact hj, Nat.le_refl _⟩
    have hi' : m'[i]? = some (node, ei) := by rw [hlook_old i hilen]; exact hi
    refine ⟨⟨?_, ?_, ?_, ?_, ?_, ?_, ?_⟩, hi', hmono, ?_, ?_⟩
    · -- root
      obtain ⟨e0, h0, hp0, hc0⟩ := hinv.root
      exact ⟨e0, by rw [hlook_old 0 (lookup_lt h0)]; exact h0, hp0, hc0⟩
    · -- heapWf
      intro hld hmem
      rcases List.mem_cons.1 hmem with rfl | hold
      · refine ⟨sw.1, newE, hlook_new, Nat.le_refl _, Nat.le_add_right _ _, Nat.le_refl _⟩
      · obtain ⟨k, e, hke, hce, hcost, hest⟩ := hinv.heapWf hld hold
        exact ⟨k, e, by rw [hlook_old _ (lookup_lt hke)]; exact hke, hce, hcost, hest⟩
    · -- liveOrDone
      intro j k e hj hne
      rcases hchar j k e hj with ⟨hjlt, hjold⟩ | ⟨rfl, rfl, rfl⟩
      · rcases hinv.liveOrDone j k e hjold hne with ⟨hld, hmem, hidx, hcost⟩ | hdone
        · exact Or.inl ⟨hld, List.mem_cons_of_mem _ hmem, hidx, hcost⟩
        · exact Or.inr hdone
      · exact Or.inl ⟨⟨c + sw.2 + h sw.1, c + sw.2, len⟩,
          List.mem_cons_self _ _, rfl, rfl⟩
    · -- doneRelaxed
      intro j k e hj hne hdone sw2 hsw2
      rcases hchar j k e hj with ⟨hjlt, hjold⟩ | ⟨rfl, rfl, rfl⟩
      · obtain ⟨j2, e2, hj2, hc2⟩ := hinv.doneRelaxed j k e hjold hne hdone sw2 hsw2
        exact ⟨j2, e2, by rw [hlook_old _ (lookup_lt hj2)]; exact hj2, hc2⟩
      · exact absurd hdone (by simp [hnewE])
    · -- doneNotGoal
      intro j k e hj hdone
      rcases hchar j k e hj with ⟨hjlt, hjold⟩ | ⟨rfl, rfl, rfl⟩
      · exact hinv.doneNotGoal j k e hjold hdone
      · exact absurd hdone (by simp [hnewE])
    · -- link
      intro j k e hj hj0
      rcases hchar j k e hj with ⟨hjlt, hjold⟩ | ⟨rfl, rfl, rfl⟩
      · obtain ⟨p, pk, pe, hpar, hpe, ⟨w, hw, hcw⟩, hlex⟩ :=
          hinv.link j k e hjold hj0
        exact ⟨p, pk, pe, hpar, by rw [hlook_old _ (lookup_lt hpe)]; exact hpe,
          ⟨w, hw, hcw⟩, hlex⟩
      · refine ⟨i, node, ei, rfl, hi', ⟨sw.2, ?_, by simp only [hnewE]; omega⟩, ?_⟩
        · simpa using hsw
        · simp only [hnewE]
          rcases Nat.lt_or_ge ei.cost (c + sw.2) with hlt | hge
          · exact Or.inl hlt
          · have : ei.cost = c + sw.2 := by omega
            exact Or.inr ⟨this, by
              have := hinv.stampLt i node ei hi
              simpa using this⟩
    · -- stampLt
      intro j k e hj
      rcases hchar j k e hj with ⟨hjlt, hjold⟩ | ⟨rfl, rfl, rfl⟩
      · have := hinv.stampLt j k e hjold
        simp only
        omega
      · simp [hnewE]
    · -- RelaxedAt
      exact ⟨len, newE, hlook_new, Nat.le_refl _⟩
    · -- to_see superset
      intro hld hmem
      exact List.mem_cons_of_mem _ hmem
  | some je =>
    obtain ⟨j, e2⟩ := je
    have hj2 : st.parents[j]? = some (sw.1, e2) := findEntry_some _ _ _ _ hfe
    have hjlen : j < st.parents.length := lookup_lt hj2
    simp only
    by_cases himp : c + sw.2 < e2.cost
    · rw [if_pos himp]
      -- Occupied and strictly better: update in place and push.
      have hne_ij : j ≠ i := by
        intro hji
        subst hji
        rw [hi] at hj2
        have := Option.some.inj hj2
        injection this with h1 h2
        rw [← h2, hc] at himp
        omega
      have hne_j0 : j ≠ 0 := by
        intro hj0
        subst hj0
        obtain ⟨e0, h0, hp0, hc0⟩ := hinv.root
        rw [h0] at hj2
        have := Option.some.inj hj2
        injection this with h1 h2
        rw [← h2, hc0] at himp
        omega
      set newE : AEntry := ⟨some i, c + sw.2, false, st.clock⟩ with hnewE
      set m' := setVal st.parents j newE with hm'
      have hlook_ne : ∀ j' : Nat, j' ≠ j → m'[j']? = st.parents[j']? := by
        intro j' hne
        exact setVal_get_ne _ j j' newE hne
      have hlook_self : m'[j]? = some (sw.1, newE) :=
        setVal_get_self _ j sw.1 e2 newE hj2
      have hchar : ∀ (j' : Nat) (k : N) (e : AEntry), m'[j']? = some (k, e) →
          (j' = j ∧ k = sw.1 ∧ e = newE) ∨
          (j' ≠ j ∧ st.parents[j']? = some (k, e)) := by
        intro j' k e hj'
        by_cases hjj : j' = j
        · subst hjj
          rw [hlook_self] at hj'
          have := Option.some.inj hj'
          injection this with h1 h2
          exact Or.inl ⟨rfl, h1.symm, h2.symm⟩
        · exact Or.inr ⟨hjj, by rw [← hlook_ne j' hjj]; exact hj'⟩
      have hmono : CostsMono st.parents m' := by
        intro j' k e hj'
        by_cases hjj : j' = j
        · subst hjj
          rw [hj2] at hj'
          have := Option.some.inj hj'
          injection this with h1 h2
          subst h1
          refine ⟨newE, hlook_self, ?_⟩
          rw [← h2]
          simp only [hnewE]
          omega
        · exact ⟨e, by rw [hlook_ne j' hjj]; exact hj', Nat.le_refl _⟩
      have hi' : m'[i]? = some (node, ei) := by
        rw [hlook_ne i (fun hh => hne_ij hh.symm)]
        exact hi
      refine ⟨⟨?_, ?_, ?_, ?_, ?_, ?_, ?_⟩, hi', hmono, ?_, ?_⟩
      · -- root
        obtain ⟨e0, h0, hp0, hc0⟩ := hinv.root
        exact ⟨e0, by rw [hlook_ne 0 (fun hh => hne_j0 hh.symm)]; exact h0, hp0, hc0⟩
      · -- heapWf
        intro hld hmem
        rcases List.mem_cons.1 hmem with rfl | hold
        · exact ⟨sw.1, newE, hlook_self, Nat.le_refl _, Nat.le_add_right _ _,
            Nat.le_refl _⟩
        · obtain ⟨k, e, hke, hce, hcost, hest⟩ := hinv.heapWf hld hold
          by_cases hjj : hld.index = j
          · rw [hjj] at hke
            rw [hj2] at hke
            have := Option.some.inj hke
            injection this with h1 h2
            refine ⟨sw.1, newE, by rw [hjj]; exact hlook_self, ?_, hcost, ?_⟩
            · simp only [hnewE]
              rw [← h2] at hce
              omega
            · rw [← h1] at hest
              exact hest
          · exact ⟨k, e, by rw [hlook_ne _ hjj]; exact hke, hce, hcost, hest⟩
      · -- liveOrDone
        intro j' k e hj' hne
        rcases hchar j' k e hj' with ⟨rfl, rfl, rfl⟩ | ⟨hjj, hjold⟩
        · exact Or.inl ⟨⟨c + sw.2 + h sw.1, c + sw.2, j'⟩,
            List.mem_cons_self _ _, rfl, rfl⟩
        · rcases hinv.liveOrDone j' k e hjold hne with ⟨hld, hmem, hidx, hcost⟩ | hdone
          · exact Or.inl ⟨hld, List.mem_cons_of_mem _ hmem, hidx, hcost⟩
          · exact Or.inr hdone
      · -- doneRelaxed
        intro j' k e hj' hne hdone sw2 hsw2
        rcases hchar j' k e hj' with ⟨rfl, rfl, rfl⟩ | ⟨hjj, hjold⟩
        · exact absurd hdone (by simp [hnewE])
        · obtain ⟨j2, e2x, hj2x, hc2x⟩ := hinv.doneRelaxed j' k e hjold hne hdone sw2 hsw2
          obtain ⟨e2y, hj2y, hc2y⟩ := hmono j2 sw2.1 e2x hj2x
          exact ⟨j2, e2y, hj2y, Nat.le_trans hc2y hc2x⟩
      · -- doneNotGoal
        intro j' k e hj' hdone
        rcases hchar j' k e hj' with ⟨rfl, rfl, rfl⟩ | ⟨hjj, hjold⟩
        · exact absurd hdone (by simp [hnewE])
        · exact hinv.doneNotGoal j' k e hjold hdone
      · -- link
        intro j' k e hj' hj0
        rcases hchar j' k e hj' with ⟨rfl, rfl, rfl⟩ | ⟨hjj, hjold⟩
        · refine ⟨i, node, ei, rfl, hi', ⟨sw.2, ?_, by simp [hnewE]; omega⟩, ?_⟩
          · simpa using hsw
          · simp only [hnewE]
            rcases Nat.lt_or_ge ei.cost (c + sw.2) with hlt | hge
            · exact Or.inl hlt
            · have heq : ei.cost = c + sw.2 := by omega
              exact Or.inr ⟨heq, by
                have := hinv.stampLt i node ei hi
                simpa using this⟩
        · obtain ⟨p, pk, pe, hpar, hpe, ⟨w, hw, hcw⟩, hlex⟩ :=
            hinv.link j' k e hjold hj0
          by_cases hpj : p = j
          · subst hpj
            rw [hj2] at hpe
            have := Option.some.inj hpe
            injection this with h1 h2
            refine ⟨p, sw.1, newE, hpar, hlook_self, ⟨w, ?_, ?_⟩, ?_⟩
            · rw [h1]; exact hw
            · simp only [hnewE]
              rw [← h2] at hcw
              omega
            · refine Or.inl ?_
              simp only [hnewE]
              rw [← h2] at hlex hcw
              rcases hlex with hl | ⟨hl, -⟩ <;> omega
          · exact ⟨p, pk, pe, hpar, by rw [hlook_ne p hpj]; exact hpe,
              ⟨w, hw, hcw⟩, hlex⟩
      · -- stampLt
        intro j' k e hj'
        rcases hchar j' k e hj' with ⟨rfl, rfl, rfl⟩ | ⟨hjj, hjold⟩
        · simp [hnewE]
        · have := hinv.stampLt j' k e hjold
          simp only
          omega
      · -- RelaxedAt
        exact ⟨j, newE, hlook_self, Nat.le_refl _⟩
      · -- to_see superset
        intro hld hmem
        exact List.mem_cons_of_mem _ hmem
    · rw [if_neg himp]
      -- Occupied, no improvement: state unchanged.
      refine ⟨hinv, hi, CostsMono.rfl, ⟨j, e2, hj2, by omega⟩, fun hld hmem => hmem⟩

/-- Invariant preservation over the whole expansion fold, together with the
relaxation of every processed successor. -/
theorem relaxFold_inv {N : Type} [DecidableEq N] {start : N}
    {succs : N → List (N × Nat)} {h : N → Nat} {goal : N → Bool}
    {i : Nat} {node : N} {ei : AEntry} {c : Nat} :
    ∀ (ss : List (N × Nat)) (st : AState N),
      AInv start succs h goal (some i) st →
      st.parents[i]? = some (node, ei) → ei.cost = c →
      (∀ sw ∈ ss, sw ∈ succs node) →
      AInv start succs h goal (some i) (List.foldl (relaxOne h i c) st ss) ∧
      (List.foldl (relaxOne h i c) st ss).parents[i]? = some (node, ei) ∧
      CostsMono st.parents (List.foldl (relaxOne h i c) st ss).parents ∧
      (∀ sw ∈ ss, RelaxedAt (List.foldl (relaxOne h i c) st ss).parents c sw) := by
  intro ss
  induction ss with
  | nil =>
    intro st hinv hi hc _
    exact ⟨hinv, hi, CostsMono.rfl, fun sw hsw => absurd hsw (by simp)⟩
  | cons sw rest ih =>
    intro st hinv hi hc hss
    obtain ⟨hinv1, hi1, hmono1, hrel1, -⟩ :=
      relaxOne_inv hinv hi hc sw (hss sw (List.mem_cons_self sw rest))
    obtain ⟨hinv2, hi2, hmono2, hrel2⟩ :=
      ih (relaxOne h i c st sw) hinv1 hi1 hc
        (fun sw2 hsw2 => hss sw2 (List.mem_cons_of_mem sw hsw2))
    refine ⟨hinv2, hi2, CostsMono.trans hmono1 hmono2, ?_⟩
    intro sw2 hsw2
    rcases List.mem_cons.1 hsw2 with rfl | hmem
    · exact RelaxedAt.mono hmono2 hrel1
    · exact hrel2 sw2 hmem

/-- The ghost marking of an entry. -/
def markE (e : AEntry) : AEntry := ⟨e.parent, e.cost, true, e.stamp⟩

theorem setDone_lookup {m : List (N × AEntry)} {idx j : Nat} {k : N} {e : AEntry}
    (hj : m[j]? = some (k, e)) :
    (setDone m idx)[j]? = some (k, if j = idx then markE e else e) := by
  by_cases hji : j = idx
  · subst hji
    rw [if_pos rfl]
    exact setDone_get_self m j k e hj
  · rw [if_neg hji, setDone_get_ne m idx j hji]
    exact hj

theorem setDone_lookup_rev {m : List (N × AEntry)} {idx j : Nat} {k : N} {e : AEntry}
    (hj : (setDone m idx)[j]? = some (k, e)) :
    ∃ e0 : AEntry, m[j]? = some (k, e0) ∧ e = (if j = idx then markE e0 else e0) := by
  have hjlen : j < m.length := by
    have := lookup_lt hj
    rwa [setDone_length] at this
  cases hm : m[j]? with
  | none =>
    rw [List.getElem?_eq_getElem hjlen] at hm
    exact Option.noConfusion hm
  | some ke =>
    obtain ⟨k0, e0⟩ := ke
    have : (setDone m idx)[j]? = some (k0, if j = idx then markE e0 else e0) :=
      setDone_lookup hm
    rw [hj] at this
    have := Option.some.inj this
    injection this with h1 h2
    subst h1
    exact ⟨e0, rfl, h2⟩

/-- Preservation of the full (unexempted) invariant by one `.next` step of
the `astar` loop. -/
theorem astarStep_next_inv {N : Type} [DecidableEq N] {start : N}
    {succs : N → List (N × Nat)} {h : N → Nat} {goal : N → Bool}
    {st st2 : AState N}
    (hinv : AInv start succs h goal none st)
    (hstep : astarStep succs h goal st = .next st2) :
    AInv start succs h goal none st2 := by
  unfold astarStep at hstep
  cases hpop : popGreatest st.to_see with
  | none => rw [hpop] at hstep; exact AStepRes.noConfusion hstep
  | some pr =>
    obtain ⟨hd, rest⟩ := pr
    rw [hpop] at hstep
    simp only at hstep
    have hhd_mem : hd ∈ st.to_see := popGreatest_mem hpop
    have hrest_sub : ∀ x ∈ rest, x ∈ st.to_see := popGreatest_rest_subset hpop
    have hhd_perm := popGreatest_perm _ _ _ hpop
    -- membership transfer: an element of to_see different from hd is in rest
    have hmem_rest : ∀ x ∈ st.to_see, x ≠ hd → x ∈ rest := by
      intro x hx hne
      have := hhd_perm.subset hx
      rcases List.mem_cons.1 this with rfl | hr
      · exact absurd rfl hne
      · exact hr
    cases hget : st.parents[hd.index]? with
    | none => rw [hget] at hstep; exact AStepRes.noConfusion hstep
    | some ke =>
      obtain ⟨node, e⟩ := ke
      rw [hget] at hstep
      simp only at hstep
      by_cases hgoal : goal node = true
      · rw [if_pos hgoal] at hstep
        exact AStepRes.noConfusion hstep
      · rw [if_neg hgoal] at hstep
        by_cases hstale : e.cost < hd.cost
        · rw [if_pos hstale] at hstep
          have hst2 := AStepRes.next.inj hstep
          subst hst2
          -- Stale entry discarded; only the heap shrinks.
          refine ⟨hinv.root, ?_, ?_, ?_, hinv.doneNotGoal, hinv.link, hinv.stampLt⟩
          · intro hld hmem
            exact hinv.heapWf hld (hrest_sub hld hmem)
          · intro j k ej hj _
            rcases hinv.liveOrDone j k ej hj (by simp) with ⟨hld, hmem, hidx, hcost⟩ | hdone
            · refine Or.inl ⟨hld, ?_, hidx, hcost⟩
              refine hmem_rest hld hmem ?_
              intro heq
              subst heq
              rw [hidx] at hget
              rw [hget] at hj
              have := Option.some.inj hj
              injection this with h1 h2
              rw [← h2] at hcost
              omega
            · exact Or.inr hdone
          · intro j k ej hj _ hdone sw hsw
            exact hinv.doneRelaxed j k ej hj (by simp) hdone sw hsw
        · rw [if_neg hstale] at hstep
          have hst2 := AStepRes.next.inj hstep
          subst hst2
          -- Live expansion.
          have hlive : e.cost = hd.cost := by
            obtain ⟨k, e', hke, hce, -, -⟩ := hinv.heapWf hd hhd_mem
            rw [hget] at hke
            have := Option.some.inj hke
            injection this with h1 h2
            rw [← h2] at hce
            omega
          -- Mid-state invariant, with hd.index exempted.
          have hmid : AInv start succs h goal (some hd.index)
              { st with to_see := rest } := by
            refine ⟨hinv.root, ?_, ?_, ?_, hinv.doneNotGoal, hinv.link, hinv.stampLt⟩
            · intro hld hmem
              exact hinv.heapWf hld (hrest_sub hld hmem)
            · intro j k ej hj hne
              rcases hinv.liveOrDone j k ej hj (by simp) with ⟨hld, hmem, hidx, hcost⟩ | hdone
              · refine Or.inl ⟨hld, ?_, hidx, hcost⟩
                refine hmem_rest hld hmem ?_
                intro heq
                subst heq
                exact hne (by rw [hidx])
              · exact Or.inr hdone
            · intro j k ej hj hne hdone sw hsw
              exact hinv.doneRelaxed j k ej hj (by simp) hdone sw hsw
          obtain ⟨hinvF, hiF, hmonoF, hrelF⟩ :=
            relaxFold_inv (succs node) { st with to_see := rest } hmid hget hlive
              (fun sw hsw => hsw)
          -- Discharge the exemption with the ghost `done` mark.
          set stF := List.foldl (relaxOne h hd.index hd.cost)
            { st with to_see := rest } (succs node) with hstF
          have hrev : ∀ (j : Nat) (k : N) (e : AEntry),
              (setDone stF.parents hd.index)[j]? = some (k, e) →
              ∃ e0 : AEntry, stF.parents[j]? = some (k, e0) ∧
                e.parent = e0.parent ∧ e.cost = e0.cost ∧ e.stamp = e0.stamp ∧
                (j ≠ hd.index → e = e0) ∧ (j = hd.index → e = markE e0) := by
            intro j k e hj
            obtain ⟨e0, h0, he0⟩ := setDone_lookup_rev hj
            by_cases hji : j = hd.index
            · rw [if_pos hji] at he0
              subst he0
              exact ⟨e0, h0, rfl, rfl, rfl, fun hc => absurd hji hc, fun _ => rfl⟩
            · rw [if_neg hji] at he0
              subst he0
              exact ⟨e, h0, rfl, rfl, rfl, fun _ => rfl, fun hc => absurd hc hji⟩
          have hfwd : ∀ (j : Nat) (k : N) (e : AEntry),
              stF.parents[j]? = some (k, e) →
              ∃ e2 : AEntry, (setDone stF.parents hd.index)[j]? = some (k, e2) ∧
                e2.parent = e.parent ∧ e2.cost = e.cost ∧ e2.stamp = e.stamp := by
            intro j k e hj
            by_cases hji : j = hd.index
            · subst hji
              exact ⟨markE e, setDone_get_self _ _ _ _ hj, rfl, rfl, rfl⟩
            · exact ⟨e, by rw [setDone_get_ne _ _ _ hji]; exact hj, rfl, rfl, rfl⟩
          refine ⟨?_, ?_, ?_, ?_, ?_, ?_, ?_⟩
          · -- root
            obtain ⟨e0, h0, hp0, hc0⟩ := hinvF.root
            obtain ⟨e2, h2, hpar2, hcost2, -⟩ := hfwd 0 start e0 h0
            exact ⟨e2, h2, by rw [hpar2]; exact hp0, by rw [hcost2]; exact hc0⟩
          · -- heapWf
            intro hld hmem
            obtain ⟨k, ej, hke, hce, hcost, hest⟩ := hinvF.heapWf hld hmem
            obtain ⟨e2, h2, -, hcost2, -⟩ := hfwd hld.index k ej hke
            exact ⟨k, e2, h2, by rw [hcost2]; exact hce, hcost, hest⟩
          · -- liveOrDone
            intro j k ej hj _
            by_cases hji : j = hd.index
            · obtain ⟨e0, h0, -, -, -, -, hmark⟩ := hrev j k ej hj
              rw [hmark hji]
              exact Or.inr rfl
            · obtain ⟨e0, h0, -, -, -, heq, -⟩ := hrev j k ej hj
              rw [heq hji]
              rcases hinvF.liveOrDone j k e0 h0 (by simp [hji]) with hlive2 | hdone
              · exact Or.inl hlive2
              · exact Or.inr hdone
          · -- doneRelaxed
            intro j k ej hj _ hdone sw hsw
            have htrans : ∀ (j2 : Nat) (e2 : AEntry),
                stF.parents[j2]? = some (sw.1, e2) → ∃ (j3 : Nat) (e3 : AEntry),
                  (setDone stF.parents hd.index)[j3]? = some (sw.1, e3) ∧
                  e3.cost = e2.cost := by
              intro j2 e2 hj2
              obtain ⟨e3, h3, -, hc3, -⟩ := hfwd j2 sw.1 e2 hj2
              exact ⟨j2, e3, h3, hc3⟩
            by_cases hji : j = hd.index
            · -- the expanded node: use the fold's relaxation facts
              obtain ⟨e0, h0, -, hcost0, -, -, -⟩ := hrev j k ej hj
              subst hji
              have hkeq : k = node ∧ e0 = e := by
                rw [hiF] at h0
                have := Option.some.inj h0
                injection this with h1 h2
                exact ⟨h1.symm, h2.symm⟩
              obtain ⟨rfl, rfl⟩ := hkeq
              obtain ⟨j2, e2, hj2, hc2⟩ := hrelF sw hsw
              obtain ⟨j3, e3, hj3, hc3⟩ := htrans j2 e2 hj2
              refine ⟨j3, e3, hj3, ?_⟩
              rw [hc3, hcost0]
              omega
            · obtain ⟨e0, h0, -, -, -, heq, -⟩ := hrev j k ej hj
              rw [heq hji] at hdone ⊢
              obtain ⟨j2, e2, hj2, hc2⟩ :=
                hinvF.doneRelaxed j k e0 h0 (by simp [hji]) hdone sw hsw
              obtain ⟨j3, e3, hj3, hc3⟩ := htrans j2 e2 hj2
              exact ⟨j3, e3, hj3, by omega⟩
          · -- doneNotGoal
            intro j k ej hj hdone
            by_cases hji : j = hd.index
            · obtain ⟨e0, h0, -, -, -, -, -⟩ := hrev j k ej hj
              subst hji
              have hkeq : k = node := by
                rw [hiF] at h0
                have := Option.some.inj h0
                injection this with h1 h2
                exact h1.symm
              subst hkeq
              exact eq_false_of_ne_true hgoal
            · obtain ⟨e0, h0, -, -, -, heq, -⟩ := hrev j k ej hj
              rw [heq hji] at hdone
              exact hinvF.doneNotGoal j k e0 h0 hdone
          · -- link
            intro j k ej hj hj0
            obtain ⟨e0, h0, hpar0, hcost0, hstamp0, -, -⟩ := hrev j k ej hj
            obtain ⟨p, pk, pe, hpar, hpe, ⟨w, hw, hcw⟩, hlex⟩ :=
              hinvF.link j k e0 h0 hj0
            obtain ⟨pe2, hpe2, -, hpc2, hps2⟩ := hfwd p pk pe hpe
            refine ⟨p, pk, pe2, by rw [hpar0]; exact hpar, hpe2,
              ⟨w, hw, by omega⟩, ?_⟩
            rw [hpc2, hcost0, hps2, hstamp0]
            exact hlex
          · -- stampLt
            intro j k ej hj
            obtain ⟨e0, h0, -, -, hstamp0, -, -⟩ := hrev j k ej hj
            have := hinvF.stampLt j k e0 h0
            rw [hstamp0]
            exact this

/-- Frontier coverage: in an invariant state, every goal-reaching path from
a registered node with recorded cost below `b` is covered by a live frontier
entry whose registered cost plus the cost of some goal-reaching suffix is at
most `b` plus the path cost. -/
theorem astar_cover {N : Type} [DecidableEq N] {start : N}
    {succs : N → List (N × Nat)} {h : N → Nat} {goal : N → Bool} {st : AState N}
    (hinv : AInv start succs h goal none st) :
    ∀ (x : N) (l : List N) (t : N) (cp : Nat), PathFrom succs x l t cp →
      goal t = true →
      ∀ (j : Nat) (ex : AEntry) (b : Nat), st.parents[j]? = some (x, ex) →
        ex.cost ≤ b →
      ∃ hld ∈ st.to_see, ∃ (k : N) (e : AEntry) (l2 : List N) (t2 : N) (c2 : Nat),
        st.parents[hld.index]? = some (k, e) ∧ hld.cost = e.cost ∧
        PathFrom succs k l2 t2 c2 ∧ goal t2 = true ∧ e.cost + c2 ≤ b + cp := by
  intro x l t cp hp
  induction hp with
  | single a =>
    intro hgoal j ex b hj hb
    rcases hinv.liveOrDone j a ex hj (by simp) with ⟨hld, hmem, hidx, hcost⟩ | hdone
    · refine ⟨hld, hmem, a, ex, [a], a, 0, by rw [hidx]; exact hj, ?_, ?_, hgoal, ?_⟩
      · exact hcost
      · exact PathFrom.single a
      · omega
    · exact absurd hgoal (by rw [hinv.doneNotGoal j a ex hj hdone]; simp)
  | cons hedge htail ih =>
    rename_i a b1 t0 l0 w c0
    intro hgoal j ex b hj hb
    rcases hinv.liveOrDone j a ex hj (by simp) with ⟨hld, hmem, hidx, hcost⟩ | hdone
    · refine ⟨hld, hmem, a, ex, a :: l0, t0, w + c0, by rw [hidx]; exact hj,
        hcost, PathFrom.cons hedge htail, hgoal, ?_⟩
      omega
    · obtain ⟨j2, e2, hj2, hc2⟩ :=
        hinv.doneRelaxed j a ex hj (by simp) hdone (b1, w) hedge
      obtain ⟨hld, hmem, k, e, l2, t2, c2, hke, hcoste, hpath2, hgoal2, hbound⟩ :=
        ih hgoal j2 e2 (b + w) hj2 (by omega)
      refine ⟨hld, hmem, k, e, l2, t2, c2, hke, hcoste, hpath2, hgoal2, ?_⟩
      omega

/-! ### Acyclicity of the parent chains: lexicographic rank -/

/-- Entry `p`'s ghost pair `(cost, stamp)` is lexicographically below entry
`j`'s. -/
def lexBelow (m : List (N × AEntry)) (p j : Nat) : Bool :=
  match m[p]? with
  | none => false
  | some (_, ep) =>
    match m[j]? with
    | none => false
    | some (_, ej) =>
      decide (ep.cost < ej.cost ∨ (ep.cost = ej.cost ∧ ep.stamp < ej.stamp))

/-- The number of entries lexicographically below entry `j`. -/
def lexRank (m : List (N × AEntry)) (j : Nat) : Nat :=
  (List.range m.length).countP (fun p => lexBelow m p j)

theorem countP_strict {α : Type} :
    ∀ (l : List α) (p q : α → Bool), (∀ x ∈ l, p x = true → q x = true) →
      ∀ x ∈ l, p x = false → q x = true → l.countP p < l.countP q := by
  intro l
  induction l with
  | nil => intro p q _ x hx; cases hx
  | cons a tl ih =>
    intro p q hpq x hx hpx hqx
    have hmono : ∀ (r s : α → Bool) (l2 : List α), (∀ y ∈ l2, r y = true → s y = true) →
        l2.countP r ≤ l2.countP s := by
      intro r s l2 hrs
      induction l2 with
      | nil => exact Nat.le_refl _
      | cons b tb ihb =>
        have hb := ihb (fun y hy => hrs y (List.mem_cons_of_mem b hy))
        rw [List.countP_cons, List.countP_cons]
        by_cases hrb : r b = true
        · rw [hrb, hrs b (List.mem_cons_self b tb) hrb]
          simp only [if_pos rfl, eq_self_iff_true, if_true]
          omega
        · have : r b = false := by
            cases hrv : r b
            · rfl
            · exact absurd hrv hrb
          rw [this]
          by_cases hsb : s b = true
          · rw [hsb]
            simp only [if_pos rfl, eq_self_iff_true, if_true, Bool.false_eq_true, if_neg (fun hh => hh)]
            omega
          · have : s b = false := by
              cases hsv : s b
              · rfl
              · exact absurd hsv hsb
            rw [this]
            omega
    rcases List.mem_cons.1 hx with rfl | hxt
    · rw [List.countP_cons, List.countP_cons, hpx, hqx]
      simp only [if_pos rfl, eq_self_iff_true, if_true, Bool.false_eq_true, if_neg (fun hh => hh)]
      have := hmono p q tl (fun y hy => hpq y (List.mem_cons_of_mem x hy))
      omega
    · have hih := ih p q (fun y hy => hpq y (List.mem_cons_of_mem a hy)) x hxt hpx hqx
      rw [List.countP_cons, List.countP_cons]
      by_cases hpa : p a = true
      · rw [hpa, hpq a (List.mem_cons_self a tl) hpa]
        simp only [if_pos rfl, eq_self_iff_true, if_true]
        omega
      · have hpa2 : p a = false := by
          cases hv : p a
          · rfl
          · exact absurd hv hpa
        rw [hpa2]
        by_cases hqa : q a = true
        · rw [hqa]
          simp only [if_pos rfl, eq_self_iff_true, if_true, Bool.false_eq_true, if_neg (fun hh => hh)]
          omega
        · have hqa2 : q a = false := by
            cases hv : q a
            · rfl
            · exact absurd hv hqa
          rw [hqa2]
          simp only [Bool.false_eq_true, if_neg (fun hh => hh)]
          omega

theorem lexBelow_iff {m : List (N × AEntry)} {p j : Nat} {pk k : N}
    {pe ej : AEntry} (hp : m[p]? = some (pk, pe)) (hj : m[j]? = some (k, ej)) :
    lexBelow m p j = true ↔
      (pe.cost < ej.cost ∨ (pe.cost = ej.cost ∧ pe.stamp < ej.stamp)) := by
  unfold lexBelow
  rw [hp, hj]
  simp

theorem lexRank_lt_of_link {m : List (N × AEntry)} {p j : Nat} {pk k : N}
    {pe ej : AEntry} (hp : m[p]? = some (pk, pe)) (hj : m[j]? = some (k, ej))
    (hlex : pe.cost < ej.cost ∨ (pe.cost = ej.cost ∧ pe.stamp < ej.stamp)) :
    lexRank m p < lexRank m j := by
  refine countP_strict (List.range m.length) _ _ ?_ p ?_ ?_ ?_
  · intro q hq hqp
    cases hmq : m[q]? with
    | none =>
      exfalso
      unfold lexBelow at hqp
      rw [hmq] at hqp
      exact Bool.noConfusion hqp
    | some ke =>
      obtain ⟨kq, eq2⟩ := ke
      rw [lexBelow_iff hmq hp] at hqp
      rw [lexBelow_iff hmq hj]
      rcases hqp with h1 | ⟨h1, h2⟩ <;> rcases hlex with g1 | ⟨g1, g2⟩
      · exact Or.inl (by omega)
      · exact Or.inl (by omega)
      · exact Or.inl (by omega)
      · exact Or.inr ⟨by omega, by omega⟩
  · exact List.mem_range.2 (lookup_lt hp)
  · unfold lexBelow
    rw [hp]
    simp
  · rw [lexBelow_iff hp hj]
    exact hlex

theorem lexRank_le_length (m : List (N × AEntry)) (j : Nat) :
    lexRank m j ≤ m.length := by
  have : List.countP (fun p => lexBelow m p j) (List.range m.length) ≤
      (List.range m.length).length := List.countP_le_length _
  simpa using this

/-- Path reconstruction from any registered entry: the parent chain walks
back to the root, and the edge costs along the reconstructed path sum to at
most the entry's recorded cost. -/
theorem astar_reconstruct {N : Type} [DecidableEq N] {start : N}
    {succs : N → List (N × Nat)} {h : N → Nat} {goal : N → Bool}
    {excl : Option Nat} {st : AState N}
    (hinv : AInv start succs h goal excl st) :
    ∀ (n j : Nat) (k : N) (e : AEntry), lexRank st.parents j < n →
      st.parents[j]? = some (k, e) →
      ∀ fuel : Nat, lexRank st.parents j < fuel →
      ∃ cS : Nat,
        PathFrom succs start
          ((reversePathAux st.parents (fun v => v.parent) fuel j).reverse) k cS ∧
        cS ≤ e.cost := by
  intro n
  induction n with
  | zero => intro j k e hr; omega
  | succ n ih =>
    intro j k e hr hj fuel hf
    match fuel, hf with
    | f+1, hf =>
      by_cases hj0 : j = 0
      · subst hj0
        obtain ⟨e0, h0, hp0, hc0⟩ := hinv.root
        rw [h0] at hj
        have := Option.some.inj hj
        injection this with h1 h2
        subst h1
        subst h2
        simp only [reversePathAux, h0, hp0]
        exact ⟨0, by simpa using PathFrom.single start, by omega⟩
      · obtain ⟨p, pk, pe, hpar, hpe, ⟨w, hw, hcw⟩, hlex⟩ :=
          hinv.link j k e hj hj0
        have hrp : lexRank st.parents p < lexRank st.parents j :=
          lexRank_lt_of_link hpe hj hlex
        obtain ⟨cS, hpath, hcs⟩ := ih p pk pe (by omega) hpe f (by omega)
        simp only [reversePathAux, hj, hpar]
        refine ⟨cS + w, ?_, by omega⟩
        simp only [List.reverse_cons]
        exact PathFrom_append hpath hw

/-- Analysis of a `found` return of the `astar` loop body. -/
theorem astarStep_found {N : Type} [DecidableEq N] {start : N}
    {succs : N → List (N × Nat)} {h : N → Nat} {goal : N → Bool} {st : AState N}
    {p : List N} {c : Nat}
    (hinv : AInv start succs h goal none st)
    (hadm : Admissible succs goal h)
    (hstep : astarStep succs h goal st = .ret (some (p, c))) :
    ∃ t : N, goal t = true ∧ PathFrom succs start p t c ∧
      (∀ (l : List N) (t2 : N) (c2 : Nat),
        PathFrom succs start l t2 c2 → goal t2 = true → c ≤ c2) := by
  unfold astarStep at hstep
  cases hpop : popGreatest st.to_see with
  | none => rw [hpop] at hstep; cases AStepRes.ret.inj hstep
  | some pr =>
    obtain ⟨hd, rest⟩ := pr
    rw [hpop] at hstep
    simp only at hstep
    have hhd_mem : hd ∈ st.to_see := popGreatest_mem hpop
    cases hget : st.parents[hd.index]? with
    | none => rw [hget] at hstep; cases AStepRes.ret.inj hstep
    | some ke =>
      obtain ⟨node, e⟩ := ke
      rw [hget] at hstep
      simp only at hstep
      by_cases hgoal : goal node = true
      · rw [if_pos hgoal] at hstep
        have hpc := Option.some.inj (AStepRes.ret.inj hstep)
        injection hpc with hp hcc
        subst hp
        subst hcc
        -- minimality of the popped accumulated cost
        have hmin : ∀ (l : List N) (t2 : N) (c2 : Nat),
            PathFrom succs start l t2 c2 → goal t2 = true → hd.cost ≤ c2 := by
          intro l t2 c2 hpath hg2
          obtain ⟨e0, h0, hp0, hc0⟩ := hinv.root
          obtain ⟨hld, hmem, k, e', l2, t3, c3, hke, hcoste, hpath2, hg3, hbound⟩ :=
            astar_cover hinv start l t2 c2 hpath hg2 0 e0 0 h0 (by omega)
          obtain ⟨k2, e2, hke2, hce2, hcost2, hest2⟩ := hinv.heapWf hld hmem
          rw [hke] at hke2
          have := Option.some.inj hke2
          injection this with hk2 he2
          subst hk2
          subst he2
          have hhk : h k ≤ c3 := hadm k l2 t3 c3 hpath2 hg3
          have hmax := popGreatest_max _ _ _ hpop hld hmem
          have hestle : hd.estimated_cost ≤ hld.estimated_cost :=
            not_holderCmp_lt hd hld hmax
          obtain ⟨k4, e4, hke4, hce4, hcost4, hest4⟩ := hinv.heapWf hd hhd_mem
          omega
        refine ⟨node, hgoal, ?_, hmin⟩
        -- the reconstructed path: its edge-cost sum is `hd.cost` exactly
        obtain ⟨cS, hpath, hcs⟩ := astar_reconstruct hinv
          (lexRank st.parents hd.index + 1) hd.index node e (by omega) hget
          (st.parents.length + 1)
          (by have := lexRank_le_length st.parents hd.index; omega)
        have hece : e.cost ≤ hd.cost := by
          obtain ⟨k4, e4, hke4, hce4, -, -⟩ := hinv.heapWf hd hhd_mem
          rw [hget] at hke4
          have := Option.some.inj hke4
          injection this with h1 h2
          rw [← h2] at hce4
          exact hce4
        have hcsle : cS ≤ hd.cost := by omega
        have hcsge : hd.cost ≤ cS :=
          hmin _ node cS hpath hgoal
        have : cS = hd.cost := by omega
        rw [← this]
        exact hpath
      · rw [if_neg hgoal] at hstep
        by_cases hstale : e.cost < hd.cost
        · rw [if_pos hstale] at hstep
          exact AStepRes.noConfusion hstep
        · rw [if_neg hstale] at hstep
          exact AStepRes.noConfusion hstep

/-- The loop-level found theorem. -/
theorem astarLoop_found {N : Type} [DecidableEq N] {start : N}
    {succs : N → List (N × Nat)} {h : N → Nat} {goal : N → Bool}
    (hadm : Admissible succs goal h) :
    ∀ (fuel : Nat) (st : AState N) (p : List N) (c : Nat),
      AInv start succs h goal none st →
      astarLoop succs h goal fuel st = .found p c →
      ∃ t : N, goal t = true ∧ PathFrom succs start p t c ∧
        (∀ (l : List N) (t2 : N) (c2 : Nat),
          PathFrom succs start l t2 c2 → goal t2 = true → c ≤ c2) := by
  intro fuel
  induction fuel with
  | zero =>
    intro st p c _ hrun
    exact ARes.noConfusion hrun
  | succ f ih =>
    intro st p c hinv hrun
    simp only [astarLoop] at hrun
    cases hstep : astarStep succs h goal st with
    | ret r =>
      cases r with
      | none => rw [hstep] at hrun; exact ARes.noConfusion hrun
      | some pc =>
        obtain ⟨p2, c2⟩ := pc
        rw [hstep] at hrun
        simp only at hrun
        have := ARes.found.inj hrun
        obtain ⟨h1, h2⟩ := this
        subst h1
        subst h2
        exact astarStep_found hinv hadm hstep
    | next st2 =>
      rw [hstep] at hrun
      simp only at hrun
      exact ih st2 p c (astarStep_next_inv hinv hstep) hrun

/-- Claim C1.  For a weighted implicit graph with non-negative edge costs
(costs are `Nat`) and an admissible heuristic, whenever `astar` returns
`Some((path, cost))`, the returned path runs from the start node to a node
satisfying the goal predicate, the sum of the edge costs along it is
exactly `cost`, and `cost` is minimal among all goal-reaching paths from
the start node. -/
theorem claim_C1_astar_single_optimal {N : Type} [DecidableEq N] (fuel : Nat)
    (start : N) (succs : N → List (N × Nat)) (h : N → Nat) (goal : N → Bool)
    (p : List N) (c : Nat)
    (hadm : Admissible succs goal h)
    (hrun : astar fuel start succs h goal = .found p c) :
    p.head? = some start ∧
    ∃ t : N, goal t = true ∧ PathFrom succs start p t c ∧
      (∀ (l : List N) (t2 : N) (c2 : Nat),
        PathFrom succs start l t2 c2 → goal t2 = true → c ≤ c2) := by
  have hmain := astarLoop_found hadm fuel (astarInit start) p c
    (astarInit_inv start succs h goal) hrun
  obtain ⟨t, hg, hp, hmin⟩ := hmain
  exact ⟨PathFrom_head hp, t, hg, hp, hmin⟩

/-- Witness for C1: on `0 → 1` (cost 5), `0 → 2` (cost 1), `2 → 1`
(cost 1) with goal node 1 and heuristic 0, the run returns `([0, 2, 1], 2)`,
which the theorem certifies as an optimal goal path. -/
theorem claim_C1_witness :
    ([0, 2, 1] : List (Fin 3)).head? = some 0 ∧
    ∃ t : Fin 3, (t == 1) = true ∧ PathFrom c4succs 0 [0, 2, 1] t 2 ∧
      (∀ (l : List (Fin 3)) (t2 : Fin 3) (c2 : Nat),
        PathFrom c4succs 0 l t2 c2 → (t2 == 1) = true → 2 ≤ c2) :=
  claim_C1_astar_single_optimal 10 0 c4succs (fun _ => 0) (fun n => n == 1)
    [0, 2, 1] 2 (fun v l e cc _ _ => Nat.zero_le cc) (by decide)


/-! ## Claim C3: bidirectional BFS against plain BFS

The original claim fails when the start and end node coincide
(counterexample below: `bfs` returns the trivial one-node path through its
initial goal check, while `bfs_bidirectional` never tests the seeded nodes
for a meeting and reports no path).  The amended claim restricts to
distinct start and end nodes and a symmetric successor function; both the
`Some`-iff and the exact length agreement are then proved.

The development introduces `depthAt` (parent-chain depth of a registry
index), a per-step invariant `BfsOpt` of the `bfs_core` registry giving
minimality of the returned path, and a per-round invariant `RInv` of each
bidirectional registry (levelled breadth-first layers) together with
key-set disjointness of the two registries, giving minimality of the
assembled path. -/

/-- Fuelled parent-chain depth of registry index `j`.  The guard `p < j`
mirrors the strict index decrease that holds in every reachable registry
and makes the recursion total. -/
def depthFuel (m : List (N × Option Nat)) : Nat → Nat → Nat
  | 0, _ => 0
  | fuel+1, j =>
    match m[j]? with
    | some (_, some p) => if p < j then depthFuel m fuel p + 1 else 0
    | _ => 0

/-- Parent-chain depth of registry index `j`; fuel `j + 1` always suffices
because chain indices strictly decrease. -/
def depthAt (m : List (N × Option Nat)) (j : Nat) : Nat :=
  depthFuel m (j + 1) j

theorem depthFuel_congr (m : List (N × Option Nat)) :
    ∀ (j f1 f2 : Nat), j < f1 → j < f2 → depthFuel m f1 j = depthFuel m f2 j := by
  intro j
  induction j using Nat.strong_induction_on with
  | _ j ih =>
    intro f1 f2 h1 h2
    match f1, h1, f2, h2 with
    | a+1, h1, b+1, h2 =>
      cases hm : m[j]? with
      | none => simp only [depthFuel, hm]
      | some ke =>
        obtain ⟨n, e⟩ := ke
        cases e with
        | none => simp only [depthFuel, hm]
        | some p =>
          simp only [depthFuel, hm]
          by_cases hp : p < j
          · rw [if_pos hp, if_pos hp, ih p hp a b (by omega) (by omega)]
          · rw [if_neg hp, if_neg hp]

theorem depthAt_none {m : List (N × Option Nat)} {j : Nat}
    (h : m[j]? = none) : depthAt m j = 0 := by
  unfold depthAt
  simp only [depthFuel, h]

theorem depthAt_root {m : List (N × Option Nat)} {j : Nat} {n : N}
    (h : m[j]? = some (n, none)) : depthAt m j = 0 := by
  unfold depthAt
  simp only [depthFuel, h]

theorem depthAt_stuck {m : List (N × Option Nat)} {j p : Nat} {n : N}
    (h : m[j]? = some (n, some p)) (hp : ¬ p < j) : depthAt m j = 0 := by
  unfold depthAt
  simp only [depthFuel, h, if_neg hp]

theorem depthAt_par {m : List (N × Option Nat)} {j p : Nat} {n : N}
    (h : m[j]? = some (n, some p)) (hp : p < j) :
    depthAt m j = depthAt m p + 1 := by
  have h2 : depthFuel m (j+1) j = depthFuel m j p + 1 := by
    simp only [depthFuel, h, if_pos hp]
  unfold depthAt
  rw [h2, depthFuel_congr m p j (p+1) hp (Nat.lt_succ_self p)]

theorem depthAt_le_self (m : List (N × Option Nat)) : ∀ j, depthAt m j ≤ j := by
  intro j
  induction j using Nat.strong_induction_on with
  | _ j ih =>
    cases hm : m[j]? with
    | none => rw [depthAt_none hm]; exact Nat.zero_le j
    | some ke =>
      obtain ⟨n, e⟩ := ke
      cases e with
      | none => rw [depthAt_root hm]; exact Nat.zero_le j
      | some p =>
        by_cases hp : p < j
        · rw [depthAt_par hm hp]
          have := ih p hp
          omega
        · rw [depthAt_stuck hm hp]; exact Nat.zero_le j

theorem depthAt_append (m tl : List (N × Option Nat)) :
    ∀ j, j < m.length → depthAt (m ++ tl) j = depthAt m j := by
  intro j
  induction j using Nat.strong_induction_on with
  | _ j ih =>
    intro hj
    cases hm : m[j]? with
    | none =>
      rw [List.getElem?_eq_none_iff] at hm
      omega
    | some ke =>
      obtain ⟨n, e⟩ := ke
      have hm2 : (m ++ tl)[j]? = some (n, e) := by
        rw [List.getElem?_append_left hj]; exact hm
      cases e with
      | none => rw [depthAt_root hm2, depthAt_root hm]
      | some p =>
        by_cases hp : p < j
        · rw [depthAt_par hm2 hp, depthAt_par hm hp, ih p hp (by omega)]
        · rw [depthAt_stuck hm2 hp, depthAt_stuck hm hp]

theorem findEntry_append_some [DecidableEq N] :
    ∀ (m : List (N × V)) (tl : List (N × V)) (key : N) (q : Nat × V),
      findEntry m key = some q → findEntry (m ++ tl) key = some q := by
  intro m
  induction m with
  | nil => intro tl key q h; cases h
  | cons kv rest ih =>
    intro tl key q h
    obtain ⟨k0, v0⟩ := kv
    simp only [List.cons_append, findEntry] at h ⊢
    by_cases hk : key = k0
    · rw [if_pos hk] at h ⊢; exact h
    · rw [if_neg hk] at h ⊢
      cases hf : findEntry rest key with
      | none => rw [hf] at h; cases h
      | some p =>
        rw [hf] at h
        have hih := ih tl key p hf
        simp only [List.append_eq] at hih ⊢
        rw [hih]
        exact h

theorem findEntry_append_fresh [DecidableEq N] :
    ∀ (m : List (N × V)) (key : N) (w : V),
      findEntry m key = none → findEntry (m ++ [(key, w)]) key = some (m.length, w) := by
  intro m
  induction m with
  | nil =>
    intro key w _
    simp [findEntry]
  | cons kv rest ih =>
    intro key w h
    obtain ⟨k0, v0⟩ := kv
    simp only [findEntry] at h
    by_cases hk : key = k0
    · rw [if_pos hk] at h; cases h
    · rw [if_neg hk] at h
      cases hf : findEntry rest key with
      | some p => rw [hf] at h; cases h
      | none =>
        have hih := ih key w hf
        simp only [List.cons_append, findEntry, if_neg hk, List.append_eq,
          hih, Option.map_some', List.length_cons]

theorem findEntry_isSome_of_entry [DecidableEq N] {m : List (N × V)} {j : Nat}
    {k : N} {v : V} (h : m[j]? = some (k, v)) : (findEntry m k).isSome := by
  cases hf : findEntry m k with
  | some q => rfl
  | none => exact absurd rfl (findEntry_none m k hf j k v h)

theorem UPathFrom_length_pos {f : N → List N} {a t : N} {l : List N}
    (h : UPathFrom f a l t) : 1 ≤ l.length := by
  cases h with
  | single => simp
  | cons hab htail => simp

theorem UPathFrom_first {f : N → List N} {a t : N} {l : List N}
    (h : UPathFrom f a l t) : l[0]? = some a := by
  cases h with
  | single => exact List.getElem?_cons_zero
  | cons hab htail => exact List.getElem?_cons_zero

theorem UPathFrom_single_inv {f : N → List N} {a t : N} {l : List N}
    (h : UPathFrom f a l t) (hl : l.length ≤ 1) : t = a := by
  cases h with
  | single => rfl
  | cons hab htail =>
    have h1 := UPathFrom_length_pos htail
    simp only [List.length_cons] at hl
    exact absurd h1 (by omega)

theorem UPathFrom_reverse {f : N → List N} (hsym : ∀ x y : N, x ∈ f y ↔ y ∈ f x) :
    ∀ {a t : N} {l : List N}, UPathFrom f a l t → UPathFrom f t l.reverse a := by
  intro a t l h
  induction h with
  | single a => simpa using UPathFrom.single a
  | @cons a b e l hab htail ih =>
    simp only [List.reverse_cons]
    exact UPathFrom_append ih ((hsym a b).2 hab)

theorem UPathFrom_concat {f : N → List N} :
    ∀ {a x t : N} {l1 l2 : List N}, UPathFrom f a l1 x →
      UPathFrom f x l2 t → UPathFrom f a (l1.dropLast ++ l2) t := by
  intro a x t l1 l2 h1
  induction h1 with
  | single a => intro h2; simpa using h2
  | @cons a b e l hab htail ih =>
    intro h2
    have hl := UPathFrom_length_pos htail
    have hne : l ≠ [] := by
      intro h0
      rw [h0] at hl
      simp at hl
    rw [List.dropLast_cons_of_ne_nil hne, List.cons_append]
    exact UPathFrom.cons hab (ih h2)

theorem UPathFrom_split {f : N → List N} :
    ∀ {a t : N} {l : List N}, UPathFrom f a l t →
      ∀ (l1 l2 : List N) (x : N), l = l1 ++ x :: l2 →
        UPathFrom f a (l1 ++ [x]) x ∧ UPathFrom f x (x :: l2) t := by
  intro a t l h
  induction h with
  | single a =>
    intro l1 l2 x heq
    cases l1 with
    | nil =>
      simp only [List.nil_append] at heq
      injection heq with h1 h2
      subst h1
      subst h2
      exact ⟨UPathFrom.single a, UPathFrom.single a⟩
    | cons c l1t =>
      simp only [List.cons_append] at heq
      injection heq with h1 h2
      exact absurd h2.symm (by simp)
  | @cons a b e l hab htail ih =>
    intro l1 l2 x heq
    cases l1 with
    | nil =>
      simp only [List.nil_append] at heq
      injection heq with h1 h2
      subst h1
      subst h2
      exact ⟨UPathFrom.single a, UPathFrom.cons hab htail⟩
    | cons c l1t =>
      simp only [List.cons_append] at heq
      injection heq with h1 h2
      subst h1
      obtain ⟨hfirst, hsecond⟩ := ih l1t l2 x h2
      refine ⟨?_, hsecond⟩
      rw [List.cons_append]
      exact UPathFrom.cons hab hfirst

/-- Membership in the radius-`r` breadth ball around `src`: reachable by a
walk of at most `r` edges. -/
def InBallLe (f : N → List N) (src : N) (r : Nat) (n : N) : Prop :=
  ∃ l, UPathFrom f src l n ∧ l.length ≤ r + 1

theorem InBallLe_mono {f : N → List N} {src : N} {r s : Nat} (h : r ≤ s) {n : N} :
    InBallLe f src r n → InBallLe f src s n := by
  rintro ⟨l, hp, hl⟩
  exact ⟨l, hp, by omega⟩

/-- If the radius-`a` ball around `s` and the radius-`b` ball around `e`
are disjoint, every `s`-to-`e` walk has more than `a + b` edges. -/
theorem balls_disjoint_length {f : N → List N} {s e : N} {a b : Nat}
    (hsym : ∀ x y : N, x ∈ f y ↔ y ∈ f x)
    (hdisj : ∀ n, InBallLe f s a n → InBallLe f e b n → False) :
    ∀ l, UPathFrom f s l e → a + b + 2 ≤ l.length := by
  intro l hp
  by_contra hlt
  push_neg at hlt
  have hpos := UPathFrom_length_pos hp
  set t := min a (l.length - 1) with ht
  have htlt : t < l.length := by omega
  have hdrop : l.drop t = l[t] :: l.drop (t+1) := (List.getElem_cons_drop l t htlt).symm
  have hdec : l = l.take t ++ l[t] :: l.drop (t+1) := by
    rw [← hdrop, List.take_append_drop]
  obtain ⟨h1, h2⟩ := UPathFrom_split hp (l.take t) (l.drop (t+1)) (l[t]) hdec
  apply hdisj (l[t])
  · refine ⟨l.take t ++ [l[t]], h1, ?_⟩
    rw [List.length_append, List.length_take]
    simp only [List.length_singleton]
    omega
  · refine ⟨(l[t] :: l.drop (t+1)).reverse, UPathFrom_reverse hsym h2, ?_⟩
    rw [List.length_reverse]
    simp only [List.length_cons, List.length_drop]
    omega

/-- Chain soundness with exact length: an entry of a registry satisfying
`BfsInv [σ]` is reached from `σ` by a walk of exactly its chain depth. -/
theorem chain_path [DecidableEq N] {σ : N} {f : N → List N}
    {m : List (N × Option Nat)} (hinv : BfsInv [σ] f m) :
    ∀ (j : Nat) (n : N) (e : Option Nat), m[j]? = some (n, e) →
      ∃ l, UPathFrom f σ l n ∧ l.length = depthAt m j + 1 := by
  intro j
  induction j using Nat.strong_induction_on with
  | _ j ih =>
    intro n e hj
    obtain ⟨h1, h2⟩ := hinv j n e hj
    cases e with
    | none =>
      have hn : n = σ := by simpa using h1 rfl
      subst hn
      refine ⟨[n], UPathFrom.single n, ?_⟩
      rw [depthAt_root hj]
      simp
    | some p =>
      obtain ⟨hpj, ⟨pk, pe⟩, hq, hkq⟩ := h2 p rfl
      obtain ⟨l, hl, hlen⟩ := ih p hpj pk pe hq
      refine ⟨l ++ [n], UPathFrom_append hl hkq, ?_⟩
      rw [List.length_append, hlen, depthAt_par hj hpj]
      simp

/-- Walks out of a set closed under the successor function stay in it. -/
theorem path_trap {f : N → List N} {K : N → Prop}
    (hclo : ∀ n, K n → ∀ v ∈ f n, K v) :
    ∀ {a t : N} {l : List N}, UPathFrom f a l t → K a → K t := by
  intro a t l h
  induction h with
  | single a => intro hk; exact hk
  | @cons a b e l hab htail ih => intro hk; exact ih (hclo a hk b hab)



theorem UPathFrom_last {f : N → List N} {a t : N} {l : List N}
    (h : UPathFrom f a l t) : l[l.length - 1]? = some t := by
  induction h with
  | single a => exact List.getElem?_cons_zero
  | @cons a b e l hab htail ih =>
    have hpos := UPathFrom_length_pos htail
    have hlen : (a :: l).length - 1 = (l.length - 1) + 1 := by
      simp only [List.length_cons]
      omega
    rw [hlen, List.getElem?_cons_succ]
    exact ih

theorem UPathFrom_step {f : N → List N} {a t : N} {l : List N}
    (h : UPathFrom f a l t) :
    ∀ (j : Nat) (x y : N), l[j]? = some x → l[j+1]? = some y → y ∈ f x := by
  induction h with
  | single a =>
    intro j x y hx hy
    rw [List.getElem?_eq_none (by simp only [List.length_singleton]; omega)] at hy
    exact Option.noConfusion hy
  | @cons a b e l hab htail ih =>
    intro j x y hx hy
    cases j with
    | zero =>
      rw [List.getElem?_cons_zero] at hx
      have hxa : x = a := (Option.some.inj hx).symm
      subst hxa
      rw [List.getElem?_cons_succ] at hy
      have hb := UPathFrom_first htail
      rw [hy] at hb
      have hyb : y = b := Option.some.inj hb
      subst hyb
      exact hab
    | succ j0 =>
      rw [List.getElem?_cons_succ] at hx hy
      exact ih j0 x y hx hy

/-- Per-step invariant of a `bfs_core` registry over a single seed `σ`:
structural soundness, duplicate-free keys, the seed at index 0, parents
bounded by the cursor, chain depths nondecreasing along the queue, the
scanned closure (every successor of a scanned node failed the goal and is
registered at depth at most one more), no registered key satisfies the
goal, and the cursor is in range. -/
structure BfsOpt [DecidableEq N] (f : N → List N) (goal : N → Bool) (σ : N)
    (m : List (N × Option Nat)) (i : Nat) : Prop where
  base : BfsInv [σ] f m
  nodup : (m.map Prod.fst).Nodup
  root : m[0]? = some (σ, none)
  par_le : ∀ (j : Nat) (n : N) (p : Nat), m[j]? = some (n, some p) → p ≤ i
  sorted : ∀ (j k : Nat), j ≤ k → k < m.length → depthAt m j ≤ depthAt m k
  closure : ∀ (j : Nat), j < i → ∀ (n : N) (e : Option Nat), m[j]? = some (n, e) →
    ∀ v ∈ f n, goal v = false ∧ ∃ (jv : Nat) (ev : Option Nat),
      findEntry m v = some (jv, ev) ∧ depthAt m jv ≤ depthAt m j + 1
  nogoal : ∀ (j : Nat) (n : N) (e : Option Nat), m[j]? = some (n, e) → goal n = false
  i_le : i ≤ m.length

theorem bfsOpt_init [DecidableEq N] {f : N → List N} {goal : N → Bool} {σ : N}
    (hgs : goal σ = false) : BfsOpt f goal σ [(σ, none)] 0 := by
  have hroot : ([(σ, none)] : List (N × Option Nat))[0]? = some (σ, none) :=
    List.getElem?_cons_zero
  have hentry : ∀ (j : Nat) (n : N) (e : Option Nat),
      ([(σ, none)] : List (N × Option Nat))[j]? = some (n, e) →
      j = 0 ∧ n = σ ∧ e = none := by
    intro j n e hj
    cases j with
    | zero =>
      rw [List.getElem?_cons_zero] at hj
      have h12 := Option.some.inj hj
      injection h12 with h1 h2
      exact ⟨rfl, h1.symm, h2.symm⟩
    | succ j0 =>
      rw [List.getElem?_cons_succ, List.getElem?_eq_none (by simp)] at hj
      exact Option.noConfusion hj
  refine ⟨?_, ?_, hroot, ?_, ?_, ?_, ?_, ?_⟩
  · intro j n e hj
    obtain ⟨hj0, hn, he⟩ := hentry j n e hj
    subst hn
    subst he
    exact ⟨fun _ => by simp, fun p hp => Option.noConfusion hp⟩
  · simp
  · intro j n p hj
    obtain ⟨_, _, he⟩ := hentry j n (some p) hj
    exact Option.noConfusion he
  · intro j k hjk hk
    simp only [List.length_singleton] at hk
    have hk0 : k = 0 := by omega
    have hj0 : j = 0 := by omega
    subst hk0
    subst hj0
    exact Nat.le_refl _
  · intro j hj
    exact absurd hj (by omega)
  · intro j n e hj
    obtain ⟨_, hn, _⟩ := hentry j n e hj
    subst hn
    exact hgs
  · simp

/-- Every registered depth is at most one more than the depth at the
cursor. -/
theorem bfsOpt_depth_le_front [DecidableEq N] {f : N → List N} {goal : N → Bool}
    {σ : N} {m : List (N × Option Nat)} {i : Nat} (hO : BfsOpt f goal σ m i)
    (hilen : i < m.length) :
    ∀ j, j < m.length → depthAt m j ≤ depthAt m i + 1 := by
  intro j hj
  cases hm : m[j]? with
  | none =>
    rw [List.getElem?_eq_none_iff] at hm
    omega
  | some ke =>
    obtain ⟨n, e⟩ := ke
    cases e with
    | none =>
      rw [depthAt_root hm]
      omega
    | some p =>
      have hple := hO.par_le j n p hm
      have hplt : p < j := ((hO.base j n (some p) hm).2 p rfl).1
      rw [depthAt_par hm hplt]
      have hps : depthAt m p ≤ depthAt m i := hO.sorted p i hple hilen
      omega

theorem bfsOpt_insert [DecidableEq N] {f : N → List N} {goal : N → Bool} {σ : N}
    {m : List (N × Option Nat)} {i : Nat} (hO : BfsOpt f goal σ m i)
    {u : N} {e0 : Option Nat} (hi : m[i]? = some (u, e0))
    {v : N} (hv : v ∈ f u) (hfresh : findEntry m v = none)
    (hgv : goal v = false) :
    BfsOpt f goal σ (m ++ [(v, some i)]) i := by
  have hilen : i < m.length := (List.getElem?_eq_some_iff.1 hi).1
  have hnew : (m ++ [(v, some i)])[m.length]? = some (v, some i) :=
    List.getElem?_concat_length _ _
  have hdnew : depthAt (m ++ [(v, some i)]) m.length = depthAt m i + 1 := by
    rw [depthAt_par hnew hilen, depthAt_append m _ i hilen]
  have hget : ∀ (j : Nat) (n : N) (e : Option Nat),
      (m ++ [(v, some i)])[j]? = some (n, e) →
      (j < m.length ∧ m[j]? = some (n, e)) ∨
      (j = m.length ∧ n = v ∧ e = some i) := by
    intro j n e hj
    rcases Nat.lt_trichotomy j m.length with hlt | heq | hgt
    · rw [List.getElem?_append_left hlt] at hj
      exact Or.inl ⟨hlt, hj⟩
    · subst heq
      rw [List.getElem?_concat_length] at hj
      have h12 := Option.some.inj hj
      injection h12 with h1 h2
      exact Or.inr ⟨rfl, h1.symm, h2.symm⟩
    · rw [List.getElem?_eq_none (by simp only [List.length_append, List.length_singleton]; omega)] at hj
      exact Option.noConfusion hj
  refine ⟨bfsInv_extend hO.base hi hv, ?_, ?_, ?_, ?_, ?_, ?_, ?_⟩
  · have hvnot : v ∉ m.map Prod.fst := by
      intro hmem
      obtain ⟨⟨k, w⟩, hkw, hk⟩ := List.mem_map.1 hmem
      obtain ⟨j, hj⟩ := List.mem_iff_getElem?.1 hkw
      simp only at hk
      subst hk
      exact absurd rfl (findEntry_none m k hfresh j k w hj)
    rw [List.map_append, List.nodup_append]
    refine ⟨hO.nodup, by simp, ?_⟩
    intro a ha hb
    simp only [List.map_cons, List.map_nil, List.mem_singleton] at hb
    subst hb
    exact hvnot ha
  · rw [List.getElem?_append_left (by omega : 0 < m.length)]
    exact hO.root
  · intro j n p hj
    rcases hget j n (some p) hj with ⟨_, hm⟩ | ⟨_, _, hps⟩
    · exact hO.par_le j n p hm
    · have := Option.some.inj hps
      omega
  · intro j k hjk hk
    simp only [List.length_append, List.length_singleton] at hk
    rcases Nat.lt_or_ge k m.length with hkm | hkm
    · have hjm : j < m.length := by omega
      rw [depthAt_append m _ j hjm, depthAt_append m _ k hkm]
      exact hO.sorted j k hjk hkm
    · have hk2 : k = m.length := by omega
      subst hk2
      rw [hdnew]
      rcases Nat.lt_or_ge j m.length with hjm | hjm
      · rw [depthAt_append m _ j hjm]
        exact bfsOpt_depth_le_front hO hilen j hjm
      · have hj2 : j = m.length := by omega
        subst hj2
        rw [hdnew]
  · intro j hj n e hj2 w hw
    have hjlt : j < m.length := by
      have := hO.i_le
      omega
    rw [List.getElem?_append_left hjlt] at hj2
    obtain ⟨hg2, jv, ev, hfe, hdep⟩ := hO.closure j hj n e hj2 w hw
    have hjvlt : jv < m.length :=
      (List.getElem?_eq_some_iff.1 (findEntry_some m w jv ev hfe)).1
    refine ⟨hg2, jv, ev, findEntry_append_some m _ w (jv, ev) hfe, ?_⟩
    rw [depthAt_append m _ jv hjvlt, depthAt_append m _ j hjlt]
    exact hdep
  · intro j n e hj
    rcases hget j n e hj with ⟨_, hm⟩ | ⟨_, hn, _⟩
    · exact hO.nogoal j n e hm
    · subst hn
      exact hgv
  · have := hO.i_le
    simp only [List.length_append, List.length_singleton]
    omega

theorem bfsScan_opt [DecidableEq N] {f : N → List N} {goal : N → Bool} {σ : N} :
    ∀ (ss : List N) (m : List (N × Option Nat)) (i : Nat) (u : N) (e0 : Option Nat)
      (m2 : List (N × Option Nat)),
      BfsOpt f goal σ m i → m[i]? = some (u, e0) → (∀ x ∈ ss, x ∈ f u) →
      bfsScan goal m i ss = .inr m2 →
      BfsOpt f goal σ m2 i ∧ (∃ tl, m2 = m ++ tl) ∧
      (∀ x ∈ ss, goal x = false ∧ ∃ (jv : Nat) (ev : Option Nat),
        findEntry m2 x = some (jv, ev) ∧ depthAt m2 jv ≤ depthAt m2 i + 1) := by
  intro ss
  induction ss with
  | nil =>
    intro m i u e0 m2 hO hi hss hscan
    simp only [bfsScan] at hscan
    have h2 := Sum.inr.inj hscan
    subst h2
    exact ⟨hO, ⟨[], by simp⟩, fun x hx => absurd hx (by simp)⟩
  | cons s rest ih =>
    intro m i u e0 m2 hO hi hss hscan
    simp only [bfsScan] at hscan
    by_cases hg : goal s = true
    · rw [if_pos hg] at hscan
      exact Sum.noConfusion hscan
    · rw [if_neg hg] at hscan
      have hgs : goal s = false := by
        cases hgv : goal s
        · rfl
        · exact absurd hgv hg
      have hilen : i < m.length := (List.getElem?_eq_some_iff.1 hi).1
      cases hfind : findEntry m s with
      | some q =>
        rw [hfind] at hscan
        obtain ⟨hO2, ⟨tl, htl⟩, hfacts⟩ := ih m i u e0 m2 hO hi
          (fun x hx => hss x (List.mem_cons_of_mem s hx)) hscan
        refine ⟨hO2, ⟨tl, htl⟩, ?_⟩
        intro x hx
        rcases List.mem_cons.1 hx with heq | hx2
        · subst heq
          obtain ⟨js, es⟩ := q
          have hjs := findEntry_some m x js es hfind
          have hjslen : js < m.length := (List.getElem?_eq_some_iff.1 hjs).1
          refine ⟨hgs, js, es, ?_, ?_⟩
          · rw [htl]
            exact findEntry_append_some m tl x (js, es) hfind
          · rw [htl, depthAt_append m tl js hjslen, depthAt_append m tl i hilen]
            exact bfsOpt_depth_le_front hO hilen js hjslen
        · exact hfacts x hx2
      | none =>
        rw [hfind] at hscan
        have hO2 := bfsOpt_insert hO hi (hss s (List.mem_cons_self s rest)) hfind hgs
        have hi2 : (m ++ [(s, some i)])[i]? = some (u, e0) := by
          rw [List.getElem?_append_left hilen]
          exact hi
        obtain ⟨hO3, ⟨tl, htl⟩, hfacts⟩ := ih (m ++ [(s, some i)]) i u e0 m2 hO2 hi2
          (fun x hx => hss x (List.mem_cons_of_mem s hx)) hscan
        refine ⟨hO3, ⟨(s, some i) :: tl, by rw [htl]; simp⟩, ?_⟩
        intro x hx
        rcases List.mem_cons.1 hx with heq | hx2
        · subst heq
          have hfe1 : findEntry (m ++ [(x, some i)]) x = some (m.length, some i) :=
            findEntry_append_fresh m x (some i) hfind
          have hlen1 : m.length < (m ++ [(x, some i)]).length := by simp
          have hnew : (m ++ [(x, some i)])[m.length]? = some (x, some i) :=
            List.getElem?_concat_length _ _
          refine ⟨hgs, m.length, some i, ?_, ?_⟩
          · rw [htl]
            exact findEntry_append_some _ tl x (m.length, some i) hfe1
          · rw [htl, depthAt_append _ tl m.length hlen1,
              depthAt_append _ tl i (by simp only [List.length_append, List.length_singleton]; omega),
              depthAt_par hnew hilen, depthAt_append m _ i hilen]
        · exact hfacts x hx2

/-- Minimality: while the cursor points at an entry, every goal-reaching
walk from the seed has more nodes than the cursor depth plus one. -/
theorem bfsOpt_minimal [DecidableEq N] {f : N → List N} {goal : N → Bool} {σ : N}
    {m : List (N × Option Nat)} {i : Nat} (hO : BfsOpt f goal σ m i)
    {u : N} {e0 : Option Nat} (hi : m[i]? = some (u, e0)) :
    ∀ (l : List N) (t : N), UPathFrom f σ l t → goal t = true →
      depthAt m i + 2 ≤ l.length := by
  intro l t hp hgt
  by_contra hlt
  push_neg at hlt
  have hpos := UPathFrom_length_pos hp
  have hilen : i < m.length := (List.getElem?_eq_some_iff.1 hi).1
  have hstep := UPathFrom_step hp
  have hfirst := UPathFrom_first hp
  have hlast := UPathFrom_last hp
  have hkd : l.length - 1 ≤ depthAt m i := by omega
  have main : ∀ (s : Nat), s ≤ l.length - 1 → ∃ (js : Nat) (x : N) (es : Option Nat),
      l[s]? = some x ∧ m[js]? = some (x, es) ∧ depthAt m js ≤ s ∧ js < i := by
    intro s
    induction s with
    | zero =>
      intro _
      refine ⟨0, σ, none, hfirst, hO.root, ?_, ?_⟩
      · rw [depthAt_root hO.root]
      · by_contra h0
        have hi0 : i = 0 := by omega
        subst hi0
        have hd0 : depthAt m 0 = 0 := depthAt_root hO.root
        have ht : t = σ := UPathFrom_single_inv hp (by omega)
        subst ht
        have hng := hO.nogoal 0 t none hO.root
        rw [hng] at hgt
        exact Bool.noConfusion hgt
    | succ s ihs =>
      intro hsk
      obtain ⟨js, x, es, hlx, hmx, hdx, hjsi⟩ := ihs (by omega)
      have hs1 : s + 1 < l.length := by omega
      have hy : l[s+1]? = some (l[s+1]) := List.getElem?_eq_getElem hs1
      have hyx : l[s+1] ∈ f x := hstep s x (l[s+1]) hlx hy
      obtain ⟨hgy, jv, ev, hfe, hdep⟩ := hO.closure js hjsi x es hmx (l[s+1]) hyx
      have hjv := findEntry_some m (l[s+1]) jv ev hfe
      have hjvlen : jv < m.length := (List.getElem?_eq_some_iff.1 hjv).1
      refine ⟨jv, l[s+1], ev, hy, hjv, by omega, ?_⟩
      by_contra hge
      have hile : i ≤ jv := by omega
      have hdi : depthAt m i ≤ depthAt m jv := hO.sorted i jv hile hjvlen
      have hs2 : s + 1 = l.length - 1 := by omega
      have hlast2 : l[s+1]? = some t := by
        rw [hs2]
        exact hlast
      rw [hy] at hlast2
      have hyt : l[s+1] = t := Option.some.inj hlast2
      rw [hyt] at hgy
      rw [hgy] at hgt
      exact Bool.noConfusion hgt
  obtain ⟨jk, x, es, hlx, hmx, _, hjki⟩ := main (l.length - 1) (Nat.le_refl _)
  have hlast2 : l[l.length - 1]? = some t := hlast
  rw [hlx] at hlast2
  have hxt : x = t := Option.some.inj hlast2
  subst hxt
  have hng := hO.nogoal jk x es hmx
  rw [hng] at hgt
  exact Bool.noConfusion hgt

/-- When the queue is exhausted, no walk from the seed reaches the goal. -/
theorem bfsOpt_exhausted [DecidableEq N] {f : N → List N} {goal : N → Bool} {σ : N}
    {m : List (N × Option Nat)} {i : Nat} (hO : BfsOpt f goal σ m i)
    (hend : m[i]? = none) :
    ∀ (l : List N) (t : N), UPathFrom f σ l t → goal t = false := by
  have hilen : m.length ≤ i := List.getElem?_eq_none_iff.1 hend
  have hclo : ∀ n, (∃ (j : Nat) (e : Option Nat), m[j]? = some (n, e)) →
      ∀ v ∈ f n, ∃ (j : Nat) (e : Option Nat), m[j]? = some (v, e) := by
    rintro n ⟨j, e, hj⟩ v hv
    have hji : j < i := by
      have := (List.getElem?_eq_some_iff.1 hj).1
      omega
    obtain ⟨_, jv, ev, hfe, _⟩ := hO.closure j hji n e hj v hv
    exact ⟨jv, ev, findEntry_some m v jv ev hfe⟩
  intro l t hp
  have hKt := path_trap hclo hp ⟨0, none, hO.root⟩
  obtain ⟨j, e, hj⟩ := hKt
  exact hO.nogoal j t e hj

theorem reversePathAux_length [DecidableEq N] {σ : N} {f : N → List N}
    {m : List (N × Option Nat)} (hinv : BfsInv [σ] f m) :
    ∀ (fuel j : Nat) (n : N) (e : Option Nat), j < fuel → m[j]? = some (n, e) →
      (reversePathAux m (fun v => v) fuel j).length = depthAt m j + 1 := by
  intro fuel
  induction fuel using Nat.strong_induction_on with
  | _ fuel ihf =>
    intro j n e hjf hj
    match fuel, hjf with
    | fl+1, hjf =>
      simp only [reversePathAux, hj]
      cases e with
      | none => simp [depthAt_root hj]
      | some p =>
        obtain ⟨hpj, ⟨pk, pe⟩, hq, _⟩ := (hinv j n (some p) hj).2 p rfl
        have hpf : p < fl := by omega
        simp only [List.length_cons]
        rw [ihf fl (by omega) p pk pe hpf hq, depthAt_par hj hpj]

theorem bfsScan_inl_opt [DecidableEq N] {f : N → List N} {goal : N → Bool} {σ : N} :
    ∀ (ss : List N) (m : List (N × Option Nat)) (i : Nat) (u : N) (e0 : Option Nat)
      (path : List N),
      BfsOpt f goal σ m i → m[i]? = some (u, e0) → (∀ x ∈ ss, x ∈ f u) →
      bfsScan goal m i ss = .inl path →
      ∃ (m2 : List (N × Option Nat)) (g : N),
        BfsOpt f goal σ m2 i ∧ m2[i]? = some (u, e0) ∧
        goal g = true ∧ g ∈ f u ∧
        UPathFrom f σ path g ∧ path.length = depthAt m2 i + 2 := by
  intro ss
  induction ss with
  | nil =>
    intro m i u e0 path hO hi hss h
    simp only [bfsScan] at h
    exact Sum.noConfusion h
  | cons s rest ih =>
    intro m i u e0 path hO hi hss hscan
    simp only [bfsScan] at hscan
    have hilen : i < m.length := (List.getElem?_eq_some_iff.1 hi).1
    by_cases hg : goal s = true
    · rw [if_pos hg] at hscan
      have hpath := Sum.inl.inj hscan
      subst hpath
      refine ⟨m, s, hO, hi, hg, hss s (List.mem_cons_self s rest), ?_, ?_⟩
      · obtain ⟨seed, hseed, hupath, hne⟩ :=
          bfs_reverse_path_sound hO.base (m.length + 1) i u e0 (by omega) hi
        have hseedσ : seed = σ := by simpa using hseed
        subst hseedσ
        exact UPathFrom_append hupath (hss s (List.mem_cons_self s rest))
      · simp only [reverse_path, List.length_append, List.length_reverse,
          List.length_singleton]
        rw [reversePathAux_length hO.base (m.length+1) i u e0 (by omega) hi]
    · rw [if_neg hg] at hscan
      have hgs : goal s = false := by
        cases hgv : goal s
        · rfl
        · exact absurd hgv hg
      cases hfind : findEntry m s with
      | some q =>
        rw [hfind] at hscan
        exact ih m i u e0 path hO hi
          (fun x hx => hss x (List.mem_cons_of_mem s hx)) hscan
      | none =>
        rw [hfind] at hscan
        have hO2 := bfsOpt_insert hO hi (hss s (List.mem_cons_self s rest)) hfind hgs
        have hi2 : (m ++ [(s, some i)])[i]? = some (u, e0) := by
          rw [List.getElem?_append_left hilen]
          exact hi
        exact ih (m ++ [(s, some i)]) i u e0 path hO2 hi2
          (fun x hx => hss x (List.mem_cons_of_mem s hx)) hscan

/-- Full characterization of a terminated `bfs_core` run from an invariant
state: `none` means no goal walk exists, and a returned path is a shortest
goal walk. -/
theorem bfsCore_char [DecidableEq N] {f : N → List N} {goal : N → Bool} {σ : N} :
    ∀ (fuel : Nat) (m : List (N × Option Nat)) (i : Nat) (r : Option (List N)),
      BfsOpt f goal σ m i →
      bfsCore f goal fuel m i = some r →
      (r = none → ∀ (l : List N) (t : N), UPathFrom f σ l t → goal t = false) ∧
      (∀ p, r = some p → ∃ t, goal t = true ∧ UPathFrom f σ p t ∧
        (∀ (l : List N) (t2 : N), UPathFrom f σ l t2 → goal t2 = true →
          p.length ≤ l.length)) := by
  intro fuel
  induction fuel with
  | zero =>
    intro m i r hO h
    simp only [bfsCore] at h
    exact Option.noConfusion h
  | succ fl ih =>
    intro m i r hO hrun
    simp only [bfsCore] at hrun
    cases hi : m[i]? with
    | none =>
      rw [hi] at hrun
      simp only at hrun
      have hr := Option.some.inj hrun
      subst hr
      refine ⟨fun _ => bfsOpt_exhausted hO hi, ?_⟩
      intro p hp
      exact Option.noConfusion hp
    | some ke =>
      obtain ⟨u, e0⟩ := ke
      rw [hi] at hrun
      simp only at hrun
      have hilen : i < m.length := (List.getElem?_eq_some_iff.1 hi).1
      cases hscan : bfsScan goal m i (f u) with
      | inl p2 =>
        rw [hscan] at hrun
        simp only at hrun
        have hr := Option.some.inj hrun
        subst hr
        obtain ⟨m2, g, hO2, hi2, hgg, hgu, hpath, hlen⟩ :=
          bfsScan_inl_opt (f u) m i u e0 p2 hO hi (fun x hx => hx) hscan
        refine ⟨fun h => Option.noConfusion h, ?_⟩
        intro p hp
        have hp2 : p2 = p := Option.some.inj hp
        subst hp2
        refine ⟨g, hgg, hpath, ?_⟩
        intro l t2 hl hgt2
        have := bfsOpt_minimal hO2 hi2 l t2 hl hgt2
        omega
      | inr m3 =>
        rw [hscan] at hrun
        simp only at hrun
        obtain ⟨hO3, ⟨tl, htl⟩, hfacts⟩ :=
          bfsScan_opt (f u) m i u e0 m3 hO hi (fun x hx => hx) hscan
        have hi3 : m3[i]? = some (u, e0) := by
          rw [htl, List.getElem?_append_left hilen]
          exact hi
        have hO4 : BfsOpt f goal σ m3 (i+1) := by
          refine ⟨hO3.base, hO3.nodup, hO3.root, ?_, hO3.sorted, ?_, hO3.nogoal, ?_⟩
          · intro j n p hj
            have := hO3.par_le j n p hj
            omega
          · intro j hj n e hj2 v hv
            rcases Nat.lt_or_ge j i with hji | hji
            · exact hO3.closure j hji n e hj2 v hv
            · have hj_eq : j = i := by omega
              subst hj_eq
              rw [hi3] at hj2
              have h12 := Option.some.inj hj2
              injection h12 with h1 h2
              subst h1
              exact hfacts v hv
          · rw [htl]
            simp only [List.length_append]
            omega
        exact ih m3 (i+1) r hO4 hrun

/-- Characterization of a terminated `bfs` run on a single non-goal start
node: `Some none` means no goal walk exists, and a returned path is a
shortest goal walk from the start node. -/
theorem bfs_char [DecidableEq N] {f : N → List N} {goal : N → Bool} {σ : N}
    {fuel : Nat} {r : Option (List N)}
    (hrun : bfs fuel [σ] f goal = some r) (hgs : goal σ = false) :
    (r = none → ∀ (l : List N) (t : N), UPathFrom f σ l t → goal t = false) ∧
    (∀ p, r = some p → ∃ t, goal t = true ∧ UPathFrom f σ p t ∧
      (∀ (l : List N) (t2 : N), UPathFrom f σ l t2 → goal t2 = true →
        p.length ≤ l.length)) := by
  have hfind : ([σ].find? goal) = none := by
    simp [List.find?, hgs]
  simp only [bfs, hfind] at hrun
  have hseed : seedReg [σ] = [(σ, none)] := rfl
  rw [hseed] at hrun
  exact bfsCore_char fuel [(σ, none)] 0 r (bfsOpt_init hgs) hrun



/-- Key-set disjointness of the two bidirectional registries. -/
def Disj [DecidableEq N] (m o : List (N × Option Nat)) : Prop :=
  ∀ n : N, (findEntry m n).isSome → (findEntry o n).isSome → False

theorem Disj_symm [DecidableEq N] {m o : List (N × Option Nat)}
    (h : Disj m o) : Disj o m :=
  fun n h1 h2 => h n h2 h1

theorem findEntry_isSome_append [DecidableEq N] {m : List (N × V)}
    (tl : List (N × V)) {key : N} (h : (findEntry m key).isSome) :
    (findEntry (m ++ tl) key).isSome := by
  obtain ⟨q, hq⟩ := Option.isSome_iff_exists.1 h
  rw [findEntry_append_some m tl key q hq]
  rfl

theorem nodup_append_fresh [DecidableEq N] {m : List (N × V)} {key : N} {w : V}
    (hnd : (m.map Prod.fst).Nodup) (hfresh : findEntry m key = none) :
    ((m ++ [(key, w)]).map Prod.fst).Nodup := by
  have hvnot : key ∉ m.map Prod.fst := by
    intro hmem
    obtain ⟨⟨k, w2⟩, hkw, hk⟩ := List.mem_map.1 hmem
    obtain ⟨j, hj⟩ := List.mem_iff_getElem?.1 hkw
    simp only at hk
    subst hk
    exact absurd rfl (findEntry_none m k hfresh j k w2 hj)
  rw [List.map_append, List.nodup_append]
  refine ⟨hnd, by simp, ?_⟩
  intro a ha hb
  simp only [List.map_cons, List.map_nil, List.mem_singleton] at hb
  subst hb
  exact hvnot ha

theorem UPathFrom_snoc_inv {f : N → List N} {a t : N} {l : List N}
    (h : UPathFrom f a l t) (hl : 2 ≤ l.length) :
    ∃ (l0 : List N) (u : N), l = l0 ++ [t] ∧ UPathFrom f a l0 u ∧ t ∈ f u := by
  induction h with
  | single a => exact absurd hl (by simp)
  | @cons a b e l hab htail ih =>
    rcases Nat.lt_or_ge l.length 2 with hsmall | hbig
    · have hpos := UPathFrom_length_pos htail
      have hlen1 : l.length = 1 := by omega
      have heb : e = b := UPathFrom_single_inv htail (by omega)
      have hlb : l = [b] := by
        cases l with
        | nil => simp at hlen1
        | cons x xs =>
          have hx := UPathFrom_first htail
          rw [List.getElem?_cons_zero] at hx
          have hxb : x = b := Option.some.inj hx
          subst hxb
          have hxs : xs = [] := by
            simp only [List.length_cons] at hlen1
            exact List.length_eq_zero.1 (by omega)
          subst hxs
          rfl
      refine ⟨[a], a, ?_, UPathFrom.single a, ?_⟩
      · rw [hlb, heb]
        rfl
      · rw [heb]
        exact hab
    · obtain ⟨l0, u, hdec, hpu, hvu⟩ := ih hbig
      exact ⟨a :: l0, u, by rw [hdec, List.cons_append], UPathFrom.cons hab hpu, hvu⟩

/-- Per-round invariant of one bidirectional registry after `r` completed
scan levels: structural soundness, duplicate-free keys, the seed at index
0, all chain depths at most `r`, an index scanned exactly when its depth is
below `r`, cursor in range, the radius-`r` ball fully registered, and
every successor of a scanned entry registered. -/
structure RInv [DecidableEq N] (f : N → List N) (σ : N)
    (m : List (N × Option Nat)) (i r : Nat) : Prop where
  base : BfsInv [σ] f m
  nodup : (m.map Prod.fst).Nodup
  root : m[0]? = some (σ, none)
  depth_le : ∀ j, j < m.length → depthAt m j ≤ r
  scan_iff : ∀ j, j < m.length → (j < i ↔ depthAt m j < r)
  i_le : i ≤ m.length
  complete : ∀ n, InBallLe f σ r n → (findEntry m n).isSome
  closure : ∀ (j : Nat), j < i → ∀ (n : N) (e : Option Nat), m[j]? = some (n, e) →
    ∀ v ∈ f n, (findEntry m v).isSome

theorem rInv_init [DecidableEq N] (f : N → List N) (σ : N) :
    RInv f σ [(σ, none)] 0 0 := by
  have hroot : ([(σ, none)] : List (N × Option Nat))[0]? = some (σ, none) :=
    List.getElem?_cons_zero
  have hentry : ∀ (j : Nat) (n : N) (e : Option Nat),
      ([(σ, none)] : List (N × Option Nat))[j]? = some (n, e) →
      j = 0 ∧ n = σ ∧ e = none := by
    intro j n e hj
    cases j with
    | zero =>
      rw [List.getElem?_cons_zero] at hj
      have h12 := Option.some.inj hj
      injection h12 with h1 h2
      exact ⟨rfl, h1.symm, h2.symm⟩
    | succ j0 =>
      rw [List.getElem?_cons_succ, List.getElem?_eq_none (by simp)] at hj
      exact Option.noConfusion hj
  refine ⟨?_, by simp, hroot, ?_, ?_, by simp, ?_, ?_⟩
  · intro j n e hj
    obtain ⟨hj0, hn, he⟩ := hentry j n e hj
    subst hn
    subst he
    exact ⟨fun _ => by simp, fun p hp => Option.noConfusion hp⟩
  · intro j hj
    simp only [List.length_singleton] at hj
    have hj0 : j = 0 := by omega
    subst hj0
    rw [depthAt_root hroot]
  · intro j hj
    simp only [List.length_singleton] at hj
    have hj0 : j = 0 := by omega
    subst hj0
    rw [depthAt_root hroot]
  · rintro n ⟨l, hp, hl⟩
    have hnσ : n = σ := UPathFrom_single_inv hp (by omega)
    subst hnσ
    simp [findEntry]
  · intro j hj
    exact absurd hj (by omega)

/-- The ball around a seed grows into the next registry: any node within
radius `r + 1` is registered once every entry of depth at most `r` has
been scanned and the scanned closure holds. -/
theorem complete_succ [DecidableEq N] {f : N → List N} {σ : N}
    {own0 own2 : List (N × Option Nat)} {r i2 : Nat}
    (hcomp0 : ∀ n, InBallLe f σ r n → (findEntry own0 n).isSome)
    (hd0 : ∀ j, j < own0.length → depthAt own0 j ≤ r)
    (hpre : ∃ tl, own2 = own0 ++ tl)
    (hscan : ∀ j, j < own2.length → depthAt own2 j ≤ r → j < i2)
    (hclo : ∀ j, j < i2 → ∀ (n : N) (e : Option Nat), own2[j]? = some (n, e) →
      ∀ v ∈ f n, (findEntry own2 v).isSome) :
    ∀ v, InBallLe f σ (r+1) v → (findEntry own2 v).isSome := by
  obtain ⟨tl, htl⟩ := hpre
  rintro v ⟨l, hp, hl⟩
  rcases Nat.lt_or_ge l.length (r + 2) with hsmall | hbig
  · have hv0 := hcomp0 v ⟨l, hp, by omega⟩
    rw [htl]
    exact findEntry_isSome_append tl hv0
  · have hlen : l.length = r + 2 := by omega
    obtain ⟨l0, u, hdec, hpu, hvu⟩ := UPathFrom_snoc_inv hp (by omega)
    have hl0 : l0.length = r + 1 := by
      rw [hdec, List.length_append, List.length_singleton] at hlen
      omega
    have hu0 := hcomp0 u ⟨l0, hpu, by omega⟩
    obtain ⟨⟨ju, eu⟩, hqu⟩ := Option.isSome_iff_exists.1 hu0
    have hqu2 : findEntry own2 u = some (ju, eu) := by
      rw [htl]
      exact findEntry_append_some own0 tl u (ju, eu) hqu
    have hju := findEntry_some own2 u ju eu hqu2
    have hjulen0 : ju < own0.length :=
      (List.getElem?_eq_some_iff.1 (findEntry_some own0 u ju eu hqu)).1
    have hdju : depthAt own2 ju ≤ r := by
      rw [htl, depthAt_append own0 tl ju hjulen0]
      exact hd0 ju hjulen0
    have hjusc : ju < i2 := by
      refine hscan ju ?_ hdju
      rw [htl, List.length_append]
      omega
    exact hclo ju hjusc u eu hju v hvu

/-- One inner scan of the bidirectional search (`for … in fn(node)`):
structural facts, exact depth `r + 1` on fresh entries, preserved
disjointness and full registration on fall-through, and the meeting facts
on a break. -/
theorem bidiInner_char [DecidableEq N] {f : N → List N} {σ : N}
    {other : List (N × Option Nat)} {i r : Nat} {u : N} {e0 : Option Nat} :
    ∀ (ss : List N) (own own2 : List (N × Option Nat)) (res : Option N),
      BfsInv [σ] f own → (own.map Prod.fst).Nodup →
      own[i]? = some (u, e0) → (∀ x ∈ ss, x ∈ f u) →
      depthAt own i = r →
      (∀ j, j < own.length → depthAt own j ≤ r + 1) →
      Disj own other →
      bidiInner own other i ss = (own2, res) →
      (∃ tl, own2 = own ++ tl) ∧ BfsInv [σ] f own2 ∧
      (own2.map Prod.fst).Nodup ∧
      (∀ j, j < own2.length → depthAt own2 j ≤ r + 1) ∧
      (∀ j, own.length ≤ j → j < own2.length → depthAt own2 j = r + 1) ∧
      own2[i]? = some (u, e0) ∧
      (res = none → Disj own2 other ∧ (∀ x ∈ ss, (findEntry own2 x).isSome)) ∧
      (∀ v, res = some v → (findEntry other v).isSome ∧ (findEntry own2 v).isSome) := by
  intro ss
  induction ss with
  | nil =>
    intro own own2 res hbase hnd hu hss hdu hband hdisj hinner
    simp only [bidiInner] at hinner
    injection hinner with h1 h2
    subst h1
    subst h2
    refine ⟨⟨[], by simp⟩, hbase, hnd, hband, ?_, hu, ?_, ?_⟩
    · intro j hj1 hj2
      exact absurd hj2 (by omega)
    · intro _
      exact ⟨hdisj, fun x hx => absurd hx (by simp)⟩
    · intro v hv
      exact Option.noConfusion hv
  | cons s rest ih =>
    intro own own2 res hbase hnd hu hss hdu hband hdisj hinner
    simp only [bidiInner] at hinner
    have hilen : i < own.length := (List.getElem?_eq_some_iff.1 hu).1
    by_cases hfo : (findEntry own s).isSome
    · rw [if_pos hfo] at hinner
      by_cases hoth : (findEntry other s).isSome
      · rw [if_pos hoth] at hinner
        injection hinner with h1 h2
        subst h1
        subst h2
        refine ⟨⟨[], by simp⟩, hbase, hnd, hband, ?_, hu, ?_, ?_⟩
        · intro j hj1 hj2
          exact absurd hj2 (by omega)
        · intro hno
          exact Option.noConfusion hno
        · intro v hv
          have hsv : s = v := Option.some.inj hv
          subst hsv
          exact ⟨hoth, hfo⟩
      · rw [if_neg hoth] at hinner
        obtain ⟨⟨tl, htl⟩, hb2, hnd2, hband2, hnew2, hu2, hnone2, hsome2⟩ :=
          ih own own2 res hbase hnd hu (fun x hx => hss x (List.mem_cons_of_mem s hx))
            hdu hband hdisj hinner
        refine ⟨⟨tl, htl⟩, hb2, hnd2, hband2, hnew2, hu2, ?_, hsome2⟩
        intro hno
        obtain ⟨hd2, hin2⟩ := hnone2 hno
        refine ⟨hd2, ?_⟩
        intro x hx
        rcases List.mem_cons.1 hx with heq | hx2
        · subst heq
          obtain ⟨⟨js, es⟩, hq⟩ := Option.isSome_iff_exists.1 hfo
          rw [htl, findEntry_append_some own tl x (js, es) hq]
          rfl
        · exact hin2 x hx2
    · rw [if_neg hfo] at hinner
      have hfon : findEntry own s = none := by
        cases hq : findEntry own s
        · rfl
        · rw [hq] at hfo
          exact absurd rfl hfo
      have hbase3 : BfsInv [σ] f (own ++ [(s, some i)]) :=
        bfsInv_extend hbase hu (hss s (List.mem_cons_self s rest))
      have hnd3 : ((own ++ [(s, some i)]).map Prod.fst).Nodup :=
        nodup_append_fresh hnd hfon
      have hu3 : (own ++ [(s, some i)])[i]? = some (u, e0) := by
        rw [List.getElem?_append_left hilen]
        exact hu
      have hdu3 : depthAt (own ++ [(s, some i)]) i = r := by
        rw [depthAt_append own _ i hilen]
        exact hdu
      have hnewd : depthAt (own ++ [(s, some i)]) own.length = r + 1 := by
        rw [depthAt_par (List.getElem?_concat_length _ _) hilen,
          depthAt_append own _ i hilen, hdu]
      have hband3 : ∀ j, j < (own ++ [(s, some i)]).length →
          depthAt (own ++ [(s, some i)]) j ≤ r + 1 := by
        intro j hj
        simp only [List.length_append, List.length_singleton] at hj
        rcases Nat.lt_or_ge j own.length with hjo | hjo
        · rw [depthAt_append own _ j hjo]
          exact hband j hjo
        · have hj2 : j = own.length := by omega
          subst hj2
          rw [hnewd]
      by_cases hoth : (findEntry other s).isSome
      · rw [if_pos hoth] at hinner
        injection hinner with h1 h2
        subst h1
        subst h2
        refine ⟨⟨[(s, some i)], rfl⟩, hbase3, hnd3, hband3, ?_, hu3, ?_, ?_⟩
        · intro j hj1 hj2
          simp only [List.length_append, List.length_singleton] at hj2
          have hj3 : j = own.length := by omega
          subst hj3
          exact hnewd
        · intro hno
          exact Option.noConfusion hno
        · intro v hv
          have hsv : s = v := Option.some.inj hv
          subst hsv
          refine ⟨hoth, ?_⟩
          rw [findEntry_append_fresh own s (some i) hfon]
          rfl
      · rw [if_neg hoth] at hinner
        have hdisj3 : Disj (own ++ [(s, some i)]) other := by
          intro n h1 h2
          obtain ⟨⟨jn, en⟩, hq⟩ := Option.isSome_iff_exists.1 h1
          have hjn := findEntry_some _ n jn en hq
          rcases Nat.lt_or_ge jn own.length with hlt | hge
          · rw [List.getElem?_append_left hlt] at hjn
            exact hdisj n (findEntry_isSome_of_entry hjn) h2
          · have hjn2 : jn = own.length := by
              have := (List.getElem?_eq_some_iff.1 hjn).1
              simp only [List.length_append, List.length_singleton] at this
              omega
            subst hjn2
            rw [List.getElem?_concat_length] at hjn
            have h12 := Option.some.inj hjn
            injection h12 with hn1 _
            subst hn1
            exact hoth h2
        obtain ⟨⟨tl, htl⟩, hb2, hnd2, hband2, hnew2, hu2, hnone2, hsome2⟩ :=
          ih (own ++ [(s, some i)]) own2 res hbase3 hnd3 hu3
            (fun x hx => hss x (List.mem_cons_of_mem s hx)) hdu3 hband3 hdisj3 hinner
        refine ⟨⟨(s, some i) :: tl, by rw [htl]; simp⟩, hb2, hnd2, hband2, ?_, hu2, ?_, hsome2⟩
        · intro j hj1 hj2
          rcases Nat.lt_or_ge j (own.length + 1) with hjo | hjo
          · have hj3 : j = own.length := by omega
            subst hj3
            have hjlen : own.length < (own ++ [(s, some i)]).length := by simp
            rw [htl, depthAt_append _ tl own.length hjlen]
            exact hnewd
          · exact hnew2 j (by simp only [List.length_append, List.length_singleton]; omega) hj2
        · intro hno
          obtain ⟨hd2, hin2⟩ := hnone2 hno
          refine ⟨hd2, ?_⟩
          intro x hx
          rcases List.mem_cons.1 hx with heq | hx2
          · subst heq
            rw [htl, findEntry_append_some _ tl x (own.length, some i)
              (findEntry_append_fresh own x (some i) hfon)]
            rfl
          · exact hin2 x hx2



/-- One full scan phase of the bidirectional search, from a mid-phase
state: all snapshot entries have depth `r`, fresh entries get depth
`r + 1`, and the phase either falls through (advancing the cursor to the
snapshot end, preserving disjointness and establishing the next level) or
breaks out with a meeting node registered on both sides. -/
theorem bidiPhase_mid [DecidableEq N] {f : N → List N} {σ : N}
    {other : List (N × Option Nat)} {r : Nat} :
    ∀ (k : Nat) (own : List (N × Option Nat)) (i : Nat)
      (own2 : List (N × Option Nat)) (i2 : Nat) (res : Option N),
      BfsInv [σ] f own → (own.map Prod.fst).Nodup → own[0]? = some (σ, none) →
      (∀ j, j < own.length → (j < i + k ↔ depthAt own j ≤ r)) →
      (∀ j, i ≤ j → j < i + k → depthAt own j = r) →
      (∀ j, j < own.length → depthAt own j ≤ r + 1) →
      i + k ≤ own.length →
      (∀ j, j < i → ∀ (n : N) (e : Option Nat), own[j]? = some (n, e) →
        ∀ v ∈ f n, (findEntry own v).isSome) →
      Disj own other →
      bidiPhase f k own other i = (own2, i2, res) →
      (∃ tl, own2 = own ++ tl) ∧ BfsInv [σ] f own2 ∧
      (own2.map Prod.fst).Nodup ∧ own2[0]? = some (σ, none) ∧
      (∀ j, j < own2.length → depthAt own2 j ≤ r + 1) ∧
      (res = none → i2 = i + k ∧ i2 ≤ own2.length ∧
        (∀ j, j < own2.length → (j < i2 ↔ depthAt own2 j ≤ r)) ∧
        (∀ j, j < i2 → ∀ (n : N) (e : Option Nat), own2[j]? = some (n, e) →
          ∀ v ∈ f n, (findEntry own2 v).isSome) ∧
        Disj own2 other) ∧
      (∀ v, res = some v → (findEntry other v).isSome ∧ (findEntry own2 v).isSome) := by
  intro k
  induction k with
  | zero =>
    intro own i own2 i2 res hbase hnd hroot h3 h4 h5 h2 hclo hdisj hph
    simp only [bidiPhase] at hph
    injection hph with h1 hrest
    injection hrest with hA hB
    subst h1
    subst hA
    subst hB
    refine ⟨⟨[], by simp⟩, hbase, hnd, hroot, h5, ?_, ?_⟩
    · intro _
      refine ⟨by omega, by omega, ?_, hclo, hdisj⟩
      intro j hj
      have h6 := h3 j hj
      rw [Nat.add_zero] at h6
      exact h6
    · intro v hv
      exact Option.noConfusion hv
  | succ k ih =>
    intro own i own2 i2 res hbase hnd hroot h3 h4 h5 h2 hclo hdisj hph
    simp only [bidiPhase] at hph
    cases hu : own[i]? with
    | none =>
      rw [List.getElem?_eq_none_iff] at hu
      exact absurd hu (by omega)
    | some ue =>
      obtain ⟨u, e0⟩ := ue
      rw [hu] at hph
      simp only at hph
      have hilen : i < own.length := (List.getElem?_eq_some_iff.1 hu).1
      cases hinner : bidiInner own other i (f u) with
      | mk own3 res3 =>
      rw [hinner] at hph
      have hdu : depthAt own i = r := h4 i (Nat.le_refl i) (by omega)
      obtain ⟨⟨tl3, htl3⟩, hb3, hnd3, hband3, hnew3, hu3, hnone3, hsome3⟩ :=
        bidiInner_char (f u) own own3 res3 hbase hnd hu (fun x hx => hx) hdu h5 hdisj hinner
      cases res3 with
      | some v =>
        simp only at hph
        injection hph with h1 hrest
        injection hrest with hA hB
        subst h1
        subst hA
        subst hB
        refine ⟨⟨tl3, htl3⟩, hb3, hnd3, ?_, hband3, ?_, ?_⟩
        · rw [htl3, List.getElem?_append_left (by omega : 0 < own.length)]
          exact hroot
        · intro hno
          exact Option.noConfusion hno
        · intro w hw
          have hvw : v = w := Option.some.inj hw
          subst hvw
          exact hsome3 v rfl
      | none =>
        simp only at hph
        obtain ⟨hd3, hreg3⟩ := hnone3 rfl
        have hlen3 : own.length ≤ own3.length := by
          rw [htl3, List.length_append]
          omega
        have hroot3 : own3[0]? = some (σ, none) := by
          rw [htl3, List.getElem?_append_left (by omega : 0 < own.length)]
          exact hroot
        have h3a : ∀ j, j < own3.length → (j < (i+1) + k ↔ depthAt own3 j ≤ r) := by
          intro j hj
          rcases Nat.lt_or_ge j own.length with hjo | hjo
          · rw [htl3, depthAt_append own tl3 j hjo]
            have h6 := h3 j hjo
            constructor
            · intro h7
              exact h6.1 (by omega)
            · intro h7
              have := h6.2 h7
              omega
          · have hdj : depthAt own3 j = r + 1 := hnew3 j hjo hj
            constructor
            · intro h7
              exact absurd h7 (by omega)
            · intro h7
              rw [hdj] at h7
              exact absurd h7 (by omega)
        have h4a : ∀ j, i+1 ≤ j → j < (i+1) + k → depthAt own3 j = r := by
          intro j hj1 hj2
          have hjo : j < own.length := by omega
          rw [htl3, depthAt_append own tl3 j hjo]
          exact h4 j (by omega) (by omega)
        have h2a : (i+1) + k ≤ own3.length := by omega
        have hcloa : ∀ j, j < i+1 → ∀ (n : N) (e : Option Nat), own3[j]? = some (n, e) →
            ∀ v ∈ f n, (findEntry own3 v).isSome := by
          intro j hj n e hje v hv
          rcases Nat.lt_or_ge j i with hji | hji
          · have hjo : j < own.length := by omega
            rw [htl3, List.getElem?_append_left hjo] at hje
            have h8 := hclo j hji n e hje v hv
            rw [htl3]
            exact findEntry_isSome_append tl3 h8
          · have hj_eq : j = i := by omega
            subst hj_eq
            rw [hu3] at hje
            have h12 := Option.some.inj hje
            injection h12 with hn1 _
            subst hn1
            exact hreg3 v hv
        obtain ⟨⟨tl4, htl4⟩, hb4, hnd4, hroot4, hband4, hnone4, hsome4⟩ :=
          ih own3 (i+1) own2 i2 res hb3 hnd3 hroot3 h3a h4a hband3 h2a hcloa hd3 hph
        refine ⟨⟨tl3 ++ tl4, by rw [htl4, htl3, List.append_assoc]⟩, hb4, hnd4, hroot4,
          hband4, ?_, hsome4⟩
        intro hno
        obtain ⟨hi2, hi2le, hsc4, hclo4, hdisj4⟩ := hnone4 hno
        exact ⟨by omega, hi2le, hsc4, hclo4, hdisj4⟩

/-- A full phase run from a round-invariant state: fall-through advances
the round, a break yields a meeting node registered on both sides. -/
theorem bidiPhase_round [DecidableEq N] {f : N → List N} {σ : N}
    {other : List (N × Option Nat)} {r : Nat}
    {own : List (N × Option Nat)} {i : Nat}
    (hR : RInv f σ own i r) (hdisj : Disj own other)
    {own2 : List (N × Option Nat)} {i2 : Nat} {res : Option N}
    (hph : bidiPhase f (own.length - i) own other i = (own2, i2, res)) :
    (∃ tl, own2 = own ++ tl) ∧
    (res = none → RInv f σ own2 i2 (r+1) ∧ Disj own2 other ∧ i2 = own.length) ∧
    (∀ v, res = some v → BfsInv [σ] f own2 ∧ (own2.map Prod.fst).Nodup ∧
      (∀ j, j < own2.length → depthAt own2 j ≤ r + 1) ∧
      (findEntry other v).isSome ∧ (findEntry own2 v).isSome) := by
  have hile := hR.i_le
  have hik : i + (own.length - i) = own.length := by omega
  have h3 : ∀ j, j < own.length → (j < i + (own.length - i) ↔ depthAt own j ≤ r) := by
    intro j hj
    rw [hik]
    exact ⟨fun _ => hR.depth_le j hj, fun _ => hj⟩
  have h4 : ∀ j, i ≤ j → j < i + (own.length - i) → depthAt own j = r := by
    intro j hj1 hj2
    rw [hik] at hj2
    have hsc := hR.scan_iff j hj2
    have hd := hR.depth_le j hj2
    have hnot : ¬ depthAt own j < r := fun hlt => absurd (hsc.2 hlt) (by omega)
    omega
  have h5 : ∀ j, j < own.length → depthAt own j ≤ r + 1 := by
    intro j hj
    have := hR.depth_le j hj
    omega
  obtain ⟨htl, hb2, hnd2, hroot2, hband2, hnone2, hsome2⟩ :=
    bidiPhase_mid (own.length - i) own i own2 i2 res hR.base hR.nodup hR.root
      h3 h4 h5 (by omega) hR.closure hdisj hph
  refine ⟨htl, ?_, ?_⟩
  · intro hno
    obtain ⟨hi2, hi2le, hsc2, hclo2, hdisj2⟩ := hnone2 hno
    rw [hik] at hi2
    have hR2 : RInv f σ own2 i2 (r+1) := by
      refine ⟨hb2, hnd2, hroot2, hband2, ?_, hi2le, ?_, hclo2⟩
      · intro j hj
        have h6 := hsc2 j hj
        constructor
        · intro h7
          have := h6.1 h7
          omega
        · intro h7
          exact h6.2 (by omega)
      · exact complete_succ hR.complete hR.depth_le htl
          (fun j hj hd => (hsc2 j hj).2 hd) hclo2
    exact ⟨hR2, hdisj2, hi2⟩
  · intro v hv
    obtain ⟨ho, hs⟩ := hsome2 v hv
    exact ⟨hb2, hnd2, hband2, ho, hs⟩



/-- A shortest walk between two nodes, measured in edges (`L` edges,
`L + 1` nodes). -/
def ShortestPathLen (f : N → List N) (s e : N) (L : Nat) : Prop :=
  (∃ l, UPathFrom f s l e ∧ l.length = L + 1) ∧
  (∀ l, UPathFrom f s l e → L + 1 ≤ l.length)

theorem disj_ball_bound [DecidableEq N] {f : N → List N} {s e : N}
    {preds succsR : List (N × Option Nat)} {A B : Nat}
    (hsym : ∀ x y : N, x ∈ f y ↔ y ∈ f x)
    (hcp : ∀ n, InBallLe f s A n → (findEntry preds n).isSome)
    (hcs : ∀ n, InBallLe f e B n → (findEntry succsR n).isSome)
    (hdisj : Disj preds succsR) :
    ∀ l, UPathFrom f s l e → A + B + 2 ≤ l.length :=
  balls_disjoint_length hsym (fun n h1 h2 => hdisj n (hcp n h1) (hcs n h2))

/-- A node registered on both sides realizes a shortest `s`-to-`e` walk of
exactly the sum of its two chain depths. -/
theorem meeting_shortest [DecidableEq N] {f : N → List N} {s e : N}
    (hsym : ∀ x y : N, x ∈ f y ↔ y ∈ f x)
    {preds succsR : List (N × Option Nat)} {v : N} {A B : Nat}
    (hbp : BfsInv [s] f preds) (hbs : BfsInv [e] f succsR)
    (hdp : ∀ j, j < preds.length → depthAt preds j ≤ A)
    (hds : ∀ j, j < succsR.length → depthAt succsR j ≤ B)
    (hlow : ∀ l, UPathFrom f s l e → A + B + 1 ≤ l.length)
    {jp : Nat} {ep : Option Nat} {js : Nat} {es : Option Nat}
    (hfp : findEntry preds v = some (jp, ep))
    (hfs : findEntry succsR v = some (js, es)) :
    ShortestPathLen f s e (depthAt preds jp + depthAt succsR js) := by
  have hjp := findEntry_some preds v jp ep hfp
  have hjplen : jp < preds.length := (List.getElem?_eq_some_iff.1 hjp).1
  have hjs := findEntry_some succsR v js es hfs
  have hjslen : js < succsR.length := (List.getElem?_eq_some_iff.1 hjs).1
  obtain ⟨lf, hlf, hlenf⟩ := chain_path hbp jp v ep hjp
  obtain ⟨lb, hlb, hlenb⟩ := chain_path hbs js v es hjs
  have hrev := UPathFrom_reverse hsym hlb
  have hcomp := UPathFrom_concat hlf hrev
  have hcomplen : (lf.dropLast ++ lb.reverse).length =
      depthAt preds jp + depthAt succsR js + 1 := by
    rw [List.length_append, List.length_dropLast, List.length_reverse, hlenf, hlenb]
    omega
  refine ⟨⟨lf.dropLast ++ lb.reverse, hcomp, hcomplen⟩, ?_⟩
  intro l hl
  have h1 := hlow l hl
  have hdA := hdp jp hjplen
  have hdB := hds js hjslen
  omega

theorem walkChain_length [DecidableEq N] {σ : N} {f : N → List N}
    {reg : List (N × Option Nat)} (hbase : BfsInv [σ] f reg)
    (hnd : (reg.map Prod.fst).Nodup) :
    ∀ (fuel : Nat) (n : N) (j : Nat) (e : Option Nat),
      findEntry reg n = some (j, e) → depthAt reg j < fuel →
      (walkChain reg fuel n).length = depthAt reg j + 1 := by
  intro fuel
  induction fuel with
  | zero =>
    intro n j e hfe hd
    exact absurd hd (by omega)
  | succ fl ih =>
    intro n j e hfe hd
    have hj := findEntry_some reg n j e hfe
    simp only [walkChain, hfe]
    cases e with
    | none => simp [depthAt_root hj]
    | some p =>
      obtain ⟨hpj, ⟨pk, pe⟩, hq, _⟩ := (hbase j n (some p) hj).2 p rfl
      simp only [hq]
      have hfep : findEntry reg pk = some (p, pe) := findEntry_of_nodup reg hnd p pk pe hq
      have hdp2 : depthAt reg j = depthAt reg p + 1 := depthAt_par hj hpj
      simp only [List.length_cons]
      rw [ih pk p pe hfep (by omega), hdp2]

/-- The assembled bidirectional path has one node more than the sum of the
meeting node's chain depths in the two registries. -/
theorem bidiAssemble_length [DecidableEq N] {s e : N} {f : N → List N}
    {preds succsR : List (N × Option Nat)}
    (hbp : BfsInv [s] f preds) (hnp : (preds.map Prod.fst).Nodup)
    (hbs : BfsInv [e] f succsR) (hns : (succsR.map Prod.fst).Nodup)
    {v : N} {jp : Nat} {ep : Option Nat} {js : Nat} {es : Option Nat}
    (hfp : findEntry preds v = some (jp, ep))
    (hfs : findEntry succsR v = some (js, es)) :
    (bidiAssemble preds succsR v).length =
      depthAt preds jp + depthAt succsR js + 1 := by
  have hjp := findEntry_some preds v jp ep hfp
  have hjplen : jp < preds.length := (List.getElem?_eq_some_iff.1 hjp).1
  have hdjp : depthAt preds jp < preds.length + 1 := by
    have := depthAt_le_self preds jp
    omega
  have hbefore : (walkChain preds (preds.length + 1) v).length = depthAt preds jp + 1 :=
    walkChain_length hbp hnp (preds.length + 1) v jp ep hfp hdjp
  have hjs := findEntry_some succsR v js es hfs
  have hjslen : js < succsR.length := (List.getElem?_eq_some_iff.1 hjs).1
  simp only [bidiAssemble, hfs]
  cases es with
  | none =>
    simp only [List.length_append, List.length_reverse, hbefore, List.length_nil]
    rw [depthAt_root hjs]
  | some ip =>
    obtain ⟨hipj, ⟨ik, ie⟩, hiq, _⟩ := (hbs js v (some ip) hjs).2 ip rfl
    simp only [hiq]
    have hfik : findEntry succsR ik = some (ip, ie) :=
      findEntry_of_nodup succsR hns ip ik ie hiq
    have hdip : depthAt succsR ip < succsR.length + 1 := by
      have := depthAt_le_self succsR ip
      omega
    have hafter := walkChain_length hbs hns (succsR.length + 1) ik ip ie hfik hdip
    simp only [List.length_append, List.length_reverse, hbefore, hafter]
    rw [depthAt_par hjs hipj]
    omega

theorem singleton_key {k n : N} {w v : V} {j : Nat}
    (h : ([(k, w)] : List (N × V))[j]? = some (n, v)) : j = 0 ∧ n = k ∧ v = w := by
  cases j with
  | zero =>
    rw [List.getElem?_cons_zero] at h
    have h12 := Option.some.inj h
    injection h12 with h1 h2
    exact ⟨rfl, h1.symm, h2.symm⟩
  | succ j0 =>
    rw [List.getElem?_cons_succ, List.getElem?_eq_none (by simp)] at h
    exact Option.noConfusion h

/-- Full characterization of a terminated bidirectional loop from
round-invariant disjoint registries: `none` means no walk exists, and a
meeting node is registered on both sides realizing a shortest walk. -/
theorem bidiLoop_char [DecidableEq N] {f : N → List N} {s e : N}
    (hsym : ∀ x y : N, x ∈ f y ↔ y ∈ f x) :
    ∀ (fuel : Nat) (preds succsR : List (N × Option Nat)) (i_f i_b r : Nat)
      (res : Option N × List (N × Option Nat) × List (N × Option Nat)),
      RInv f s preds i_f r → RInv f e succsR i_b r → Disj preds succsR →
      bidiLoop f f fuel preds succsR i_f i_b = some res →
      (res.1 = none → ∀ l, ¬ UPathFrom f s l e) ∧
      (∀ v, res.1 = some v →
        ∃ (jp : Nat) (ep : Option Nat) (js : Nat) (es : Option Nat),
          findEntry res.2.1 v = some (jp, ep) ∧
          findEntry res.2.2 v = some (js, es) ∧
          ShortestPathLen f s e (depthAt res.2.1 jp + depthAt res.2.2 js) ∧
          BfsInv [s] f res.2.1 ∧ BfsInv [e] f res.2.2 ∧
          (res.2.1.map Prod.fst).Nodup ∧ (res.2.2.map Prod.fst).Nodup) := by
  intro fuel
  induction fuel with
  | zero =>
    intro preds succsR i_f i_b r res _ _ _ h
    simp only [bidiLoop] at h
    exact Option.noConfusion h
  | succ fl ih =>
    intro preds succsR i_f i_b r res hRp hRs hdisj hrun
    simp only [bidiLoop] at hrun
    cases hph1 : bidiPhase f (preds.length - i_f) preds succsR i_f with
    | mk preds2 rest1 =>
    obtain ⟨i_f2, res1⟩ := rest1
    rw [hph1] at hrun
    obtain ⟨htlp, hnonep, hsomep⟩ := bidiPhase_round hRp hdisj hph1
    cases res1 with
    | some v =>
      simp only at hrun
      have hres := Option.some.inj hrun
      subst hres
      refine ⟨fun h0 => Option.noConfusion h0, ?_⟩
      intro w hw
      have hvw : v = w := Option.some.inj hw
      subst hvw
      obtain ⟨hb2, hnd2, hband2, hos, hs2⟩ := hsomep v rfl
      obtain ⟨⟨js, es⟩, hfs⟩ := Option.isSome_iff_exists.1 hos
      obtain ⟨⟨jp, ep⟩, hfp⟩ := Option.isSome_iff_exists.1 hs2
      refine ⟨jp, ep, js, es, hfp, hfs, ?_, hb2, hRs.base, hnd2, hRs.nodup⟩
      refine meeting_shortest hsym hb2 hRs.base hband2 hRs.depth_le ?_ hfp hfs
      have hbb := disj_ball_bound hsym hRp.complete hRs.complete hdisj
      intro l hl
      have := hbb l hl
      omega
    | none =>
      simp only at hrun
      obtain ⟨hRp2, hdisj2, hif2⟩ := hnonep rfl
      cases hph2 : bidiPhase f (succsR.length - i_b) succsR preds2 i_b with
      | mk succs2 rest2 =>
      obtain ⟨i_b2, res2⟩ := rest2
      rw [hph2] at hrun
      obtain ⟨htls, hnones, hsomes⟩ := bidiPhase_round hRs (Disj_symm hdisj2) hph2
      cases res2 with
      | some v =>
        simp only at hrun
        have hres := Option.some.inj hrun
        subst hres
        refine ⟨fun h0 => Option.noConfusion h0, ?_⟩
        intro w hw
        have hvw : v = w := Option.some.inj hw
        subst hvw
        obtain ⟨hbs2, hnds2, hbands2, hop, hss2⟩ := hsomes v rfl
        obtain ⟨⟨jp, ep⟩, hfp⟩ := Option.isSome_iff_exists.1 hop
        obtain ⟨⟨js, es⟩, hfs⟩ := Option.isSome_iff_exists.1 hss2
        refine ⟨jp, ep, js, es, hfp, hfs, ?_, hRp2.base, hbs2, hRp2.nodup, hnds2⟩
        refine meeting_shortest hsym hRp2.base hbs2 hRp2.depth_le hbands2 ?_ hfp hfs
        have hbb := disj_ball_bound hsym hRp2.complete hRs.complete hdisj2
        intro l hl
        have := hbb l hl
        omega
      | none =>
        simp only at hrun
        obtain ⟨hRs2, hdisjs2, hib2⟩ := hnones rfl
        by_cases hexit : i_f2 = preds2.length ∧ i_b2 = succs2.length
        · rw [if_pos hexit] at hrun
          have hres := Option.some.inj hrun
          subst hres
          refine ⟨?_, ?_⟩
          · intro _ l hl
            have he1 := hexit.1
            have hclo : ∀ n, (findEntry preds2 n).isSome →
                ∀ v ∈ f n, (findEntry preds2 v).isSome := by
              intro n hn v hv
              obtain ⟨⟨jn, en⟩, hq⟩ := Option.isSome_iff_exists.1 hn
              have hjn := findEntry_some preds2 n jn en hq
              have hjlt : jn < preds2.length := (List.getElem?_eq_some_iff.1 hjn).1
              exact hRp2.closure jn (by omega) n en hjn v hv
            have hKe : (findEntry preds2 e).isSome :=
              path_trap hclo hl (findEntry_isSome_of_entry hRp2.root)
            have hKe2 : (findEntry succs2 e).isSome :=
              findEntry_isSome_of_entry hRs2.root
            exact hdisjs2 e hKe2 hKe
          · intro w hw
            exact Option.noConfusion hw
        · rw [if_neg hexit] at hrun
          exact ih preds2 succs2 i_f2 i_b2 (r+1) res hRp2 hRs2 (Disj_symm hdisjs2) hrun

/-- Characterization of a terminated `bfs_bidirectional` run on distinct
single start and end nodes with a symmetric successor function: `Some
none` means no walk from `start` to `end` exists, and a returned path has
exactly one node more than a shortest-walk edge count. -/
theorem bidi_char [DecidableEq N] {f : N → List N} {s e : N}
    (hsym : ∀ x y : N, x ∈ f y ↔ y ∈ f x) (hne : s ≠ e)
    {fuel : Nat} {r1 : Option (List N)}
    (hrun : bfs_bidirectional fuel [s] [e] f f = some r1) :
    (r1 = none → ∀ l, ¬ UPathFrom f s l e) ∧
    (∀ p, r1 = some p → ∃ L, ShortestPathLen f s e L ∧ p.length = L + 1) := by
  simp only [bfs_bidirectional] at hrun
  cases hloop : bidiLoop f f fuel (seedReg [s]) (seedReg [e]) 0 0 with
  | none =>
    rw [hloop] at hrun
    exact Option.noConfusion hrun
  | some trip =>
    rw [hloop] at hrun
    simp only [Option.map_some'] at hrun
    obtain ⟨mid, preds2, succs2⟩ := trip
    have hseeds : seedReg [s] = [(s, none)] := rfl
    have hseede : seedReg [e] = [(e, none)] := rfl
    rw [hseeds, hseede] at hloop
    have hdisj0 : Disj [(s, none)] [(e, none)] := by
      intro n h1 h2
      obtain ⟨⟨j1, e1⟩, hq1⟩ := Option.isSome_iff_exists.1 h1
      obtain ⟨⟨j2, e2⟩, hq2⟩ := Option.isSome_iff_exists.1 h2
      obtain ⟨_, hn1, _⟩ := singleton_key (findEntry_some _ n j1 e1 hq1)
      obtain ⟨_, hn2, _⟩ := singleton_key (findEntry_some _ n j2 e2 hq2)
      exact hne (hn1 ▸ hn2 ▸ rfl)
    have hchar := bidiLoop_char hsym fuel [(s, none)] [(e, none)] 0 0 0
      (mid, preds2, succs2) (rInv_init f s) (rInv_init f e) hdisj0 hloop
    have hr1 := Option.some.inj hrun
    cases mid with
    | none =>
      simp only at hr1
      subst hr1
      refine ⟨fun _ => hchar.1 rfl, ?_⟩
      intro p hp
      exact Option.noConfusion hp
    | some v =>
      simp only at hr1
      subst hr1
      refine ⟨fun h0 => Option.noConfusion h0, ?_⟩
      intro p hp
      have hpe := Option.some.inj hp
      subst hpe
      obtain ⟨jp, ep, js, es, hfp, hfs, hshort, hbp, hbs, hnp, hns⟩ := hchar.2 v rfl
      exact ⟨depthAt preds2 jp + depthAt succs2 js, hshort,
        bidiAssemble_length hbp hnp hbs hns hfp hfs⟩



/-- Claim C3 (counterexample to the original claim).  With the same
(symmetric) successor function on both sides and `start = end` on an
isolated node, `bfs` returns the trivial one-node path through its initial
goal check, while `bfs_bidirectional` — which never tests the seeded nodes
for a meeting — reports that no path exists.  So it is not the case that
each returns `Some` exactly when the other does. -/
theorem claim_C3_counterexample :
    (∀ a b : Nat, a ∈ (fun _ : Nat => ([] : List Nat)) b ↔
      b ∈ (fun _ : Nat => ([] : List Nat)) a) ∧
    bfs_bidirectional 1 [0] [0] (fun _ : Nat => ([] : List Nat))
      (fun _ : Nat => ([] : List Nat)) = some none ∧
    bfs 1 [0] (fun _ : Nat => ([] : List Nat)) (fun n => decide (n = 0)) =
      some (some [0]) := by
  refine ⟨by simp, ?_, ?_⟩
  · rfl
  · rfl

/-- Claim C3 (amended: `start ≠ end`).  For distinct start and end nodes
and one symmetric successor function used in both directions, over every
pair of terminated runs, `bfs_bidirectional` returns `Some` exactly when
`bfs` towards the same end node does, and the two returned paths have the
same length (hence the same number of edges); both are shortest paths. -/
theorem claim_C3_bidi_vs_bfs {N : Type} [DecidableEq N] (f : N → List N) (s e : N)
    (hsym : ∀ a b : N, a ∈ f b ↔ b ∈ f a) (hne : s ≠ e)
    (fuel1 fuel2 : Nat) (r1 r2 : Option (List N))
    (h1 : bfs_bidirectional fuel1 [s] [e] f f = some r1)
    (h2 : bfs fuel2 [s] f (fun n => decide (n = e)) = some r2) :
    (r1.isSome ↔ r2.isSome) ∧
    (∀ p1 p2, r1 = some p1 → r2 = some p2 → p1.length = p2.length) := by
  have hgs : (decide (s = e) : Bool) = false := by simp [hne]
  have hb := bidi_char hsym hne h1
  have hf := bfs_char h2 hgs
  constructor
  · constructor
    · intro h1s
      obtain ⟨p1, hp1⟩ := Option.isSome_iff_exists.1 h1s
      obtain ⟨L, hshort, hlen⟩ := hb.2 p1 hp1
      cases hr2 : r2 with
      | some p2 => rfl
      | none =>
        exfalso
        obtain ⟨⟨l, hl, _⟩, _⟩ := hshort
        have := hf.1 hr2 l e hl
        simp at this
    · intro h2s
      obtain ⟨p2, hp2⟩ := Option.isSome_iff_exists.1 h2s
      obtain ⟨t, hgt, hpath, hmin⟩ := hf.2 p2 hp2
      have hte : t = e := by simpa using hgt
      subst hte
      cases hr1 : r1 with
      | some p1 => rfl
      | none =>
        exfalso
        exact hb.1 hr1 p2 hpath
  · intro p1 p2 hp1 hp2
    obtain ⟨L, hshort, hlen1⟩ := hb.2 p1 hp1
    obtain ⟨t, hgt, hpath, hmin⟩ := hf.2 p2 hp2
    have hte : t = e := by simpa using hgt
    subst hte
    obtain ⟨⟨lw, hlw, hlwlen⟩, hlower⟩ := hshort
    have hup : p2.length ≤ L + 1 := by
      have := hmin lw t hlw (by simp)
      omega
    have hdown : L + 1 ≤ p2.length := hlower p2 hpath
    omega

/-- Two-node symmetric graph `0 — 1` for the C3 witness. -/
def c3succs : Fin 2 → List (Fin 2) := fun n => if n = 0 then [1] else [0]

/-- Witness for the amended C3: on the symmetric edge `0 — 1`, both
searches terminate with the path `[0, 1]`, and the theorem certifies the
`Some`-iff and the length agreement. -/
theorem claim_C3_witness :
    ((some [0, 1] : Option (List (Fin 2))).isSome ↔
      (some [0, 1] : Option (List (Fin 2))).isSome) ∧
    (∀ p1 p2, (some [0, 1] : Option (List (Fin 2))) = some p1 →
      (some [0, 1] : Option (List (Fin 2))) = some p2 → p1.length = p2.length) :=
  claim_C3_bidi_vs_bfs c3succs 0 1 (by decide) (by decide) 2 2
    (some [0, 1]) (some [0, 1]) (by decide) (by decide)


end PF
